import Mathlib

/-!
Galloping interpolation search and STISLA: a shallow embedding.

Embedding of `gis_bench.c` (`bin_search`, `gis_search`) and `stisla_search.c`
(`ensure_cap`, `anchor_lower`, `anchor_insert`, `stisla_search`, `bin_search`).

Conventions of the embedding.

* An array argument `const int64_t *a, size_t n` is a function `a : Nat → Int`
  together with its length `n`; reading `a[i]` with `n ≤ i` is a fault.
* `size_t` values are naturals below `2^64`, `int64_t` values are integers in
  `[-2^63, 2^63)`.  Arithmetic that can leave the range is reduced explicitly
  (`% 2^64`, `wrap64`).
* A finite `double` is the rational number it denotes.  Conversions and the
  arithmetic operations round to nearest, ties to even, with a 53 bit
  significand (`f64`).  The magnitudes that occur (quotients and products of
  integers below `2^64`) stay far away from the exponent limits of binary64, so
  the exponent range is not modelled.  A division by zero never happens after
  the guards of the code on `int64_t` inputs.
* Converting a `double` to `size_t` truncates toward zero; when the truncated
  value is not a `size_t` the conversion is undefined and the run is a fault.
* Loops that can fail to terminate take fuel; running out is `Result.timeout`.
-/

/-! ## Machine arithmetic -/

/-- The constant `SIZE_MAX`, used as the NOT_FOUND sentinel. -/
def SIZE_MAX : Nat := 2 ^ 64 - 1

/-- Predicate: `z` is representable as an `int64_t`. -/
def IsInt64 (z : Int) : Prop := -2 ^ 63 ≤ z ∧ z < 2 ^ 63

instance (z : Int) : Decidable (IsInt64 z) := by
  unfold IsInt64; infer_instance

/-- Two's complement reduction of an integer to the `int64_t` range, the
value `(z + 2^63) % 2^64 - 2^63`; the case without wrap-around is a branch of
its own. -/
@[irreducible]
def wrap64 (z : Int) : Int :=
  if -2 ^ 63 ≤ z ∧ z < 2 ^ 63 then z else (z + 2 ^ 63) % 2 ^ 64 - 2 ^ 63

/-- Addition of two `size_t`, the value `(x + y) % 2^64`; the case without
wrap-around is a branch of its own. -/
@[irreducible]
def uadd (x y : Nat) : Nat :=
  if x + y < 2 ^ 64 then x + y else (x + y) % 2 ^ 64

/-- Subtraction of two `size_t`, the value `(x + 2^64 - y) % 2^64`; the case
without wrap-around is a branch of its own. -/
@[irreducible]
def usub (x y : Nat) : Nat :=
  if y ≤ x ∧ x < 2 ^ 64 then x - y else (x + 2 ^ 64 - y % 2 ^ 64) % 2 ^ 64

/-- Product of two `size_t`, the value `(x * y) % 2^64`; the case without
wrap-around is a branch of its own. -/
@[irreducible]
def umul (x y : Nat) : Nat :=
  if x * y < 2 ^ 64 then x * y else (x * y) % 2 ^ 64

/-! ## Binary64 arithmetic on the rationals -/

/-- Nearest integer, ties to the even one. -/
@[irreducible]
def roundHalfEven (q : ℚ) : ℤ :=
  if q - ⌊q⌋ < 1 / 2 then ⌊q⌋
  else if 1 / 2 < q - ⌊q⌋ then ⌊q⌋ + 1
  else if ⌊q⌋ % 2 = 0 then ⌊q⌋ else ⌊q⌋ + 1

/-- Unit in the last place of the binade of a positive rational, for a 53 bit
significand. -/
@[irreducible]
def ulp (q : ℚ) : ℚ := 2 ^ (Int.log 2 q - 52)

/-- Rounding of a non-negative rational to binary64. -/
@[irreducible]
def f64_abs (q : ℚ) : ℚ := roundHalfEven (q / ulp q) * ulp q

/-- Rounding of a rational to the nearest binary64 value, ties to even. -/
@[irreducible]
def f64 (q : ℚ) : ℚ := if q < 0 then -f64_abs (-q) else f64_abs q

/-- Conversion `(double)z` of an integer. -/
@[irreducible]
def f64_of_int (z : Int) : ℚ := f64 z

/-- Conversion `(double)k` of a `size_t`. -/
@[irreducible]
def f64_of_size (k : Nat) : ℚ := f64 k

/-- Division of two doubles. -/
@[irreducible]
def f64_div (x y : ℚ) : ℚ := f64 (x / y)

/-- Product of two doubles. -/
@[irreducible]
def f64_mul (x y : ℚ) : ℚ := f64 (x * y)

/-- Conversion `(size_t)d` of a double: truncation toward zero, undefined
(`none`) when the truncated value is negative or at least `2^64`. -/
@[irreducible]
def f64_to_size (d : ℚ) : Option Nat :=
  if d ≤ -1 ∨ 2 ^ 64 ≤ d then none else some ⌊d⌋.toNat

/-! ## Runs -/

/-- Outcome of running a function: a returned value, a fault (undefined
behaviour: a read outside the array or an undefined conversion), or fuel
exhausted. -/
inductive Result (α : Type) where
  | ret (v : α)
  | fault
  | timeout
  deriving DecidableEq, Repr

/-- Read of `a[i]` in an array of `n` elements. -/
def load (a : Nat → Int) (n i : Nat) : Result Int :=
  if i < n then .ret (a i) else .fault

/-- Predicate: `a`, `n` is an array of `int64_t` that fits in the address space
(at most `2^56` bytes, so `n ≤ 2^53`). -/
def IsArray (a : Nat → Int) (n : Nat) : Prop :=
  n ≤ 2 ^ 53 ∧ ∀ i, i < n → IsInt64 (a i)

/-- Predicate: the array is strictly increasing. -/
def StrictlyIncreasing (a : Nat → Int) (n : Nat) : Prop :=
  ∀ i j, i < j → j < n → a i < a j

/-- The array `a[i] = (int64_t)(i << 1)` that both `main` functions build. -/
def benchArray (i : Nat) : Int := 2 * i

/-- A strictly increasing array of 65 elements that spans the `int64_t` range:
`INT64_MIN + i` up to index 61, then `INT64_MAX - 34`, `INT64_MAX - 32` and
`INT64_MAX`. -/
def spanArray (i : Nat) : Int :=
  if i ≤ 61 then -2 ^ 63 + i
  else if i ≤ 62 then 2 ^ 63 - 35
  else if i ≤ 63 then 2 ^ 63 - 33
  else 2 ^ 63 - 1

/-- A strictly increasing array of 98 elements: `62 * i` up to index 95, then
the two values `5953` and `5954`. -/
def gapArray (i : Nat) : Int := if i ≤ 95 then 62 * i else 5857 + i

/-- A strictly increasing array of 98 elements: `a[i] = i` up to index 95, then
the two values `190` and `191`. -/
def jumpArray (i : Nat) : Int := if i ≤ 95 then i else 94 + i

/-- The array of the squares, `a[i] = i * i`. -/
def sqArray (i : Nat) : Int := (i : Int) * i

/-! ## gis_bench.c -/

namespace GisBench

/-- Loop of `bin_search`: `while (lo < hi) ...`. -/
def bin_search_loop (a : Nat → Int) (n : Nat) (x : Int) (lo hi : Nat) : Result Nat :=
  if lo < hi then
    match load a n (lo + (hi - lo) / 2) with
    | .ret v =>
      if v < x then bin_search_loop a n x (lo + (hi - lo) / 2 + 1) hi
      else if v > x then bin_search_loop a n x lo (lo + (hi - lo) / 2)
      else .ret (lo + (hi - lo) / 2)
    | .fault => .fault
    | .timeout => .timeout
  else .ret SIZE_MAX
termination_by hi - lo
decreasing_by all_goals omega

/-- Classic iterative binary search. -/
def bin_search (a : Nat → Int) (n : Nat) (x : Int) : Result Nat :=
  bin_search_loop a n x 0 n

/-- Galloping loop of `gis_search`:
`while (L + step < n && a[L + step] < x) { L += step; step <<= 1; }`,
returning the final `(L, step)`. -/
def gallop (a : Nat → Int) (n : Nat) (x : Int) : Nat → Nat → Nat → Result (Nat × Nat)
  | 0, _, _ => .timeout
  | fuel + 1, L, step =>
    if uadd L step < n ∧ a (uadd L step) < x then
      gallop a n x fuel (uadd L step) (umul step 2)
    else .ret (L, step)

/-- Exit of the interpolation loop of `gis_search`: `return P`, or leaving the
loop with the bracket `(L, R)`. -/
inductive Narrowed where
  | found (P : Nat)
  | bracket (L R : Nat)
  deriving DecidableEq, Repr

/-- The interpolation estimate `L + (size_t)((R - L) * frac)` with
`frac = (double)(x - a[L]) / (double)(a[R] - a[L])`. -/
def estimate (x aL aR : Int) (L R : Nat) : Option Nat :=
  match f64_to_size (f64_mul (f64_of_size (usub R L))
      (f64_div (f64_of_int (wrap64 (x - aL))) (f64_of_int (wrap64 (aR - aL))))) with
  | some k => some (uadd L k)
  | none => none

/-- Interpolation loop of `gis_search`: `while (R > L + 16) ...`. -/
def narrow (a : Nat → Int) (n : Nat) (x : Int) : Nat → Nat → Nat → Result Narrowed
  | 0, _, _ => .timeout
  | fuel + 1, L, R =>
    if R > uadd L 16 then
      match load a n R, load a n L with
      | .ret aR, .ret aL =>
        if aR = aL then .ret (.bracket L R)
        else
          match estimate x aL aR L R with
          | none => .fault
          | some P =>
            match load a n P with
            | .ret v =>
              if v < x then narrow a n x fuel (uadd P 1) R
              else if v > x then narrow a n x fuel L (usub P 1)
              else .ret (.found P)
            | _ => .fault
      | _, _ => .fault
    else .ret (.bracket L R)

/-- Final scan of `gis_search`:
`for (i = L; i <= R; ++i) if (a[i] == x) return i; return SIZE_MAX;`.
A read at `i = SIZE_MAX` is outside every array, so `++i` never wraps before a
fault. -/
def scan (a : Nat → Int) (n : Nat) (x : Int) (R i : Nat) : Result Nat :=
  if i ≤ R then
    match load a n i with
    | .ret v => if v = x then .ret i else scan a n x R (i + 1)
    | .fault => .fault
    | .timeout => .timeout
  else .ret SIZE_MAX
termination_by R + 1 - i
decreasing_by omega

/-- Galloping interpolation search. -/
def gis_search (fuel : Nat) (a : Nat → Int) (n : Nat) (x : Int) : Result Nat :=
  if n = 0 ∨ x < a 0 ∨ x > a (n - 1) then .ret SIZE_MAX
  else
    match gallop a n x fuel 0 1 with
    | .ret (L, step) =>
      match narrow a n x fuel L (if uadd L step < n then uadd L step else n - 1) with
      | .ret (.found P) => .ret P
      | .ret (.bracket L1 R1) => scan a n x R1 L1
      | .fault => .fault
      | .timeout => .timeout
    | .fault => .fault
    | .timeout => .timeout

end GisBench

/-! ## stisla_search.c -/

namespace Stisla

/-- An anchor `{ int64_t v; size_t i; }`. -/
structure Anchor where
  v : Int
  i : Nat
  deriving DecidableEq, Repr

/-- The anchor table `{ Anchor *a; size_t n, cap; }`: the buffer `a` has `cap`
allocated cells, of which the first `n` hold anchors. -/
structure AnchorTable where
  a : Nat → Anchor
  n : Nat
  cap : Nat

/-- The table `AnchorTable T = {0}` a caller starts from. -/
def emptyTable : AnchorTable := ⟨fun _ => ⟨0, 0⟩, 0, 0⟩

/-- The anchors of the table, in order. -/
def entries (T : AnchorTable) : List Anchor := (List.range T.n).map T.a

/-- Read of `T->a[j]`; a read outside the `n` anchors is a fault. -/
def tread (T : AnchorTable) (j : Nat) : Result Anchor :=
  if j < T.n then .ret (T.a j) else .fault

/-- Write `T->a[j] = x`; a write outside the `cap` allocated cells is a fault. -/
def twrite (T : AnchorTable) (j : Nat) (x : Anchor) : Result AnchorTable :=
  if j < T.cap then .ret ⟨Function.update T.a j x, T.n, T.cap⟩ else .fault

/-- Growth of the buffer to at least `need` cells.  `alloc nc` tells whether
`realloc` to `nc` cells succeeds; `none` is the return value `-1` (the table is
left as it was), `some` is the return value `0` with the new table. -/
def ensure_cap (alloc : Nat → Bool) (T : AnchorTable) (need : Nat) : Option AnchorTable :=
  if need ≤ T.cap then some T
  else
    if alloc (if (if T.cap ≠ 0 then umul T.cap 2 else 8) < need then need
        else (if T.cap ≠ 0 then umul T.cap 2 else 8)) then
      some ⟨T.a, T.n,
        if (if T.cap ≠ 0 then umul T.cap 2 else 8) < need then need
        else (if T.cap ≠ 0 then umul T.cap 2 else 8)⟩
    else none

/-- Loop of `anchor_lower`: `while (lo + 1 < hi) ...`.  The positions of a table
are far below `2^63`, so `lo + hi` is not reduced. -/
def anchor_lower_loop (T : AnchorTable) (x : Int) (lo hi : Nat) : Result Nat :=
  if lo + 1 < hi then
    match tread T ((lo + hi) / 2) with
    | .ret m =>
      if m.v ≤ x then anchor_lower_loop T x ((lo + hi) / 2) hi
      else anchor_lower_loop T x lo ((lo + hi) / 2)
    | .fault => .fault
    | .timeout => .timeout
  else .ret lo
termination_by hi - lo
decreasing_by all_goals omega

/-- Binary search inside the anchor table, returns the left index. -/
def anchor_lower (T : AnchorTable) (x : Int) : Result Nat :=
  anchor_lower_loop T x 0 (usub T.n 1)

/-- Shifting loop of `anchor_insert`:
`for (j = T->n; j > pos; --j) T->a[j] = T->a[j-1];`, started at `j`. -/
def shift (pos : Nat) : Nat → AnchorTable → Result AnchorTable
  | 0, T => .ret T
  | j + 1, T =>
    if j + 1 > pos then
      match tread T j with
      | .ret x =>
        match twrite T (j + 1) x with
        | .ret T1 => shift pos j T1
        | _ => .fault
      | _ => .fault
    else .ret T

/-- Insert an anchor, keep sorted.  `ret none` is the return value `-1` (the
table is left as it was), `ret (some T1)` is the return value `0`. -/
def anchor_insert (alloc : Nat → Bool) (T : AnchorTable) (v : Int) (i : Nat) :
    Result (Option AnchorTable) :=
  match ensure_cap alloc T (uadd T.n 1) with
  | none => .ret none
  | some T1 =>
    match anchor_lower T1 v with
    | .ret p =>
      match shift (uadd p 1) T1.n T1 with
      | .ret T2 =>
        match twrite T2 (uadd p 1) ⟨v, i⟩ with
        | .ret T3 => .ret (some ⟨T3.a, uadd T3.n 1, T3.cap⟩)
        | _ => .fault
      | _ => .fault
    | _ => .fault

/-- Fast path of `stisla_search`:
`for (k = 0; k < n; ++k) if (arr[k] == key) return k; return SIZE_MAX;`. -/
def linear (arr : Nat → Int) (n : Nat) (key : Int) (k : Nat) : Nat :=
  if k < n then (if arr k = key then k else linear arr n key (k + 1)) else SIZE_MAX
termination_by n - k
decreasing_by omega

/-- Step 0 of `stisla_search`: seeding of an empty table with the two endpoints.
`ret none` is the early `return SIZE_MAX`. -/
def seed (alloc : Nat → Bool) (arr : Nat → Int) (n : Nat) (T : AnchorTable) :
    Result (Option AnchorTable) :=
  if T.n = 0 then
    match ensure_cap alloc T 2 with
    | none => .ret none
    | some T1 =>
      match twrite T1 0 ⟨arr 0, 0⟩ with
      | .ret T2 =>
        match twrite T2 1 ⟨arr (n - 1), n - 1⟩ with
        | .ret T3 => .ret (some ⟨T3.a, 2, T3.cap⟩)
        | _ => .fault
      | _ => .fault
  else .ret (some T)

/-- Step 2 of `stisla_search`: the predicted index from the bounding anchors. -/
def predict (key : Int) (L R : Anchor) : Option Nat :=
  if R.v = L.v then some L.i
  else
    match f64_to_size (f64_mul (f64_of_size (usub R.i L.i))
        (if f64_div (f64_of_int (wrap64 (key - L.v))) (f64_of_int (wrap64 (R.v - L.v))) < 0 then 0
         else if f64_div (f64_of_int (wrap64 (key - L.v))) (f64_of_int (wrap64 (R.v - L.v))) > 1
           then 1
         else f64_div (f64_of_int (wrap64 (key - L.v))) (f64_of_int (wrap64 (R.v - L.v))))) with
    | some k => some (uadd L.i k)
    | none => none

/-- Lower end of the window before widening:
`lo = (pred > tol) ? pred - tol : L.i; if (lo < L.i) lo = L.i;`. -/
def window_lo (pred tol Li : Nat) : Nat :=
  if (if pred > tol then pred - tol else Li) < Li then Li
  else (if pred > tol then pred - tol else Li)

/-- Upper end of the window before widening:
`hi = pred + tol; if (hi > R.i) hi = R.i;`. -/
def window_hi (pred tol Ri : Nat) : Nat :=
  if uadd pred tol > Ri then Ri else uadd pred tol

/-- Local binary search of `stisla_search`: `while (lo <= hi) ...`; `ret none`
is leaving the loop (by the condition or by `break`), `ret (some mid)` is the
exact match at `mid`. -/
def local_search (arr : Nat → Int) (n : Nat) (key : Int) (lo hi : Nat) : Result (Option Nat) :=
  if lo ≤ hi then
    match load arr n (lo + (hi - lo) / 2) with
    | .ret v =>
      if v < key then local_search arr n key (lo + (hi - lo) / 2 + 1) hi
      else if v > key then
        (if lo + (hi - lo) / 2 = 0 then .ret none
         else local_search arr n key lo (lo + (hi - lo) / 2 - 1))
      else .ret (some (lo + (hi - lo) / 2))
    | .fault => .fault
    | .timeout => .timeout
  else .ret none
termination_by hi + 1 - lo
decreasing_by all_goals omega

/-- Step 4 of `stisla_search`: add an anchor if the prediction is off by more
than `tol`; the return value of `anchor_insert` is ignored. -/
def learn (alloc : Nat → Bool) (T : AnchorTable) (pred tol mid : Nat) (v : Int) :
    Result AnchorTable :=
  if (if pred > mid then pred - mid else mid - pred) > tol then
    match anchor_insert alloc T v mid with
    | .ret (some T1) => .ret T1
    | .ret none => .ret T
    | .fault => .fault
    | .timeout => .timeout
  else .ret T

/-- Steps 1 to 4 of `stisla_search`, on a seeded table. -/
def search_seeded (alloc : Nat → Bool) (arr : Nat → Int) (n : Nat) (key : Int)
    (T : AnchorTable) (tol : Nat) : Result (Nat × AnchorTable) :=
  match anchor_lower T key with
  | .ret p =>
    match tread T p, tread T (p + 1) with
    | .ret L, .ret R =>
      match predict key L R with
      | none => .fault
      | some pred =>
        match load arr n (window_lo pred tol L.i), load arr n (window_hi pred tol R.i) with
        | .ret vlo, .ret vhi =>
          match local_search arr n key
              (if vlo > key then L.i else window_lo pred tol L.i)
              (if vhi < key then R.i else window_hi pred tol R.i) with
          | .ret (some mid) =>
            match learn alloc T pred tol mid (arr mid) with
            | .ret T1 => .ret (mid, T1)
            | _ => .fault
          | .ret none => .ret (SIZE_MAX, T)
          | _ => .fault
        | _, _ => .fault
    | _, _ => .fault
  | _ => .fault

/-- Self-tuning interpolation search with learned anchors: the returned index
(or `SIZE_MAX`) and the table after the call. -/
def stisla_search (alloc : Nat → Bool) (arr : Nat → Int) (n : Nat) (key : Int)
    (T : AnchorTable) (tol : Nat) : Result (Nat × AnchorTable) :=
  if n < 32 then .ret (linear arr n key 0, T)
  else
    match seed alloc arr n T with
    | .ret none => .ret (SIZE_MAX, T)
    | .ret (some T1) => search_seeded alloc arr n key T1 tol
    | .fault => .fault
    | .timeout => .timeout

/-- The `bin_search` of `stisla_search.c`, loop. -/
def bin_search_loop (a : Nat → Int) (n : Nat) (x : Int) (lo hi : Nat) : Result Nat :=
  if lo < hi then
    match load a n (lo + (hi - lo) / 2) with
    | .ret v =>
      if v < x then bin_search_loop a n x (lo + (hi - lo) / 2 + 1) hi
      else if v > x then bin_search_loop a n x lo (lo + (hi - lo) / 2)
      else .ret (lo + (hi - lo) / 2)
    | .fault => .fault
    | .timeout => .timeout
  else .ret SIZE_MAX
termination_by hi - lo
decreasing_by all_goals omega

/-- The `bin_search` of `stisla_search.c`. -/
def bin_search (a : Nat → Int) (n : Nat) (x : Int) : Result Nat :=
  bin_search_loop a n x 0 n

/-- Predicate: the anchors are sorted by value. -/
def SortedByValue (T : AnchorTable) : Prop :=
  ∀ j k, j ≤ k → k < T.n → (T.a j).v ≤ (T.a k).v

/-- Predicate: the anchors are sorted strictly by value. -/
def StrictlySortedByValue (T : AnchorTable) : Prop :=
  ∀ j k, j < k → k < T.n → (T.a j).v < (T.a k).v

/-- Predicate: the anchors are sorted strictly by index. -/
def StrictlySortedByIndex (T : AnchorTable) : Prop :=
  ∀ j k, j < k → k < T.n → (T.a j).i < (T.a k).i

/-- Predicate: every anchor is an exact sample of the array. -/
def ExactSamples (arr : Nat → Int) (n : Nat) (T : AnchorTable) : Prop :=
  ∀ j, j < T.n → (T.a j).i < n ∧ arr (T.a j).i = (T.a j).v

/-- The wording of the specification for `lower_bound`: `p` is the largest
table position whose value is at most `x`. -/
def IsLargestLE (T : AnchorTable) (x : Int) (p : Nat) : Prop :=
  p < T.n ∧ (T.a p).v ≤ x ∧ ∀ q, q < T.n → (T.a q).v ≤ x → q ≤ p

/-- Invariant of a seeded table: at least the two endpoints, inside the
allocated cells, exact samples sorted strictly by index, the first anchor at
index `0` and the last one at index `n - 1`. -/
structure Seeded (arr : Nat → Int) (n : Nat) (T : AnchorTable) : Prop where
  two_le : 2 ≤ T.n
  le_cap : T.n ≤ T.cap
  exact : ExactSamples arr n T
  mono : StrictlySortedByIndex T
  first : (T.a 0).i = 0
  last : (T.a (T.n - 1)).i = n - 1

/-- A table of two anchors, `(0, 0)` and `(10, 9)`, in a buffer of 8 cells. -/
def twoTable : AnchorTable := ⟨fun j => if j = 0 then ⟨0, 0⟩ else ⟨10, 9⟩, 2, 8⟩

/-- The table `twoTable` after inserting the anchor `(20, 5)`: the anchors
`(0, 0)`, `(20, 5)`, `(10, 9)`. -/
def twoTableInserted : AnchorTable :=
  ⟨Function.update (Function.update twoTable.a 2 ⟨10, 9⟩) 1 ⟨20, 5⟩, 3, 8⟩

/-- The table after a first search on the first 100 elements of `benchArray`:
the two endpoints `(0, 0)` and `(198, 99)` in a buffer of 8 cells. -/
def seededBench : AnchorTable :=
  ⟨Function.update (Function.update emptyTable.a 0 ⟨benchArray 0, 0⟩) 1
    ⟨benchArray (100 - 1), 100 - 1⟩, 2, 8⟩

/-- The table after a first search on the first `n` elements of `benchArray`:
the two endpoints `(0, 0)` and `(2 * (n - 1), n - 1)` in a buffer of 8 cells. -/
def benchSeeded (n : Nat) : AnchorTable :=
  ⟨Function.update (Function.update emptyTable.a 0 ⟨benchArray 0, 0⟩) 1
    ⟨benchArray (n - 1), n - 1⟩, 2, 8⟩

/-- An allocator that grants at most 8 cells: the first `realloc` of a table,
to 8 cells, succeeds, and the doubling to 16 cells fails. -/
def eightCells (nc : Nat) : Bool := decide (nc ≤ 8)

/-- The table in a buffer of 8 cells whose anchors are the samples of `sqArray`
at the indices of the list `l`, in the order of the list. -/
def sqTable (l : List Nat) : AnchorTable :=
  ⟨fun k => match l.get? k with
    | some m => ⟨sqArray m, m⟩
    | none => ⟨0, 0⟩, l.length, 8⟩

/-- The warm-up loop of `main`:
`for (i = 0; i < Q; ++i) (void)stisla_search(array, N, array[keys[i]], &T, tol);`
with the indices `keys[i]` given as a list; the table after the loop. -/
def warm_up (alloc : Nat → Bool) (arr : Nat → Int) (n tol : Nat) :
    List Nat → AnchorTable → Result AnchorTable
  | [], T => .ret T
  | k :: ks, T =>
    match stisla_search alloc arr n (arr k) T tol with
    | .ret (_, T1) => warm_up alloc arr n tol ks T1
    | .fault => .fault
    | .timeout => .timeout

/-- Tables reachable from the empty table by calls of `stisla_search` on one
array, with any keys and tolerances. -/
inductive Reachable (alloc : Nat → Bool) (arr : Nat → Int) (n : Nat) : AnchorTable → Prop where
  | empty : Reachable alloc arr n emptyTable
  | call (T T1 : AnchorTable) (key : Int) (tol r : Nat) :
      Reachable alloc arr n T →
      stisla_search alloc arr n key T tol = .ret (r, T1) →
      Reachable alloc arr n T1

/-- Tables reachable from the empty table by calls of `stisla_search` on one
array, with any keys and tolerances, each call with an allocator of its own
(`realloc` may fail in one call and succeed in the next). -/
inductive ReachableAny (arr : Nat → Int) (n : Nat) : AnchorTable → Prop where
  | empty : ReachableAny arr n emptyTable
  | call (alloc : Nat → Bool) (T T1 : AnchorTable) (key : Int) (tol r : Nat) :
      ReachableAny arr n T →
      stisla_search alloc arr n key T tol = .ret (r, T1) →
      ReachableAny arr n T1

end Stisla

/-! ## Facts about the machine arithmetic -/

theorem uadd_eq {x y : Nat} (h : x + y < 2 ^ 64) : uadd x y = x + y := by
  unfold uadd; rw [if_pos h]

theorem uadd_eq_mod (x y : Nat) : uadd x y = (x + y) % 2 ^ 64 := by
  unfold uadd; split_ifs <;> omega

theorem usub_eq {x y : Nat} (h : y ≤ x) (hx : x < 2 ^ 64) : usub x y = x - y := by
  unfold usub; rw [if_pos ⟨h, hx⟩]

theorem usub_eq_mod (x y : Nat) : usub x y = (x + 2 ^ 64 - y % 2 ^ 64) % 2 ^ 64 := by
  unfold usub; split_ifs <;> omega

theorem umul_eq {x y : Nat} (h : x * y < 2 ^ 64) : umul x y = x * y := by
  unfold umul; rw [if_pos h]

theorem umul_eq_mod (x y : Nat) : umul x y = (x * y) % 2 ^ 64 := by
  unfold umul; split_ifs with h
  · exact (Nat.mod_eq_of_lt h).symm
  · rfl

theorem wrap64_eq {z : Int} (h : IsInt64 z) : wrap64 z = z := by
  unfold IsInt64 at h; unfold wrap64; rw [if_pos h]

theorem wrap64_eq_mod (z : Int) : wrap64 z = (z + 2 ^ 63) % 2 ^ 64 - 2 ^ 63 := by
  unfold wrap64; split_ifs <;> omega

theorem wrap64_ne_zero {x y : Int} (hx : IsInt64 x) (hy : IsInt64 y) (h : x ≠ y) :
    wrap64 (x - y) ≠ 0 := by
  unfold IsInt64 at hx hy; rw [wrap64_eq_mod]; omega

/-! ## Facts about the binary64 rounding -/

theorem roundHalfEven_intCast (z : ℤ) : roundHalfEven (z : ℚ) = z := by
  simp [roundHalfEven]

theorem floor_le_roundHalfEven (q : ℚ) : ⌊q⌋ ≤ roundHalfEven q := by
  unfold roundHalfEven; split_ifs <;> omega

theorem roundHalfEven_le_floor_succ (q : ℚ) : roundHalfEven q ≤ ⌊q⌋ + 1 := by
  unfold roundHalfEven; split_ifs <;> omega

theorem roundHalfEven_mono {p q : ℚ} (h : p ≤ q) : roundHalfEven p ≤ roundHalfEven q := by
  have hfl : ⌊p⌋ ≤ ⌊q⌋ := Int.floor_mono h
  rcases hfl.lt_or_eq with hlt | heq
  · calc roundHalfEven p ≤ ⌊p⌋ + 1 := roundHalfEven_le_floor_succ p
      _ ≤ ⌊q⌋ := hlt
      _ ≤ roundHalfEven q := floor_le_roundHalfEven q
  · unfold roundHalfEven
    rw [heq]
    split_ifs <;> first | omega | (exfalso; linarith)

theorem ulp_def (q : ℚ) : ulp q = 2 ^ (Int.log 2 q - 52) := by
  unfold ulp; rfl

theorem ulp_pos (q : ℚ) : 0 < ulp q := by
  rw [ulp_def]; positivity

theorem f64_abs_zero : f64_abs 0 = 0 := by
  simp [f64_abs, roundHalfEven]

theorem f64_abs_nonneg {q : ℚ} (h : 0 ≤ q) : 0 ≤ f64_abs q := by
  unfold f64_abs
  have h1 : (0 : ℚ) ≤ q / ulp q := div_nonneg h (ulp_pos q).le
  have h2 : (0 : ℤ) ≤ roundHalfEven (q / ulp q) :=
    le_trans (Int.floor_nonneg.mpr h1) (floor_le_roundHalfEven _)
  have h3 : (0 : ℚ) ≤ (roundHalfEven (q / ulp q) : ℚ) := by exact_mod_cast h2
  exact mul_nonneg h3 (ulp_pos q).le

theorem two_zpow_split (e : ℤ) : (2 : ℚ) ^ e = 2 ^ (52 : ℕ) * 2 ^ (e - 52) := by
  rw [← zpow_natCast, ← zpow_add₀ (by norm_num : (2 : ℚ) ≠ 0)]
  congr 1; push_cast; ring

theorem two_zpow_succ_split (e : ℤ) : (2 : ℚ) ^ (e + 1) = 2 ^ (53 : ℕ) * 2 ^ (e - 52) := by
  rw [← zpow_natCast, ← zpow_add₀ (by norm_num : (2 : ℚ) ≠ 0)]
  congr 1; push_cast; ring

/-- A positive rational rounds to a value at least the lower end of its binade. -/
theorem le_f64_abs {q : ℚ} (h : 0 < q) : (2 : ℚ) ^ Int.log 2 q ≤ f64_abs q := by
  have hlog : ((2 : ℕ) : ℚ) ^ Int.log 2 q ≤ q := Int.zpow_log_le_self (by norm_num) h
  have hu := ulp_pos q
  have h1 : ((2 ^ 52 : ℤ) : ℚ) ≤ q / ulp q := by
    rw [le_div_iff₀ hu]
    have := two_zpow_split (Int.log 2 q)
    unfold ulp
    push_cast at hlog ⊢
    linarith
  have h2 : (2 ^ 52 : ℤ) ≤ roundHalfEven (q / ulp q) := by
    have := roundHalfEven_mono h1
    rwa [roundHalfEven_intCast] at this
  have h3 : ((2 ^ 52 : ℤ) : ℚ) ≤ (roundHalfEven (q / ulp q) : ℚ) := by exact_mod_cast h2
  unfold f64_abs
  calc (2 : ℚ) ^ Int.log 2 q = 2 ^ (52 : ℕ) * ulp q := by rw [ulp_def]; exact two_zpow_split _
    _ ≤ roundHalfEven (q / ulp q) * ulp q := by
        apply mul_le_mul_of_nonneg_right _ hu.le
        push_cast at h3; exact h3

/-- A positive rational rounds to a value at most the upper end of its binade. -/
theorem f64_abs_le {q : ℚ} : f64_abs q ≤ (2 : ℚ) ^ (Int.log 2 q + 1) := by
  have hlog : q < ((2 : ℕ) : ℚ) ^ (Int.log 2 q + 1) := Int.lt_zpow_succ_log_self (by norm_num) q
  have hu := ulp_pos q
  have h1 : q / ulp q ≤ ((2 ^ 53 : ℤ) : ℚ) := by
    rw [div_le_iff₀ hu]
    have := two_zpow_succ_split (Int.log 2 q)
    unfold ulp
    push_cast at hlog ⊢
    linarith
  have h2 : roundHalfEven (q / ulp q) ≤ (2 ^ 53 : ℤ) := by
    have := roundHalfEven_mono h1
    rwa [roundHalfEven_intCast] at this
  have h3 : (roundHalfEven (q / ulp q) : ℚ) ≤ ((2 ^ 53 : ℤ) : ℚ) := by exact_mod_cast h2
  unfold f64_abs
  calc (roundHalfEven (q / ulp q) : ℚ) * ulp q ≤ 2 ^ (53 : ℕ) * ulp q := by
        apply mul_le_mul_of_nonneg_right _ hu.le
        push_cast at h3; exact h3
    _ = (2 : ℚ) ^ (Int.log 2 q + 1) := by rw [ulp_def]; exact (two_zpow_succ_split _).symm

theorem f64_abs_mono {p q : ℚ} (hp : 0 ≤ p) (h : p ≤ q) : f64_abs p ≤ f64_abs q := by
  rcases hp.lt_or_eq with hpos | hzero
  · have hq : 0 < q := lt_of_lt_of_le hpos h
    have hlog : Int.log 2 p ≤ Int.log 2 q := Int.log_mono_right hpos h
    rcases hlog.lt_or_eq with hlt | heq
    · calc f64_abs p ≤ (2 : ℚ) ^ (Int.log 2 p + 1) := f64_abs_le
        _ ≤ (2 : ℚ) ^ Int.log 2 q := zpow_le_zpow_right₀ (by norm_num) hlt
        _ ≤ f64_abs q := le_f64_abs hq
    · unfold f64_abs ulp
      rw [heq]
      have hu : (0 : ℚ) < 2 ^ (Int.log 2 q - 52) := by positivity
      apply mul_le_mul_of_nonneg_right _ hu.le
      have : roundHalfEven (p / 2 ^ (Int.log 2 q - 52)) ≤ roundHalfEven (q / 2 ^ (Int.log 2 q - 52)) :=
        roundHalfEven_mono (div_le_div_of_nonneg_right h hu.le)
      exact_mod_cast this
  · rw [← hzero, f64_abs_zero]
    exact f64_abs_nonneg (le_trans hp h)

theorem f64_nonneg {q : ℚ} (h : 0 ≤ q) : 0 ≤ f64 q := by
  unfold f64; rw [if_neg (not_lt.mpr h)]; exact f64_abs_nonneg h

theorem f64_mono_nonneg {p q : ℚ} (hp : 0 ≤ p) (h : p ≤ q) : f64 p ≤ f64 q := by
  unfold f64
  rw [if_neg (not_lt.mpr hp), if_neg (not_lt.mpr (le_trans hp h))]
  exact f64_abs_mono hp h

/-- A positive value `m * 2^k` with `m < 2^53` is a binary64 value. -/
theorem f64_abs_exact (m : ℕ) (k : ℤ) (hm0 : 0 < m) (hm : m < 2 ^ 53) :
    f64_abs ((m : ℚ) * 2 ^ k) = (m : ℚ) * 2 ^ k := by
  have hq : (0 : ℚ) < (m : ℚ) * 2 ^ k := by positivity
  have hlo : ((2 : ℕ) : ℚ) ^ Int.log 2 ((m : ℚ) * 2 ^ k) ≤ (m : ℚ) * 2 ^ k :=
    Int.zpow_log_le_self (by norm_num) hq
  have hm' : (m : ℚ) < 2 ^ (53 : ℕ) := by exact_mod_cast hm
  have hlt : ((2 : ℕ) : ℚ) ^ Int.log 2 ((m : ℚ) * 2 ^ k) < ((2 : ℕ) : ℚ) ^ (k + 53) := by
    calc ((2 : ℕ) : ℚ) ^ Int.log 2 ((m : ℚ) * 2 ^ k) ≤ (m : ℚ) * 2 ^ k := hlo
      _ < 2 ^ (53 : ℕ) * 2 ^ k := by
          apply mul_lt_mul_of_pos_right hm' (by positivity)
      _ = ((2 : ℕ) : ℚ) ^ (k + 53) := by
          push_cast
          rw [← zpow_natCast, ← zpow_add₀ (by norm_num : (2 : ℚ) ≠ 0)]
          congr 1; push_cast; ring
  have he : Int.log 2 ((m : ℚ) * 2 ^ k) < k + 53 := by
    have h2 : (1 : ℚ) < ((2 : ℕ) : ℚ) := by norm_num
    exact (zpow_lt_zpow_iff_right₀ h2).mp hlt
  obtain ⟨j, hj⟩ : ∃ j : ℕ, k = Int.log 2 ((m : ℚ) * 2 ^ k) - 52 + j :=
    ⟨(k - (Int.log 2 ((m : ℚ) * 2 ^ k) - 52)).toNat, by omega⟩
  have hdiv : (m : ℚ) * 2 ^ k / ulp ((m : ℚ) * 2 ^ k) = ((m * 2 ^ j : ℤ) : ℚ) := by
    have hu := ulp_pos ((m : ℚ) * 2 ^ k)
    rw [div_eq_iff hu.ne']
    unfold ulp
    push_cast
    nth_rewrite 1 [hj]
    rw [zpow_add₀ (by norm_num : (2 : ℚ) ≠ 0), zpow_natCast]
    ring
  unfold f64_abs
  rw [hdiv, roundHalfEven_intCast, ← hdiv]
  exact div_mul_cancel₀ _ (ulp_pos _).ne'

/-- Every value `z * 2^k` with an integer `|z| < 2^53` is a binary64 value. -/
theorem f64_exact (z k : ℤ) (hz : |z| < 2 ^ 53) : f64 ((z : ℚ) * 2 ^ k) = (z : ℚ) * 2 ^ k := by
  have h2 : (0 : ℚ) < 2 ^ k := by positivity
  obtain ⟨hz1, hz2⟩ := abs_lt.mp hz
  rcases lt_trichotomy z 0 with hneg | hzero | hpos
  · obtain ⟨m, rfl⟩ : ∃ m : ℕ, z = -(m : ℤ) := ⟨z.natAbs, by omega⟩
    have hq : ((-(m : ℤ) : ℤ) : ℚ) * 2 ^ k < 0 :=
      mul_neg_of_neg_of_pos (by exact_mod_cast hneg) h2
    unfold f64; rw [if_pos hq]
    have hcast : -(((-(m : ℤ) : ℤ) : ℚ) * 2 ^ k) = (m : ℚ) * 2 ^ k := by
      push_cast; ring
    rw [hcast, f64_abs_exact m k (by omega) (by omega)]
    push_cast; ring
  · subst hzero; simp [f64, f64_abs_zero]
  · obtain ⟨m, rfl⟩ : ∃ m : ℕ, z = (m : ℤ) := ⟨z.natAbs, by omega⟩
    have hq : ¬ (((m : ℤ) : ℤ) : ℚ) * 2 ^ k < 0 := not_lt.mpr (by positivity)
    unfold f64; rw [if_neg hq]
    have hcast : (((m : ℤ) : ℤ) : ℚ) * 2 ^ k = (m : ℚ) * 2 ^ k := by
      push_cast; ring
    rw [hcast, f64_abs_exact m k (by omega) (by omega)]

theorem f64_one : f64 1 = 1 := by
  have := f64_exact 1 0 (by norm_num)
  simpa using this

theorem f64_zero : f64 0 = 0 := by
  simp [f64, f64_abs_zero]

/-- The natural numbers up to `2^53` are binary64 values. -/
theorem f64_natCast {k : ℕ} (h : k ≤ 2 ^ 53) : f64 (k : ℚ) = k := by
  rcases h.lt_or_eq with hlt | heq
  · have := f64_exact (k : ℤ) 0 (by rw [abs_of_nonneg (by positivity)]; exact_mod_cast hlt)
    simpa using this
  · have := f64_exact 1 53 (by norm_num)
    rw [heq]
    norm_num at this ⊢
    exact this

/-- Integers of absolute value below `2^53` are binary64 values. -/
theorem f64_of_int_exact {z : ℤ} (h : |z| < 2 ^ 53) : f64_of_int z = z := by
  have := f64_exact z 0 h
  simpa [f64_of_int] using this

/-- The product of an exactly represented size `span ≤ 2^53` with a fraction in
`[0, 1]` converts to a size that is at most `span`. -/
theorem f64_to_size_scaled {span : ℕ} (hs : span ≤ 2 ^ 53) {fr : ℚ} (h0 : 0 ≤ fr) (h1 : fr ≤ 1) :
    ∃ k, f64_to_size (f64_mul (f64_of_size span) fr) = some k ∧ k ≤ span := by
  have hspan : f64_of_size span = span := by unfold f64_of_size; exact f64_natCast hs
  have hp0 : (0 : ℚ) ≤ (span : ℚ) * fr := mul_nonneg (by positivity) h0
  have hp1 : (span : ℚ) * fr ≤ span := by
    calc (span : ℚ) * fr ≤ span * 1 := mul_le_mul_of_nonneg_left h1 (by positivity)
      _ = span := mul_one _
  have hd0 : 0 ≤ f64 ((span : ℚ) * fr) := f64_nonneg hp0
  have hd1 : f64 ((span : ℚ) * fr) ≤ span := by
    have := f64_mono_nonneg hp0 hp1
    rwa [f64_natCast hs] at this
  have hbig : (span : ℚ) ≤ 2 ^ 53 := by exact_mod_cast hs
  refine ⟨⌊f64 ((span : ℚ) * fr)⌋.toNat, ?_, ?_⟩
  · unfold f64_to_size f64_mul
    rw [hspan, if_neg]
    push_neg
    constructor
    · linarith
    · have : (2 : ℚ) ^ 53 < 2 ^ 64 := by norm_num
      linarith
  · have hfl : ⌊f64 ((span : ℚ) * fr)⌋ ≤ (span : ℤ) := by
      have := Int.floor_mono hd1
      simpa using this
    omega

/-- The quotient of the conversions of two integers `0 ≤ num ≤ den`, `0 < den`,
is a double in `[0, 1]`. -/
theorem f64_div_unit {num den : ℤ} (h0 : 0 ≤ num) (h1 : num ≤ den) (hd : 0 < den) :
    0 ≤ f64_div (f64_of_int num) (f64_of_int den) ∧
      f64_div (f64_of_int num) (f64_of_int den) ≤ 1 := by
  unfold f64_div f64_of_int
  have hn0 : (0 : ℚ) ≤ (num : ℚ) := by exact_mod_cast h0
  have hnd : (num : ℚ) ≤ (den : ℚ) := by exact_mod_cast h1
  have hd1 : (1 : ℚ) ≤ (den : ℚ) := by exact_mod_cast hd
  have ha0 : 0 ≤ f64 (num : ℚ) := f64_nonneg hn0
  have hab : f64 (num : ℚ) ≤ f64 (den : ℚ) := f64_mono_nonneg hn0 hnd
  have hb1 : 1 ≤ f64 (den : ℚ) := by
    have := f64_mono_nonneg (by norm_num) hd1
    rwa [f64_one] at this
  have hb0 : 0 < f64 (den : ℚ) := lt_of_lt_of_le one_pos hb1
  have hr0 : 0 ≤ f64 (num : ℚ) / f64 (den : ℚ) := div_nonneg ha0 hb0.le
  have hr1 : f64 (num : ℚ) / f64 (den : ℚ) ≤ 1 := (div_le_one hb0).mpr hab
  constructor
  · exact f64_nonneg hr0
  · have := f64_mono_nonneg hr0 hr1
    rwa [f64_one] at this

/-! ## Facts about strictly increasing arrays -/

theorem StrictlyIncreasing.le_of_le {a : Nat → Int} {n : Nat} (hs : StrictlyIncreasing a n)
    {i j : Nat} (hij : i ≤ j) (hj : j < n) : a i ≤ a j := by
  rcases Nat.eq_or_lt_of_le hij with h | h
  · rw [h]
  · exact (hs i j h hj).le

theorem StrictlyIncreasing.lt_of_val_lt {a : Nat → Int} {n : Nat} (hs : StrictlyIncreasing a n)
    {i j : Nat} (hi : i < n) (h : a i < a j) : i < j := by
  by_contra hcon
  have := hs.le_of_le (not_lt.mp hcon) hi
  omega

theorem StrictlyIncreasing.eq_of_val_eq {a : Nat → Int} {n : Nat} (hs : StrictlyIncreasing a n)
    {i j : Nat} (hi : i < n) (hj : j < n) (h : a i = a j) : i = j := by
  rcases Nat.lt_trichotomy i j with hlt | heq | hgt
  · have := hs i j hlt hj; omega
  · exact heq
  · have := hs j i hgt hi; omega

/-- Differences of elements of an array whose spread fits in `int64_t` do not
overflow. -/
theorem diff_isInt64 {a : Nat → Int} {n : Nat} (hs : StrictlyIncreasing a n)
    (hspan : a (n - 1) - a 0 < 2 ^ 63) {i j : Nat} (hij : i ≤ j) (hj : j < n) :
    IsInt64 (a j - a i) ∧ 0 ≤ a j - a i := by
  have h1 : a i ≤ a j := hs.le_of_le hij hj
  have h2 : a 0 ≤ a i := hs.le_of_le (Nat.zero_le i) (by omega)
  have h3 : a j ≤ a (n - 1) := hs.le_of_le (by omega) (by omega)
  unfold IsInt64
  omega

/-! ## bin_search -/

namespace GisBench

/-- A key at index `t` inside `[lo, hi)` is found by the loop of `bin_search`. -/
theorem bin_search_loop_present {a : Nat → Int} {n : Nat} (hs : StrictlyIncreasing a n)
    {t : Nat} (ht : t < n) :
    ∀ d lo hi, hi - lo = d → lo ≤ t → t < hi → hi ≤ n →
      bin_search_loop a n (a t) lo hi = .ret t := by
  intro d
  induction d using Nat.strong_induction_on with
  | _ d ih =>
    intro lo hi hd hlo hthi hhi
    rw [bin_search_loop]
    have hmid : lo + (hi - lo) / 2 < n := by omega
    rw [if_pos (by omega), load, if_pos hmid]
    simp only
    by_cases h1 : a (lo + (hi - lo) / 2) < a t
    · rw [if_pos h1]
      have := hs.lt_of_val_lt hmid h1
      exact ih (hi - (lo + (hi - lo) / 2 + 1)) (by omega) _ _ rfl (by omega) hthi hhi
    · rw [if_neg h1]
      by_cases h2 : a (lo + (hi - lo) / 2) > a t
      · rw [if_pos h2]
        have := hs.lt_of_val_lt ht h2
        exact ih (lo + (hi - lo) / 2 - lo) (by omega) _ _ rfl hlo this (by omega)
      · rw [if_neg h2]
        have := hs.eq_of_val_eq hmid ht (by omega)
        rw [this]

/-- Without the key in the array the loop of `bin_search` ends with `SIZE_MAX`. -/
theorem bin_search_loop_absent {a : Nat → Int} {n : Nat} {x : Int}
    (habs : ∀ i, i < n → a i ≠ x) :
    ∀ d lo hi, hi - lo = d → hi ≤ n → bin_search_loop a n x lo hi = .ret SIZE_MAX := by
  intro d
  induction d using Nat.strong_induction_on with
  | _ d ih =>
    intro lo hi hd hhi
    rw [bin_search_loop]
    by_cases hlt : lo < hi
    · have hmid : lo + (hi - lo) / 2 < n := by omega
      rw [if_pos hlt, load, if_pos hmid]
      simp only
      by_cases h1 : a (lo + (hi - lo) / 2) < x
      · rw [if_pos h1]
        exact ih (hi - (lo + (hi - lo) / 2 + 1)) (by omega) _ _ rfl hhi
      · rw [if_neg h1]
        by_cases h2 : a (lo + (hi - lo) / 2) > x
        · rw [if_pos h2]
          exact ih (lo + (hi - lo) / 2 - lo) (by omega) _ _ rfl (by omega)
        · exfalso
          exact habs _ hmid (by omega)
    · rw [if_neg hlt]

theorem bin_search_present {a : Nat → Int} {n : Nat} (hs : StrictlyIncreasing a n)
    {t : Nat} (ht : t < n) : bin_search a n (a t) = .ret t :=
  bin_search_loop_present hs ht n 0 n rfl (Nat.zero_le t) ht le_rfl

theorem bin_search_absent {a : Nat → Int} {n : Nat} {x : Int}
    (habs : ∀ i, i < n → a i ≠ x) : bin_search a n x = .ret SIZE_MAX :=
  bin_search_loop_absent habs n 0 n rfl le_rfl

/-! ## gis_search on a key of the array -/

/-- The galloping loop, started in a state with `step ≤ L + 1`, ends with a
bracket start `L1` at or below every index holding a value `≥ x`. -/
theorem gallop_spec {a : Nat → Int} {n : Nat} (x : Int) (hn : n ≤ 2 ^ 53) :
    ∀ fuel L step, 0 < step → step ≤ L + 1 → L < n → (L = 0 ∨ a L < x) →
      n - (L + step) < fuel →
      ∃ L1 step1, gallop a n x fuel L step = .ret (L1, step1) ∧ L1 < n ∧
        (L1 = 0 ∨ a L1 < x) ∧ L1 + step1 < 2 ^ 64 ∧
        (L1 + step1 < n → x ≤ a (L1 + step1)) := by
  intro fuel
  induction fuel with
  | zero => intro L step _ _ _ _ h; omega
  | succ fuel ih =>
    intro L step h0 h1 hL hinv hfuel
    have hadd : uadd L step = L + step := uadd_eq (by omega)
    rw [gallop, hadd]
    by_cases hc : L + step < n ∧ a (L + step) < x
    · rw [if_pos hc]
      rw [umul_eq (by omega)]
      exact ih (L + step) (step * 2) (by omega) (by omega) hc.1 (Or.inr hc.2) (by omega)
    · rw [if_neg hc]
      refine ⟨L, step, rfl, hL, hinv, by omega, ?_⟩
      intro hlt
      by_contra hcon
      exact hc ⟨hlt, by omega⟩

theorem estimate_def (x aL aR : Int) (L R : Nat) :
    estimate x aL aR L R =
      match f64_to_size (f64_mul (f64_of_size (usub R L))
          (f64_div (f64_of_int (wrap64 (x - aL))) (f64_of_int (wrap64 (aR - aL))))) with
      | some k => some (uadd L k)
      | none => none := by
  unfold estimate; rfl

/-- On a bracket `[L, R]` around the index `t` of the key the interpolation
estimate is defined and stays inside the bracket. -/
theorem estimate_in_bracket {a : Nat → Int} {n : Nat} (harr : IsArray a n)
    (hs : StrictlyIncreasing a n) (hspan : a (n - 1) - a 0 < 2 ^ 63)
    {t L R : Nat} (hL : L ≤ t) (hR : t ≤ R) (hLR : L < R) (hRn : R < n) :
    ∃ P, estimate (a t) (a L) (a R) L R = some P ∧ L ≤ P ∧ P ≤ R := by
  have hn := harr.1
  have h1 := diff_isInt64 hs hspan hL (by omega : t < n)
  have h2 := diff_isInt64 hs hspan (hL.trans hR) hRn
  have h3 : a t ≤ a R := hs.le_of_le hR hRn
  have h4 : a L < a R := hs L R hLR hRn
  have hfrac := @f64_div_unit (a t - a L) (a R - a L) h1.2 (by omega) (by omega)
  have hsub : usub R L = R - L := usub_eq hLR.le (by omega)
  obtain ⟨k, hk, hkle⟩ := @f64_to_size_scaled (R - L) (by omega) _ hfrac.1 hfrac.2
  refine ⟨L + k, ?_, by omega, by omega⟩
  rw [estimate_def, wrap64_eq h1.1, wrap64_eq h2.1, hsub, hk]
  simp only
  rw [uadd_eq (by omega)]

/-- The interpolation loop keeps the index of the key in the bracket. -/
theorem narrow_present {a : Nat → Int} {n : Nat} (harr : IsArray a n)
    (hs : StrictlyIncreasing a n) (hspan : a (n - 1) - a 0 < 2 ^ 63) {t : Nat} (ht : t < n) :
    ∀ fuel L R, L ≤ t → t ≤ R → R < n → R - L < fuel →
      narrow a n (a t) fuel L R = .ret (.found t) ∨
      ∃ L1 R1, narrow a n (a t) fuel L R = .ret (.bracket L1 R1) ∧
        L1 ≤ t ∧ t ≤ R1 ∧ R1 < n := by
  intro fuel
  induction fuel with
  | zero => intro L R _ _ _ h; omega
  | succ fuel ih =>
    intro L R hL hR hRn hfuel
    have hn := harr.1
    rw [narrow, uadd_eq (by omega)]
    by_cases hc : R > L + 16
    · rw [if_pos hc, load, load, if_pos hRn, if_pos (by omega)]
      simp only
      have hne : a R ≠ a L := by
        have := hs L R (by omega) hRn
        omega
      rw [if_neg hne]
      obtain ⟨P, hP, hLP, hPR⟩ := estimate_in_bracket harr hs hspan hL hR (by omega) hRn
      rw [hP]
      simp only
      have hPn : P < n := by omega
      rw [load, if_pos hPn]
      simp only
      by_cases h1 : a P < a t
      · rw [if_pos h1, uadd_eq (by omega)]
        have := hs.lt_of_val_lt hPn h1
        exact ih (P + 1) R (by omega) hR hRn (by omega)
      · rw [if_neg h1]
        by_cases h2 : a P > a t
        · rw [if_pos h2]
          have := hs.lt_of_val_lt ht h2
          rw [usub_eq (by omega) (by omega)]
          exact ih L (P - 1) hL (by omega) (by omega) (by omega)
        · rw [if_neg h2]
          have := hs.eq_of_val_eq hPn ht (by omega)
          left; rw [this]
    · rw [if_neg hc]
      exact Or.inr ⟨L, R, rfl, hL, hR, hRn⟩

/-- The final scan finds a key whose index is in the bracket. -/
theorem scan_present {a : Nat → Int} {n : Nat} (hs : StrictlyIncreasing a n)
    {t R : Nat} (ht : t < n) (hR : t ≤ R) :
    ∀ d i, t - i = d → i ≤ t → scan a n (a t) R i = .ret t := by
  intro d
  induction d with
  | zero =>
    intro i hd hi
    have : i = t := by omega
    subst this
    rw [scan, if_pos hR, load, if_pos ht]
    simp
  | succ d ih =>
    intro i hd hi
    rw [scan, if_pos (by omega), load, if_pos (by omega)]
    simp only
    have hne : a i ≠ a t := by
      have := hs i t (by omega) ht
      omega
    rw [if_neg hne]
    exact ih (i + 1) (by omega) (by omega)

/-- The search returns the index of a key of the array, on an array whose
spread fits in `int64_t`. -/
theorem gis_search_of_mem {a : Nat → Int} {n : Nat} (harr : IsArray a n)
    (hs : StrictlyIncreasing a n) (hspan : a (n - 1) - a 0 < 2 ^ 63)
    {t : Nat} (ht : t < n) {fuel : Nat} (hfuel : n ≤ fuel) :
    gis_search fuel a n (a t) = .ret t := by
  have h0 : a 0 ≤ a t := hs.le_of_le (Nat.zero_le t) ht
  have h1 : a t ≤ a (n - 1) := hs.le_of_le (by omega) (by omega)
  unfold gis_search
  rw [if_neg (by omega)]
  obtain ⟨L, step, hg, hLn, hinv, hno, hup⟩ :=
    gallop_spec (a := a) (a t) harr.1 fuel 0 1 (by omega) (by omega) (by omega)
      (Or.inl rfl) (by omega)
  rw [hg]
  simp only
  rw [uadd_eq hno]
  have hLt : L ≤ t := by
    rcases hinv with h | h
    · omega
    · exact (hs.lt_of_val_lt hLn h).le
  have hR : t ≤ (if L + step < n then L + step else n - 1) := by
    split_ifs with hlt
    · by_contra hcon
      have := hs (L + step) t (by omega) ht
      have := hup hlt
      omega
    · omega
  have hRn : (if L + step < n then L + step else n - 1) < n := by
    split_ifs with hlt <;> omega
  rcases narrow_present harr hs hspan ht fuel L _ hLt hR hRn (by omega) with h | ⟨L1, R1, h, hL1, hR1, _⟩
  · rw [h]
  · rw [h]
    simp only
    exact scan_present hs ht hR1 (t - L1) L1 rfl hL1

/-! ## gis_search from its phases -/

theorem gis_search_of_gallop_timeout {a : Nat → Int} {n : Nat} {x : Int} {fuel : Nat}
    (h0 : ¬ (n = 0 ∨ x < a 0 ∨ x > a (n - 1)))
    (hg : gallop a n x fuel 0 1 = .timeout) : gis_search fuel a n x = .timeout := by
  unfold gis_search
  rw [if_neg h0, hg]

theorem gis_search_of_narrow_timeout {a : Nat → Int} {n : Nat} {x : Int} {fuel L step R : Nat}
    (h0 : ¬ (n = 0 ∨ x < a 0 ∨ x > a (n - 1)))
    (hg : gallop a n x fuel 0 1 = .ret (L, step))
    (hR : (if uadd L step < n then uadd L step else n - 1) = R)
    (hn : narrow a n x fuel L R = .timeout) : gis_search fuel a n x = .timeout := by
  unfold gis_search
  rw [if_neg h0, hg]
  simp only [hR, hn]

theorem gis_search_of_narrow_fault {a : Nat → Int} {n : Nat} {x : Int} {fuel L step R : Nat}
    (h0 : ¬ (n = 0 ∨ x < a 0 ∨ x > a (n - 1)))
    (hg : gallop a n x fuel 0 1 = .ret (L, step))
    (hR : (if uadd L step < n then uadd L step else n - 1) = R)
    (hn : narrow a n x fuel L R = .fault) : gis_search fuel a n x = .fault := by
  unfold gis_search
  rw [if_neg h0, hg]
  simp only [hR, hn]

end GisBench

/-! ## Evaluation of binary64 operations on exact operands -/

/-- A quotient `z / 2^k` with `|z| < 2^53` is a binary64 value. -/
theorem f64_dyadic (z : ℤ) (k : ℕ) {q : ℚ} (hq : q = z / 2 ^ k) (hz : |z| < 2 ^ 53) :
    f64 q = q := by
  have := f64_exact z (-(k : ℤ)) hz
  rw [zpow_neg, zpow_natCast, ← div_eq_mul_inv, ← hq] at this
  exact this

theorem f64_to_size_eq {d : ℚ} {k : ℕ} (h0 : (k : ℚ) ≤ d) (h1 : d < k + 1) (hk : k < 2 ^ 64) :
    f64_to_size d = some k := by
  have hk' : (k : ℚ) < 2 ^ 64 := by exact_mod_cast hk
  have hfl : ⌊d⌋ = (k : ℤ) := by
    rw [Int.floor_eq_iff]
    exact ⟨by exact_mod_cast h0, by exact_mod_cast h1⟩
  unfold f64_to_size
  rw [if_neg, hfl]
  · simp
  · push_neg
    have : (0 : ℚ) ≤ k := by positivity
    constructor
    · linarith
    · have : (k : ℚ) + 1 ≤ 2 ^ 64 := by exact_mod_cast hk
      linarith

theorem f64_to_size_neg {d : ℚ} (h : d ≤ -1) : f64_to_size d = none := by
  unfold f64_to_size
  rw [if_pos (Or.inl h)]

namespace GisBench

/-! ## gis_search on `gapArray`: the interpolation loop repeats a state -/

theorem gapArray_strictlyIncreasing : StrictlyIncreasing gapArray 98 := by
  intro i j hij hj
  unfold gapArray
  split_ifs <;> omega

theorem gapArray_isArray : IsArray gapArray 98 := by
  refine ⟨by norm_num, ?_⟩
  intro i hi
  unfold gapArray IsInt64
  split_ifs <;> omega

theorem gapArray_absent : ∀ i, i < 98 → gapArray i ≠ 5952 := by
  intro i hi
  unfold gapArray
  split_ifs <;> omega

theorem gallop_gapArray (m : Nat) : gallop gapArray 98 5952 (m + 7) 0 1 = .ret (63, 64) := by
  simp [gallop, uadd, umul, gapArray]

theorem gallop_gapArray_timeout (fuel : Nat) (h : fuel < 7) :
    gallop gapArray 98 5952 fuel 0 1 = .timeout := by
  interval_cases fuel <;> simp [gallop, uadd, umul, gapArray]

theorem estimate_gapArray_first : estimate 5952 3906 5954 63 97 = some 96 := by
  have h1 : f64_of_int (wrap64 (5952 - 3906)) = 2046 := by
    rw [show wrap64 (5952 - 3906) = 2046 by unfold wrap64; decide]
    exact f64_of_int_exact (by norm_num)
  have h2 : f64_of_int (wrap64 (5954 - 3906)) = 2048 := by
    rw [show wrap64 (5954 - 3906) = 2048 by unfold wrap64; decide]
    exact f64_of_int_exact (by norm_num)
  have h3 : f64_of_size (usub 97 63) = 34 := by
    rw [show usub 97 63 = 34 by unfold usub; decide]
    unfold f64_of_size
    exact f64_natCast (by norm_num)
  have h4 : f64_div 2046 2048 = 1023 / 1024 := by
    unfold f64_div
    rw [f64_dyadic 1023 10 (by norm_num) (by norm_num)]
    norm_num
  have h5 : f64_mul 34 (1023 / 1024) = 17391 / 512 := by
    unfold f64_mul
    rw [f64_dyadic 17391 9 (by norm_num) (by norm_num)]
    norm_num
  rw [estimate_def, h1, h2, h3, h4, h5, f64_to_size_eq (k := 33) (by norm_num) (by norm_num) (by norm_num)]
  show some (uadd 63 33) = some 96
  rw [uadd_eq (by norm_num)]

theorem estimate_gapArray_second : estimate 5952 3906 5890 63 95 = some 96 := by
  have h1 : f64_of_int (wrap64 (5952 - 3906)) = 2046 := by
    rw [show wrap64 (5952 - 3906) = 2046 by unfold wrap64; decide]
    exact f64_of_int_exact (by norm_num)
  have h2 : f64_of_int (wrap64 (5890 - 3906)) = 1984 := by
    rw [show wrap64 (5890 - 3906) = 1984 by unfold wrap64; decide]
    exact f64_of_int_exact (by norm_num)
  have h3 : f64_of_size (usub 95 63) = 32 := by
    rw [show usub 95 63 = 32 by unfold usub; decide]
    unfold f64_of_size
    exact f64_natCast (by norm_num)
  have h4 : f64_div 2046 1984 = 33 / 32 := by
    unfold f64_div
    rw [f64_dyadic 33 5 (by norm_num) (by norm_num)]
    norm_num
  have h5 : f64_mul 32 (33 / 32) = 33 := by
    unfold f64_mul
    rw [f64_dyadic 33 0 (by norm_num) (by norm_num)]
    norm_num
  rw [estimate_def, h1, h2, h3, h4, h5, f64_to_size_eq (k := 33) (by norm_num) (by norm_num) (by norm_num)]
  show some (uadd 63 33) = some 96
  rw [uadd_eq (by norm_num)]

/-- One more round of the interpolation loop in the state `L = 63`, `R = 95`
leads to the same state. -/
theorem narrow_gapArray_step (fuel : Nat) :
    narrow gapArray 98 5952 (fuel + 1) 63 95 = narrow gapArray 98 5952 fuel 63 95 := by
  have hR : load gapArray 98 95 = .ret 5890 := by decide
  have hL : load gapArray 98 63 = .ret 3906 := by decide
  have hP : load gapArray 98 96 = .ret 5953 := by decide
  rw [narrow, if_pos (by unfold uadd; decide), hR, hL]
  simp only
  rw [if_neg (by decide), estimate_gapArray_second]
  simp only
  rw [hP]
  simp only
  rw [if_neg (by decide), if_pos (by decide), show usub 96 1 = 95 by unfold usub; decide]

theorem narrow_gapArray_loop : ∀ fuel, narrow gapArray 98 5952 fuel 63 95 = .timeout := by
  intro fuel
  induction fuel with
  | zero => rfl
  | succ fuel ih => rw [narrow_gapArray_step, ih]

theorem narrow_gapArray (fuel : Nat) : narrow gapArray 98 5952 fuel 63 97 = .timeout := by
  cases fuel with
  | zero => rfl
  | succ fuel =>
    have hR : load gapArray 98 97 = .ret 5954 := by decide
    have hL : load gapArray 98 63 = .ret 3906 := by decide
    have hP : load gapArray 98 96 = .ret 5953 := by decide
    rw [narrow, if_pos (by unfold uadd; decide), hR, hL]
    simp only
    rw [if_neg (by decide), estimate_gapArray_first]
    simp only
    rw [hP]
    simp only
    rw [if_neg (by decide), if_pos (by decide), show usub 96 1 = 95 by unfold usub; decide]
    exact narrow_gapArray_loop fuel

/-- On `gapArray` the search for the absent key `5952` never returns. -/
theorem gis_search_gapArray (fuel : Nat) : gis_search fuel gapArray 98 5952 = .timeout := by
  by_cases h : fuel < 7
  · exact gis_search_of_gallop_timeout (by decide) (gallop_gapArray_timeout fuel h)
  · obtain ⟨m, rfl⟩ : ∃ m, fuel = m + 7 := ⟨fuel - 7, by omega⟩
    exact gis_search_of_narrow_timeout (by decide) (gallop_gapArray m) (by unfold uadd; decide)
      (narrow_gapArray _)

end GisBench

namespace GisBench

/-! ## gis_search on `spanArray`: the differences wrap and the loop repeats a state -/

theorem spanArray_strictlyIncreasing : StrictlyIncreasing spanArray 65 := by
  intro i j hij hj
  unfold spanArray
  split_ifs <;> omega

theorem spanArray_isArray : IsArray spanArray 65 := by
  refine ⟨by norm_num, ?_⟩
  intro i hi
  unfold spanArray IsInt64
  split_ifs <;> omega

theorem gallop_spanArray (m : Nat) :
    gallop spanArray 65 (spanArray 62) (m + 6) 0 1 = .ret (31, 32) := by
  simp [gallop, uadd, umul, spanArray]

theorem gallop_spanArray_timeout (fuel : Nat) (h : fuel < 6) :
    gallop spanArray 65 (spanArray 62) fuel 0 1 = .timeout := by
  interval_cases fuel <;> simp [gallop, uadd, umul, spanArray]

/-- The two differences of the estimate in the bracket `L = 31`, `R = 63`
leave the `int64_t` range and wrap to `-66` and `-64`. -/
theorem spanArray_wrap :
    spanArray 62 - spanArray 31 = 2 ^ 64 - 66 ∧ spanArray 63 - spanArray 31 = 2 ^ 64 - 64 ∧
      wrap64 (spanArray 62 - spanArray 31) = -66 ∧
      wrap64 (spanArray 63 - spanArray 31) = -64 := by
  refine ⟨by decide, by decide, ?_, ?_⟩
  · unfold wrap64; decide
  · unfold wrap64; decide

/-- In the bracket `L = 31`, `R = 63` the fraction is `(-66) / (-64)`, above
`1`, and the estimate is the index `64`, above `R`. -/
theorem estimate_spanArray :
    estimate (spanArray 62) (spanArray 31) (spanArray 63) 31 63 = some 64 := by
  have h1 : f64_of_int (wrap64 (spanArray 62 - spanArray 31)) = -66 := by
    rw [spanArray_wrap.2.2.1]
    have := f64_of_int_exact (z := -66) (by norm_num)
    simpa using this
  have h2 : f64_of_int (wrap64 (spanArray 63 - spanArray 31)) = -64 := by
    rw [spanArray_wrap.2.2.2]
    have := f64_of_int_exact (z := -64) (by norm_num)
    simpa using this
  have h3 : f64_of_size (usub 63 31) = 32 := by
    rw [show usub 63 31 = 32 by unfold usub; decide]
    unfold f64_of_size
    exact f64_natCast (by norm_num)
  have h4 : f64_div (-66) (-64) = 33 / 32 := by
    unfold f64_div
    rw [f64_dyadic 33 5 (by norm_num) (by norm_num)]
    norm_num
  have h5 : f64_mul 32 (33 / 32) = 33 := by
    unfold f64_mul
    rw [f64_dyadic 33 0 (by norm_num) (by norm_num)]
    norm_num
  rw [estimate_def, h1, h2, h3, h4, h5,
    f64_to_size_eq (k := 33) (by norm_num) (by norm_num) (by norm_num)]
  show some (uadd 31 33) = some 64
  rw [uadd_eq (by norm_num)]

/-- One more round of the interpolation loop in the state `L = 31`, `R = 63`
leads to the same state. -/
theorem narrow_spanArray_step (fuel : Nat) :
    narrow spanArray 65 (spanArray 62) (fuel + 1) 31 63 =
      narrow spanArray 65 (spanArray 62) fuel 31 63 := by
  have hR : load spanArray 65 63 = .ret (spanArray 63) := by decide
  have hL : load spanArray 65 31 = .ret (spanArray 31) := by decide
  have hP : load spanArray 65 64 = .ret (spanArray 64) := by decide
  rw [narrow, if_pos (by unfold uadd; decide), hR, hL]
  simp only
  rw [if_neg (by decide), estimate_spanArray]
  simp only
  rw [hP]
  simp only
  rw [if_neg (by decide), if_pos (by decide), show usub 64 1 = 63 by unfold usub; decide]

theorem narrow_spanArray : ∀ fuel, narrow spanArray 65 (spanArray 62) fuel 31 63 = .timeout := by
  intro fuel
  induction fuel with
  | zero => rfl
  | succ fuel ih => rw [narrow_spanArray_step, ih]

/-- On `spanArray` the search for the element at index 62 never returns. -/
theorem gis_search_spanArray (fuel : Nat) :
    gis_search fuel spanArray 65 (spanArray 62) = .timeout := by
  by_cases h : fuel < 6
  · exact gis_search_of_gallop_timeout (by decide) (gallop_spanArray_timeout fuel h)
  · obtain ⟨m, rfl⟩ : ∃ m, fuel = m + 6 := ⟨fuel - 6, by omega⟩
    exact gis_search_of_narrow_timeout (by decide) (gallop_spanArray m) (by unfold uadd; decide)
      (narrow_spanArray _)

/-! ## What gis_search returns, when it returns -/

/-- An index returned from inside the interpolation loop holds the key. -/
theorem narrow_found {a : Nat → Int} {n : Nat} {x : Int} :
    ∀ fuel L R P, narrow a n x fuel L R = .ret (.found P) → P < n ∧ a P = x := by
  intro fuel
  induction fuel with
  | zero => intro L R P h; simp [narrow] at h
  | succ fuel ih =>
    intro L R P h
    rw [narrow] at h
    split at h
    · split at h
      · split at h
        · simp at h
        · split at h
          · simp at h
          · rename_i Q hQ
            split at h
            · rename_i v hv
              split at h
              · exact ih _ _ _ h
              · split at h
                · exact ih _ _ _ h
                · simp only [Result.ret.injEq, Narrowed.found.injEq] at h
                  subst h
                  unfold load at hv
                  split at hv
                  · simp only [Result.ret.injEq] at hv
                    refine ⟨by assumption, by omega⟩
                  · simp at hv
            · simp at h
      · simp at h
    · simp at h

/-- The final scan returns an index holding the key, or `SIZE_MAX`. -/
theorem scan_ret {a : Nat → Int} {n : Nat} {x : Int} {R : Nat} :
    ∀ d i r, R + 1 - i = d → scan a n x R i = .ret r → (r < n ∧ a r = x) ∨ r = SIZE_MAX := by
  intro d
  induction d with
  | zero =>
    intro i r hd h
    rw [scan, if_neg (by omega)] at h
    simp only [Result.ret.injEq] at h
    exact Or.inr h.symm
  | succ d ih =>
    intro i r hd h
    rw [scan, if_pos (by omega)] at h
    unfold load at h
    split at h
    · rename_i v hv
      split at hv
      · simp only [Result.ret.injEq] at hv
        split at h
        · simp only [Result.ret.injEq] at h
          subst h
          exact Or.inl ⟨by assumption, by omega⟩
        · exact ih (i + 1) r (by omega) h
      · simp at hv
    · simp at h
    · simp at h

/-- Whatever the array and the key, a value returned by the search is an index
holding the key, or `SIZE_MAX`. -/
theorem gis_search_ret {a : Nat → Int} {n : Nat} {x : Int} {fuel r : Nat}
    (h : gis_search fuel a n x = .ret r) : (r < n ∧ a r = x) ∨ r = SIZE_MAX := by
  unfold gis_search at h
  split at h
  · simp only [Result.ret.injEq] at h
    exact Or.inr h.symm
  · split at h
    · split at h
      · rename_i P hP
        simp only [Result.ret.injEq] at h
        subst h
        exact Or.inl (narrow_found _ _ _ _ hP)
      · exact scan_ret _ _ _ rfl h
      · simp at h
      · simp at h
    · simp at h
    · simp at h

theorem gis_search_out_of_range {a : Nat → Int} {n : Nat} {x : Int} (fuel : Nat)
    (h : n = 0 ∨ x < a 0 ∨ a (n - 1) < x) : gis_search fuel a n x = .ret SIZE_MAX := by
  unfold gis_search
  rw [if_pos h]

theorem absent_of_out_of_range {a : Nat → Int} {n : Nat} {x : Int}
    (hs : StrictlyIncreasing a n) (h : n = 0 ∨ x < a 0 ∨ a (n - 1) < x) :
    ∀ i, i < n → a i ≠ x := by
  intro i hi heq
  have h0 : a 0 ≤ a i := hs.le_of_le (Nat.zero_le i) hi
  have h1 : a i ≤ a (n - 1) := hs.le_of_le (by omega) (by omega)
  omega

/-- On an array whose spread fits in `int64_t`: a value returned by
`gis_search` is the value returned by `bin_search`, and `gis_search` does
return that value for a key of the array and for a key outside
`[a[0], a[n-1]]`. -/
theorem gis_search_vs_bin_search {a : Nat → Int} {n : Nat} (harr : IsArray a n)
    (hs : StrictlyIncreasing a n) (hspan : a (n - 1) - a 0 < 2 ^ 63) (x : Int)
    {fuel : Nat} (hfuel : n ≤ fuel) :
    (∀ r, gis_search fuel a n x = .ret r → bin_search a n x = .ret r) ∧
    ((n = 0 ∨ x < a 0 ∨ a (n - 1) < x ∨ ∃ t, t < n ∧ a t = x) →
      gis_search fuel a n x = bin_search a n x) := by
  have hmem : ∀ t, t < n → a t = x → gis_search fuel a n x = .ret t ∧
      bin_search a n x = .ret t := by
    intro t ht hx
    subst hx
    exact ⟨gis_search_of_mem harr hs hspan ht hfuel, bin_search_present hs ht⟩
  constructor
  · intro r hr
    rcases gis_search_ret hr with ⟨hrn, hrx⟩ | hmax
    · exact (hmem r hrn hrx).2
    · by_cases hex : ∃ t, t < n ∧ a t = x
      · obtain ⟨t, ht, hx⟩ := hex
        have h1 := (hmem t ht hx).1
        rw [h1] at hr
        simp only [Result.ret.injEq] at hr
        have := harr.1
        unfold SIZE_MAX at hmax
        omega
      · push_neg at hex
        rw [hmax]
        exact bin_search_absent hex
  · intro h
    by_cases hex : ∃ t, t < n ∧ a t = x
    · obtain ⟨t, ht, hx⟩ := hex
      rw [(hmem t ht hx).1, (hmem t ht hx).2]
    · have hout : n = 0 ∨ x < a 0 ∨ a (n - 1) < x := by
        rcases h with h | h | h | h
        · exact Or.inl h
        · exact Or.inr (Or.inl h)
        · exact Or.inr (Or.inr h)
        · exact absurd h hex
      rw [gis_search_out_of_range fuel hout, bin_search_absent (absent_of_out_of_range hs hout)]

/-! ## The benchmark array -/

theorem benchArray_strictlyIncreasing (n : Nat) : StrictlyIncreasing benchArray n := by
  intro i j hij _
  unfold benchArray
  omega

theorem benchArray_isArray {n : Nat} (h : n ≤ 2 ^ 53) : IsArray benchArray n := by
  refine ⟨h, ?_⟩
  intro i hi
  unfold benchArray IsInt64
  omega

theorem benchArray_spread {n : Nat} (h : n ≤ 2 ^ 53) :
    benchArray (n - 1) - benchArray 0 < 2 ^ 63 := by
  unfold benchArray
  omega

end GisBench

namespace Stisla

/-! ## The anchor table -/

theorem tread_of_lt {T : AnchorTable} {j : Nat} (h : j < T.n) : tread T j = .ret (T.a j) := by
  unfold tread; rw [if_pos h]

theorem twrite_of_lt {T : AnchorTable} {j : Nat} (x : Anchor) (h : j < T.cap) :
    twrite T j x = .ret ⟨Function.update T.a j x, T.n, T.cap⟩ := by
  unfold twrite; rw [if_pos h]

/-- With an allocator that always succeeds `ensure_cap` returns `0` and leaves
a buffer of at least `need` cells with the same anchors. -/
theorem ensure_cap_spec {alloc : Nat → Bool} (halloc : ∀ k, alloc k = true)
    (T : AnchorTable) (need : Nat) :
    ∃ c, ensure_cap alloc T need = some ⟨T.a, T.n, c⟩ ∧ need ≤ c := by
  unfold ensure_cap
  by_cases h : need ≤ T.cap
  · exact ⟨T.cap, by rw [if_pos h], h⟩
  · rw [if_neg h, halloc, if_pos rfl]
    refine ⟨_, rfl, ?_⟩
    split_ifs <;> omega

/-- Whatever the allocator, `ensure_cap` returns `-1` and leaves the table as
it was, or returns `0` and leaves a buffer of at least `need` cells with the
same anchors. -/
theorem ensure_cap_cases (alloc : Nat → Bool) (T : AnchorTable) (need : Nat) :
    ensure_cap alloc T need = none ∨
      ∃ c, ensure_cap alloc T need = some ⟨T.a, T.n, c⟩ ∧ need ≤ c := by
  unfold ensure_cap
  by_cases h : need ≤ T.cap
  · exact Or.inr ⟨T.cap, by rw [if_pos h], h⟩
  · rw [if_neg h]
    by_cases hal : alloc (if (if T.cap ≠ 0 then umul T.cap 2 else 8) < need then need
        else (if T.cap ≠ 0 then umul T.cap 2 else 8)) = true
    · right
      rw [if_pos hal]
      refine ⟨_, rfl, ?_⟩
      split_ifs <;> omega
    · left
      rw [if_neg hal]

/-- The loop of `anchor_lower` keeps `lo < hi` and ends with adjacent bounds. -/
theorem anchor_lower_loop_spec (T : AnchorTable) (x : Int) :
    ∀ d lo hi, hi - lo = d → lo < hi → hi < T.n →
      ∃ p, anchor_lower_loop T x lo hi = .ret p ∧ lo ≤ p ∧ p < hi ∧
        (p = lo ∨ (T.a p).v ≤ x) ∧ (p + 1 = hi ∨ x < (T.a (p + 1)).v) := by
  intro d
  induction d using Nat.strong_induction_on with
  | _ d ih =>
    intro lo hi hd hlt hhi
    rw [anchor_lower_loop]
    by_cases hc : lo + 1 < hi
    · rw [if_pos hc, tread_of_lt (by omega)]
      simp only
      by_cases hv : (T.a ((lo + hi) / 2)).v ≤ x
      · rw [if_pos hv]
        obtain ⟨p, hp, h1, h2, h3, h4⟩ :=
          ih (hi - (lo + hi) / 2) (by omega) ((lo + hi) / 2) hi rfl (by omega) hhi
        refine ⟨p, hp, by omega, h2, Or.inr ?_, h4⟩
        rcases h3 with h3 | h3
        · rw [h3]; exact hv
        · exact h3
      · rw [if_neg hv]
        obtain ⟨p, hp, h1, h2, h3, h4⟩ :=
          ih ((lo + hi) / 2 - lo) (by omega) lo ((lo + hi) / 2) rfl (by omega) (by omega)
        refine ⟨p, hp, h1, by omega, h3, Or.inr ?_⟩
        rcases h4 with h4 | h4
        · rw [h4]; omega
        · exact h4
    · rw [if_neg hc]
      exact ⟨lo, rfl, le_rfl, hlt, Or.inl rfl, Or.inl (by omega)⟩

/-- On a table of at least two anchors `anchor_lower` returns a position `p`
with a successor in the table, `T[p].v ≤ x` unless `p = 0`, and
`x < T[p+1].v` unless `p + 1` is the last position. -/
theorem anchor_lower_spec (T : AnchorTable) (x : Int) (h2 : 2 ≤ T.n) (hn : T.n < 2 ^ 64) :
    ∃ p, anchor_lower T x = .ret p ∧ p + 1 < T.n ∧
      (p = 0 ∨ (T.a p).v ≤ x) ∧ (p + 2 = T.n ∨ x < (T.a (p + 1)).v) := by
  unfold anchor_lower
  rw [usub_eq (by omega) hn]
  obtain ⟨p, hp, _, h2, h3, h4⟩ :=
    anchor_lower_loop_spec T x (T.n - 1 - 0) 0 (T.n - 1) rfl (by omega) (by omega)
  refine ⟨p, hp, by omega, h3, ?_⟩
  rcases h4 with h4 | h4
  · left; omega
  · right; exact h4

/-- The result of `anchor_lower` depends on the anchors only, not on the
capacity. -/
theorem anchor_lower_loop_congr (a : Nat → Anchor) (n c1 c2 : Nat) (x : Int) :
    ∀ d lo hi, hi - lo = d →
      anchor_lower_loop ⟨a, n, c1⟩ x lo hi = anchor_lower_loop ⟨a, n, c2⟩ x lo hi := by
  intro d
  induction d using Nat.strong_induction_on with
  | _ d ih =>
    intro lo hi hd
    rw [anchor_lower_loop]
    conv_rhs => rw [anchor_lower_loop]
    by_cases hc : lo + 1 < hi
    · rw [if_pos hc, if_pos hc]
      unfold tread
      simp only
      by_cases hm : (lo + hi) / 2 < n
      · rw [if_pos hm]
        simp only
        rw [ih (hi - (lo + hi) / 2) (by omega) ((lo + hi) / 2) hi rfl,
          ih ((lo + hi) / 2 - lo) (by omega) lo ((lo + hi) / 2) rfl]
      · rw [if_neg hm]
    · rw [if_neg hc, if_neg hc]

theorem anchor_lower_congr (a : Nat → Anchor) (n c1 c2 : Nat) (x : Int) :
    anchor_lower ⟨a, n, c1⟩ x = anchor_lower ⟨a, n, c2⟩ x := by
  unfold anchor_lower
  exact anchor_lower_loop_congr a n c1 c2 x _ _ _ rfl

/-- The shifting loop started at `j ≤ n` moves the anchors at `pos .. j-1` one
cell up. -/
theorem shift_spec (pos : Nat) :
    ∀ j (T : AnchorTable), j ≤ T.n → T.n < T.cap →
      ∃ T1, shift pos j T = .ret T1 ∧ T1.n = T.n ∧ T1.cap = T.cap ∧
        ∀ k, T1.a k = if pos < k ∧ k ≤ j then T.a (k - 1) else T.a k := by
  intro j
  induction j with
  | zero =>
    intro T _ _
    refine ⟨T, rfl, rfl, rfl, ?_⟩
    intro k
    rw [if_neg (by omega)]
  | succ j ih =>
    intro T hj hcap
    rw [shift]
    by_cases hc : j + 1 > pos
    · rw [if_pos hc, tread_of_lt (by omega)]
      simp only
      rw [twrite_of_lt _ (by omega)]
      simp only
      obtain ⟨T1, hT1, hn, hcap1, ha⟩ :=
        ih ⟨Function.update T.a (j + 1) (T.a j), T.n, T.cap⟩ (by simp only; omega)
          (by simp only; omega)
      refine ⟨T1, hT1, hn, hcap1, ?_⟩
      intro k
      rw [ha k]
      simp only [Function.update_apply]
      split_ifs <;> first | rfl | (exfalso; omega) | (congr 1; omega)
    · rw [if_neg hc]
      refine ⟨T, rfl, rfl, rfl, ?_⟩
      intro k
      rw [if_neg (by omega)]

/-- The successful run of `anchor_insert`, from its steps. -/
theorem anchor_insert_of {alloc : Nat → Bool} {T T1 T2 T3 : AnchorTable} {v : Int} {i p : Nat}
    (h1 : ensure_cap alloc T (uadd T.n 1) = some T1)
    (h2 : anchor_lower T1 v = .ret p)
    (h3 : shift (uadd p 1) T1.n T1 = .ret T2)
    (h4 : twrite T2 (uadd p 1) ⟨v, i⟩ = .ret T3) :
    anchor_insert alloc T v i = .ret (some ⟨T3.a, uadd T3.n 1, T3.cap⟩) := by
  unfold anchor_insert
  rw [h1]
  simp only
  rw [h2]
  simp only
  rw [h3]
  simp only
  rw [h4]

/-- The failing run of `anchor_insert`: the buffer cannot grow, the table is
left as it was. -/
theorem anchor_insert_of_fail {alloc : Nat → Bool} {T : AnchorTable} (v : Int) (i : Nat)
    (h1 : ensure_cap alloc T (uadd T.n 1) = none) :
    anchor_insert alloc T v i = .ret none := by
  unfold anchor_insert
  rw [h1]

/-- When the buffer has grown `anchor_insert` returns `0`; the new anchor sits
right after the position `p` that `anchor_lower` returns, and the anchors after
`p` have moved one cell up. -/
theorem anchor_insert_spec_of {alloc : Nat → Bool} (T : AnchorTable) (v : Int) (i : Nat)
    (h2 : 2 ≤ T.n) (hn : T.n + 1 < 2 ^ 64) {c : Nat}
    (hens : ensure_cap alloc T (T.n + 1) = some ⟨T.a, T.n, c⟩) (hc : T.n + 1 ≤ c) :
    ∃ p T1, anchor_lower T v = .ret p ∧ p + 1 < T.n ∧
      (p = 0 ∨ (T.a p).v ≤ v) ∧ (p + 2 = T.n ∨ v < (T.a (p + 1)).v) ∧
      anchor_insert alloc T v i = .ret (some T1) ∧ T1.n = T.n + 1 ∧ T1.n ≤ T1.cap ∧
      ∀ k, T1.a k =
        if k = p + 1 then ⟨v, i⟩ else if p + 1 < k ∧ k ≤ T.n then T.a (k - 1) else T.a k := by
  obtain ⟨p, hp, hp1, hlo, hhi⟩ := anchor_lower_spec T v h2 (by omega)
  have hp' : anchor_lower ⟨T.a, T.n, c⟩ v = .ret p := by
    rw [anchor_lower_congr T.a T.n c T.cap]; exact hp
  obtain ⟨T2, hT2, hn2, hcap2, ha2⟩ :=
    shift_spec (p + 1) T.n ⟨T.a, T.n, c⟩ le_rfl (by simp only; omega)
  simp only at hn2 hcap2 ha2
  refine ⟨p, ⟨Function.update T2.a (p + 1) ⟨v, i⟩, T.n + 1, c⟩, hp, hp1, hlo, hhi, ?_, rfl, hc, ?_⟩
  · have e1 : uadd T.n 1 = T.n + 1 := uadd_eq (by omega)
    have e2 : uadd p 1 = p + 1 := uadd_eq (by omega)
    have h4 : twrite T2 (uadd p 1) ⟨v, i⟩ =
        .ret ⟨Function.update T2.a (p + 1) ⟨v, i⟩, T2.n, T2.cap⟩ := by
      rw [e2]; exact twrite_of_lt _ (by omega)
    have h1 : ensure_cap alloc T (uadd T.n 1) = some ⟨T.a, T.n, c⟩ := by
      rw [e1]; exact hens
    have h3 : shift (uadd p 1) T.n ⟨T.a, T.n, c⟩ = .ret T2 := by
      rw [e2]; exact hT2
    have h := anchor_insert_of h1 hp' h3 h4
    rw [h, hn2, hcap2, e1]
  · intro k
    simp only [Function.update_apply]
    by_cases h1 : k = p + 1
    · rw [if_pos h1, if_pos h1]
    · rw [if_neg h1, if_neg h1, ha2 k]

/-- With an allocator that always succeeds `anchor_insert` returns `0`. -/
theorem anchor_insert_spec {alloc : Nat → Bool} (halloc : ∀ k, alloc k = true)
    (T : AnchorTable) (v : Int) (i : Nat) (h2 : 2 ≤ T.n) (hn : T.n + 1 < 2 ^ 64) :
    ∃ p T1, anchor_lower T v = .ret p ∧ p + 1 < T.n ∧
      (p = 0 ∨ (T.a p).v ≤ v) ∧ (p + 2 = T.n ∨ v < (T.a (p + 1)).v) ∧
      anchor_insert alloc T v i = .ret (some T1) ∧ T1.n = T.n + 1 ∧ T1.n ≤ T1.cap ∧
      ∀ k, T1.a k =
        if k = p + 1 then ⟨v, i⟩ else if p + 1 < k ∧ k ≤ T.n then T.a (k - 1) else T.a k := by
  obtain ⟨c, hens, hc⟩ := ensure_cap_spec halloc T (T.n + 1)
  exact anchor_insert_spec_of T v i h2 hn hens hc

/-- Whatever the allocator, `anchor_insert` returns `-1` and leaves the table
as it was, or returns `0` with the new anchor inserted. -/
theorem anchor_insert_cases (alloc : Nat → Bool) (T : AnchorTable) (v : Int) (i : Nat)
    (h2 : 2 ≤ T.n) (hn : T.n + 1 < 2 ^ 64) :
    (ensure_cap alloc T (T.n + 1) = none ∧ anchor_insert alloc T v i = .ret none) ∨
    ∃ p T1, anchor_lower T v = .ret p ∧ p + 1 < T.n ∧
      (p = 0 ∨ (T.a p).v ≤ v) ∧ (p + 2 = T.n ∨ v < (T.a (p + 1)).v) ∧
      anchor_insert alloc T v i = .ret (some T1) ∧ T1.n = T.n + 1 ∧ T1.n ≤ T1.cap ∧
      ∀ k, T1.a k =
        if k = p + 1 then ⟨v, i⟩ else if p + 1 < k ∧ k ≤ T.n then T.a (k - 1) else T.a k := by
  rcases ensure_cap_cases alloc T (T.n + 1) with h | ⟨c, hens, hc⟩
  · left
    refine ⟨h, anchor_insert_of_fail v i ?_⟩
    rw [uadd_eq (by omega)]; exact h
  · right
    exact anchor_insert_spec_of T v i h2 hn hens hc

end Stisla

/-! ## More facts about the binary64 rounding -/

theorem f64_abs_one : f64_abs 1 = 1 := by
  have h := f64_one
  unfold f64 at h
  rwa [if_neg (by norm_num)] at h

/-- The conversion of a non-zero integer is not zero. -/
theorem f64_of_int_ne_zero {w : ℤ} (h : w ≠ 0) : f64_of_int w ≠ 0 := by
  unfold f64_of_int
  rcases lt_or_gt_of_ne h with hneg | hpos
  · have hq : (w : ℚ) < 0 := by exact_mod_cast hneg
    have h1 : (1 : ℚ) ≤ -(w : ℚ) := by
      have : (1 : ℤ) ≤ -w := by omega
      exact_mod_cast this
    have h2 : f64_abs 1 ≤ f64_abs (-(w : ℚ)) := f64_abs_mono (by norm_num) h1
    rw [f64_abs_one] at h2
    unfold f64
    rw [if_pos hq]
    linarith
  · have h1 : (1 : ℚ) ≤ (w : ℚ) := by
      have : (1 : ℤ) ≤ w := by omega
      exact_mod_cast this
    have h2 : f64 1 ≤ f64 (w : ℚ) := f64_mono_nonneg (by norm_num) h1
    rw [f64_one] at h2
    linarith

theorem f64_div_self {d : ℚ} (h : d ≠ 0) : f64_div d d = 1 := by
  unfold f64_div
  rw [div_self h, f64_one]

theorem f64_div_zero_left (d : ℚ) : f64_div 0 d = 0 := by
  unfold f64_div
  rw [zero_div, f64_zero]

theorem f64_of_int_zero : f64_of_int 0 = 0 := by
  unfold f64_of_int
  simp [f64_zero]

theorem f64_to_size_mul_one {span : ℕ} (hs : span ≤ 2 ^ 53) :
    f64_to_size (f64_mul (f64_of_size span) 1) = some span := by
  have h1 : f64_of_size span = span := by unfold f64_of_size; exact f64_natCast hs
  have h2 : f64_mul (span : ℚ) 1 = span := by
    unfold f64_mul; rw [mul_one]; exact f64_natCast hs
  rw [h1, h2]
  exact f64_to_size_eq le_rfl (by linarith) (by omega)

theorem f64_to_size_mul_zero (s : ℚ) : f64_to_size (f64_mul s 0) = some 0 := by
  have h2 : f64_mul s 0 = ((0 : ℕ) : ℚ) := by
    unfold f64_mul; rw [mul_zero, f64_zero]; simp
  rw [h2]
  exact f64_to_size_eq le_rfl (by norm_num) (by norm_num)

namespace Stisla

/-! ## The prediction -/

theorem predict_def (key : Int) (L R : Anchor) :
    predict key L R =
      if R.v = L.v then some L.i
      else
        match f64_to_size (f64_mul (f64_of_size (usub R.i L.i))
            (if f64_div (f64_of_int (wrap64 (key - L.v))) (f64_of_int (wrap64 (R.v - L.v))) < 0
              then 0
             else if f64_div (f64_of_int (wrap64 (key - L.v)))
                (f64_of_int (wrap64 (R.v - L.v))) > 1 then 1
             else f64_div (f64_of_int (wrap64 (key - L.v)))
                (f64_of_int (wrap64 (R.v - L.v))))) with
        | some k => some (uadd L.i k)
        | none => none := by
  unfold predict; rfl

/-- The clamped fraction is in `[0, 1]`. -/
theorem clamp_unit (fr : ℚ) :
    0 ≤ (if fr < 0 then (0 : ℚ) else if fr > 1 then 1 else fr) ∧
      (if fr < 0 then (0 : ℚ) else if fr > 1 then 1 else fr) ≤ 1 := by
  split_ifs with h1 h2
  · exact ⟨le_rfl, by norm_num⟩
  · exact ⟨by norm_num, le_rfl⟩
  · exact ⟨not_lt.mp h1, not_lt.mp h2⟩

/-- The prediction is defined and lies between the indices of the two
anchors, whatever the key. -/
theorem predict_spec (key : Int) (L R : Anchor) (hLR : L.i ≤ R.i) (hR : R.i ≤ 2 ^ 53) :
    ∃ pred, predict key L R = some pred ∧ L.i ≤ pred ∧ pred ≤ R.i := by
  rw [predict_def]
  by_cases hdeg : R.v = L.v
  · rw [if_pos hdeg]
    exact ⟨L.i, rfl, le_rfl, hLR⟩
  · rw [if_neg hdeg, usub_eq hLR (by omega)]
    obtain ⟨h0, h1⟩ := clamp_unit
      (f64_div (f64_of_int (wrap64 (key - L.v))) (f64_of_int (wrap64 (R.v - L.v))))
    obtain ⟨k, hk, hkle⟩ := @f64_to_size_scaled (R.i - L.i) (by omega) _ h0 h1
    rw [hk]
    simp only
    rw [uadd_eq (by omega)]
    exact ⟨L.i + k, rfl, by omega, by omega⟩

/-- A key equal to the value of the left anchor is predicted at the index of
that anchor. -/
theorem predict_left (L R : Anchor) (hLR : L.i ≤ R.i) (hR : R.i ≤ 2 ^ 53) :
    predict L.v L R = some L.i := by
  rw [predict_def]
  by_cases hdeg : R.v = L.v
  · rw [if_pos hdeg]
  · rw [if_neg hdeg, sub_self, wrap64_eq (by unfold IsInt64; omega), f64_of_int_zero,
      f64_div_zero_left, if_neg (lt_irrefl 0), if_neg (by norm_num), f64_to_size_mul_zero]
    simp only
    rw [uadd_eq (by omega)]
    rfl

/-- A key equal to the value of the right anchor is predicted at the index of
that anchor. -/
theorem predict_right (L R : Anchor) (hLR : L.i ≤ R.i) (hR : R.i ≤ 2 ^ 53)
    (hLv : IsInt64 L.v) (hRv : IsInt64 R.v) (hne : R.v ≠ L.v) :
    predict R.v L R = some R.i := by
  rw [predict_def, if_neg hne, usub_eq hLR (by omega),
    f64_div_self (f64_of_int_ne_zero (wrap64_ne_zero hRv hLv hne)),
    if_neg (by norm_num), if_neg (lt_irrefl 1), f64_to_size_mul_one (by omega)]
  simp only
  rw [uadd_eq (by omega)]
  congr 1
  omega

/-! ## The window -/

theorem window_lo_spec {pred Li : Nat} (tol : Nat) (h : Li ≤ pred) :
    Li ≤ window_lo pred tol Li ∧ window_lo pred tol Li ≤ pred := by
  unfold window_lo
  split_ifs <;> omega

theorem window_hi_le (pred tol Ri : Nat) : window_hi pred tol Ri ≤ Ri := by
  unfold window_hi
  split_ifs <;> omega

/-! ## The local binary search -/

/-- A key at an index `t` of the window is found. -/
theorem local_search_present {arr : Nat → Int} {n : Nat} (hs : StrictlyIncreasing arr n)
    {t : Nat} (ht : t < n) :
    ∀ d lo hi, hi + 1 - lo = d → lo ≤ t → t ≤ hi → hi < n →
      local_search arr n (arr t) lo hi = .ret (some t) := by
  intro d
  induction d using Nat.strong_induction_on with
  | _ d ih =>
    intro lo hi hd hlo hthi hhi
    rw [local_search]
    have hmid : lo + (hi - lo) / 2 < n := by omega
    rw [if_pos (by omega), load, if_pos hmid]
    simp only
    by_cases h1 : arr (lo + (hi - lo) / 2) < arr t
    · rw [if_pos h1]
      have := hs.lt_of_val_lt hmid h1
      exact ih (hi + 1 - (lo + (hi - lo) / 2 + 1)) (by omega) _ _ rfl (by omega) hthi hhi
    · rw [if_neg h1]
      by_cases h2 : arr (lo + (hi - lo) / 2) > arr t
      · rw [if_pos h2]
        have := hs.lt_of_val_lt ht h2
        rw [if_neg (by omega)]
        exact ih (lo + (hi - lo) / 2 - 1 + 1 - lo) (by omega) _ _ rfl hlo (by omega) (by omega)
      · rw [if_neg h2]
        have := hs.eq_of_val_eq hmid ht (by omega)
        rw [this]

/-- Without the key in the array the local search leaves its loop. -/
theorem local_search_absent {arr : Nat → Int} {n : Nat} {x : Int}
    (habs : ∀ i, i < n → arr i ≠ x) :
    ∀ d lo hi, hi + 1 - lo = d → hi < n → local_search arr n x lo hi = .ret none := by
  intro d
  induction d using Nat.strong_induction_on with
  | _ d ih =>
    intro lo hi hd hhi
    rw [local_search]
    by_cases hle : lo ≤ hi
    · have hmid : lo + (hi - lo) / 2 < n := by omega
      rw [if_pos hle, load, if_pos hmid]
      simp only
      by_cases h1 : arr (lo + (hi - lo) / 2) < x
      · rw [if_pos h1]
        exact ih (hi + 1 - (lo + (hi - lo) / 2 + 1)) (by omega) _ _ rfl hhi
      · rw [if_neg h1]
        by_cases h2 : arr (lo + (hi - lo) / 2) > x
        · rw [if_pos h2]
          by_cases h3 : lo + (hi - lo) / 2 = 0
          · rw [if_pos h3]
          · rw [if_neg h3]
            exact ih (lo + (hi - lo) / 2 - 1 + 1 - lo) (by omega) _ _ rfl (by omega)
        · exfalso
          exact habs _ hmid (by omega)
    · rw [if_neg hle]

/-! ## The fast path -/

theorem linear_present {arr : Nat → Int} {n : Nat} (hs : StrictlyIncreasing arr n)
    {t : Nat} (ht : t < n) :
    ∀ d k, t - k = d → k ≤ t → linear arr n (arr t) k = t := by
  intro d
  induction d with
  | zero =>
    intro k hd hk
    have : k = t := by omega
    subst this
    rw [linear, if_pos ht, if_pos rfl]
  | succ d ih =>
    intro k hd hk
    have hne : arr k ≠ arr t := by
      have := hs k t (by omega) ht
      omega
    rw [linear, if_pos (by omega), if_neg hne]
    exact ih (k + 1) (by omega) (by omega)

theorem linear_absent {arr : Nat → Int} {n : Nat} {x : Int} (habs : ∀ i, i < n → arr i ≠ x) :
    ∀ d k, n - k = d → linear arr n x k = SIZE_MAX := by
  intro d
  induction d with
  | zero =>
    intro k hd
    rw [linear, if_neg (by omega)]
  | succ d ih =>
    intro k hd
    rw [linear, if_pos (by omega), if_neg (habs k (by omega))]
    exact ih (k + 1) (by omega)

end Stisla

namespace Stisla

/-! ## stisla_search from its steps -/

theorem learn_of_le (alloc : Nat → Bool) (T : AnchorTable) {pred tol mid : Nat} (v : Int)
    (h : ¬ (if pred > mid then pred - mid else mid - pred) > tol) :
    learn alloc T pred tol mid v = .ret T := by
  unfold learn
  rw [if_neg h]

theorem learn_of_fail {alloc : Nat → Bool} {T : AnchorTable} {pred tol mid : Nat} {v : Int}
    (hins : anchor_insert alloc T v mid = .ret none) :
    learn alloc T pred tol mid v = .ret T := by
  unfold learn
  by_cases h : (if pred > mid then pred - mid else mid - pred) > tol
  · rw [if_pos h, hins]
  · rw [if_neg h]

theorem learn_of_insert {alloc : Nat → Bool} {T T1 : AnchorTable} {pred tol mid : Nat} {v : Int}
    (h : (if pred > mid then pred - mid else mid - pred) > tol)
    (hins : anchor_insert alloc T v mid = .ret (some T1)) :
    learn alloc T pred tol mid v = .ret T1 := by
  unfold learn
  rw [if_pos h, hins]

theorem seed_of_seeded {alloc : Nat → Bool} {arr : Nat → Int} {n : Nat} {T : AnchorTable}
    (h : T.n ≠ 0) : seed alloc arr n T = .ret (some T) := by
  unfold seed
  rw [if_neg h]

theorem seed_of_fail {alloc : Nat → Bool} {arr : Nat → Int} {n : Nat} {T : AnchorTable}
    (h : T.n = 0) (h1 : ensure_cap alloc T 2 = none) : seed alloc arr n T = .ret none := by
  unfold seed
  rw [if_pos h, h1]

theorem stisla_search_of_seed_fail {alloc : Nat → Bool} {arr : Nat → Int} {n : Nat} (key : Int)
    {T : AnchorTable} (tol : Nat) (h : ¬ n < 32)
    (hseed : seed alloc arr n T = .ret none) :
    stisla_search alloc arr n key T tol = .ret (SIZE_MAX, T) := by
  unfold stisla_search
  rw [if_neg h, hseed]

theorem seed_of_empty {alloc : Nat → Bool} {arr : Nat → Int} {n : Nat} {T T1 T2 T3 : AnchorTable}
    (h : T.n = 0) (h1 : ensure_cap alloc T 2 = some T1)
    (h2 : twrite T1 0 ⟨arr 0, 0⟩ = .ret T2)
    (h3 : twrite T2 1 ⟨arr (n - 1), n - 1⟩ = .ret T3) :
    seed alloc arr n T = .ret (some ⟨T3.a, 2, T3.cap⟩) := by
  unfold seed
  rw [if_pos h, h1]
  simp only
  rw [h2]
  simp only
  rw [h3]

theorem search_seeded_of_found {alloc : Nat → Bool} {arr : Nat → Int} {n : Nat} {key : Int}
    {T T1 : AnchorTable} {tol p pred mid : Nat} {L R : Anchor} {vlo vhi : Int}
    (h1 : anchor_lower T key = .ret p)
    (h2 : tread T p = .ret L) (h3 : tread T (p + 1) = .ret R)
    (h4 : predict key L R = some pred)
    (h5 : load arr n (window_lo pred tol L.i) = .ret vlo)
    (h6 : load arr n (window_hi pred tol R.i) = .ret vhi)
    (h7 : local_search arr n key (if vlo > key then L.i else window_lo pred tol L.i)
      (if vhi < key then R.i else window_hi pred tol R.i) = .ret (some mid))
    (h8 : learn alloc T pred tol mid (arr mid) = .ret T1) :
    search_seeded alloc arr n key T tol = .ret (mid, T1) := by
  unfold search_seeded
  rw [h1]
  simp only
  rw [h2, h3]
  simp only
  rw [h4]
  simp only
  rw [h5, h6]
  simp only
  rw [h7]
  simp only
  rw [h8]

theorem search_seeded_of_miss {alloc : Nat → Bool} {arr : Nat → Int} {n : Nat} {key : Int}
    {T : AnchorTable} {tol p pred : Nat} {L R : Anchor} {vlo vhi : Int}
    (h1 : anchor_lower T key = .ret p)
    (h2 : tread T p = .ret L) (h3 : tread T (p + 1) = .ret R)
    (h4 : predict key L R = some pred)
    (h5 : load arr n (window_lo pred tol L.i) = .ret vlo)
    (h6 : load arr n (window_hi pred tol R.i) = .ret vhi)
    (h7 : local_search arr n key (if vlo > key then L.i else window_lo pred tol L.i)
      (if vhi < key then R.i else window_hi pred tol R.i) = .ret none) :
    search_seeded alloc arr n key T tol = .ret (SIZE_MAX, T) := by
  unfold search_seeded
  rw [h1]
  simp only
  rw [h2, h3]
  simp only
  rw [h4]
  simp only
  rw [h5, h6]
  simp only
  rw [h7]

theorem stisla_search_small {alloc : Nat → Bool} {arr : Nat → Int} {n : Nat} (key : Int)
    (T : AnchorTable) (tol : Nat) (h : n < 32) :
    stisla_search alloc arr n key T tol = .ret (linear arr n key 0, T) := by
  unfold stisla_search
  rw [if_pos h]

theorem stisla_search_of_seed {alloc : Nat → Bool} {arr : Nat → Int} {n : Nat} (key : Int)
    {T T1 : AnchorTable} (tol : Nat) (h : ¬ n < 32)
    (hseed : seed alloc arr n T = .ret (some T1)) :
    stisla_search alloc arr n key T tol = search_seeded alloc arr n key T1 tol := by
  unfold stisla_search
  rw [if_neg h, hseed]

/-! ## The invariant of a seeded table -/

theorem Seeded.index_le {arr : Nat → Int} {n : Nat} {T : AnchorTable} (hT : Seeded arr n T)
    {j k : Nat} (hjk : j ≤ k) (hk : k < T.n) : (T.a j).i ≤ (T.a k).i := by
  rcases Nat.eq_or_lt_of_le hjk with h | h
  · rw [h]
  · exact (hT.mono j k h hk).le

theorem Seeded.le_index {arr : Nat → Int} {n : Nat} {T : AnchorTable} (hT : Seeded arr n T) :
    ∀ j, j < T.n → j ≤ (T.a j).i := by
  intro j
  induction j with
  | zero => intro _; exact Nat.zero_le _
  | succ j ih =>
    intro hj
    have h1 := ih (by omega)
    have h2 := hT.mono j (j + 1) (by omega) hj
    omega

/-- A seeded table has at most as many anchors as the array has elements. -/
theorem Seeded.n_le {arr : Nat → Int} {n : Nat} {T : AnchorTable} (hT : Seeded arr n T) :
    T.n ≤ n := by
  have h1 := hT.le_index (T.n - 1) (by have := hT.two_le; omega)
  have h2 := (hT.exact (T.n - 1) (by have := hT.two_le; omega)).1
  have := hT.two_le
  omega

theorem Seeded.sorted {arr : Nat → Int} {n : Nat} {T : AnchorTable} (hT : Seeded arr n T)
    (hs : StrictlyIncreasing arr n) : StrictlySortedByValue T := by
  intro j k hjk hk
  have h1 := hT.exact j (by omega)
  have h2 := hT.exact k hk
  rw [← h1.2, ← h2.2]
  exact hs _ _ (hT.mono j k hjk hk) h2.1

/-- Inserting a new index strictly between two neighbours of a strictly
increasing sequence keeps it strictly increasing. -/
theorem insert_strictMono (g : Nat → Nat) (m p t : Nat)
    (hmono : ∀ j k, j < k → k < m → g j < g k) (hp : p + 1 < m)
    (h1 : g p < t) (h2 : t < g (p + 1)) :
    ∀ j k, j < k → k < m + 1 →
      (if j = p + 1 then t else if p + 1 < j ∧ j ≤ m then g (j - 1) else g j) <
      (if k = p + 1 then t else if p + 1 < k ∧ k ≤ m then g (k - 1) else g k) := by
  have hle : ∀ j k, j ≤ k → k < m → g j ≤ g k := by
    intro j k hjk hk
    rcases Nat.eq_or_lt_of_le hjk with h | h
    · rw [h]
    · exact (hmono j k h hk).le
  intro j k hjk hk
  by_cases hj : j = p + 1
  · rw [if_pos hj, if_neg (by omega), if_pos (by omega)]
    have := hle (p + 1) (k - 1) (by omega) (by omega)
    omega
  · rw [if_neg hj]
    by_cases hk1 : k = p + 1
    · rw [if_pos hk1, if_neg (by omega)]
      have := hle j p (by omega) (by omega)
      omega
    · rw [if_neg hk1]
      by_cases hj2 : p + 1 < j ∧ j ≤ m
      · rw [if_pos hj2, if_pos (by omega)]
        exact hmono (j - 1) (k - 1) (by omega) (by omega)
      · rw [if_neg hj2]
        by_cases hk2 : p + 1 < k ∧ k ≤ m
        · rw [if_pos hk2]
          exact hmono j (k - 1) (by omega) (by omega)
        · rw [if_neg hk2]
          exact hmono j k hjk (by omega)

/-- The table after an insertion between the bounding anchors is seeded. -/
theorem Seeded.insert {arr : Nat → Int} {n : Nat} {T T1 : AnchorTable} (hT : Seeded arr n T)
    {p t : Nat} (ht : t < n) (hp : p + 1 < T.n)
    (h1 : (T.a p).i < t) (h2 : t < (T.a (p + 1)).i)
    (hn : T1.n = T.n + 1) (hcap : T1.n ≤ T1.cap)
    (ha : ∀ k, T1.a k = if k = p + 1 then ⟨arr t, t⟩
      else if p + 1 < k ∧ k ≤ T.n then T.a (k - 1) else T.a k) :
    Seeded arr n T1 := by
  have hidx : ∀ k, (T1.a k).i = if k = p + 1 then t
      else if p + 1 < k ∧ k ≤ T.n then (T.a (k - 1)).i else (T.a k).i := by
    intro k
    rw [ha k]
    split_ifs <;> rfl
  have h2le := hT.two_le
  refine ⟨by omega, hcap, ?_, ?_, ?_, ?_⟩
  · intro j hj
    rw [ha j]
    by_cases hj1 : j = p + 1
    · rw [if_pos hj1]
      exact ⟨ht, rfl⟩
    · rw [if_neg hj1]
      by_cases hj2 : p + 1 < j ∧ j ≤ T.n
      · rw [if_pos hj2]
        exact hT.exact (j - 1) (by omega)
      · rw [if_neg hj2]
        exact hT.exact j (by omega)
  · intro j k hjk hk
    rw [hidx j, hidx k]
    exact insert_strictMono (fun j => (T.a j).i) T.n p t hT.mono hp h1 h2 j k hjk (by omega)
  · rw [hidx 0, if_neg (by omega), if_neg (by omega)]
    exact hT.first
  · rw [hn, hidx (T.n + 1 - 1), if_neg (by omega), if_pos (by omega)]
    have : T.n + 1 - 1 - 1 = T.n - 1 := by omega
    rw [this]
    exact hT.last

/-- A table holding exactly the two endpoints is seeded. -/
theorem Seeded.of_endpoints {arr : Nat → Int} {n : Nat} (hn : 2 ≤ n) {T : AnchorTable}
    (h2 : T.n = 2) (hc : 2 ≤ T.cap) (e0 : T.a 0 = ⟨arr 0, 0⟩)
    (e1 : T.a 1 = ⟨arr (n - 1), n - 1⟩) : Seeded arr n T := by
  refine ⟨by omega, by omega, ?_, ?_, ?_, ?_⟩
  · intro j hj
    have : j = 0 ∨ j = 1 := by omega
    rcases this with rfl | rfl
    · rw [e0]
      exact ⟨show 0 < n by omega, rfl⟩
    · rw [e1]
      exact ⟨show n - 1 < n by omega, rfl⟩
  · intro j k hjk hk
    have hj0 : j = 0 := by omega
    have hk1 : k = 1 := by omega
    subst hj0 hk1
    rw [e0, e1]
    show 0 < n - 1
    omega
  · rw [e0]
  · rw [h2, e1]

/-- The table after seeding an empty table whose buffer could grow is seeded. -/
theorem seed_spec_of {alloc : Nat → Bool} (arr : Nat → Int)
    {n : Nat} (hn : 2 ≤ n) {T : AnchorTable} (h0 : T.n = 0) {c : Nat}
    (hens : ensure_cap alloc T 2 = some ⟨T.a, T.n, c⟩) (hc : 2 ≤ c) :
    ∃ T1, seed alloc arr n T = .ret (some T1) ∧ Seeded arr n T1 ∧ T1.n = 2 ∧
      T1.a 0 = ⟨arr 0, 0⟩ ∧ T1.a 1 = ⟨arr (n - 1), n - 1⟩ := by
  have h2 : twrite ⟨T.a, T.n, c⟩ 0 ⟨arr 0, 0⟩ =
      .ret ⟨Function.update T.a 0 ⟨arr 0, 0⟩, T.n, c⟩ := twrite_of_lt _ (by simp only; omega)
  have h3 : twrite ⟨Function.update T.a 0 ⟨arr 0, 0⟩, T.n, c⟩ 1 ⟨arr (n - 1), n - 1⟩ =
      .ret ⟨Function.update (Function.update T.a 0 ⟨arr 0, 0⟩) 1 ⟨arr (n - 1), n - 1⟩, T.n, c⟩ :=
    twrite_of_lt _ (by simp only; omega)
  have hseed := seed_of_empty h0 hens h2 h3
  have e0 : Function.update (Function.update T.a 0 ⟨arr 0, 0⟩) 1 ⟨arr (n - 1), n - 1⟩ 0 =
      ⟨arr 0, 0⟩ := by
    simp [Function.update_apply]
  have e1 : Function.update (Function.update T.a 0 ⟨arr 0, 0⟩) 1 ⟨arr (n - 1), n - 1⟩ 1 =
      ⟨arr (n - 1), n - 1⟩ := by
    simp [Function.update_apply]
  exact ⟨_, hseed, Seeded.of_endpoints hn rfl hc e0 e1, rfl, e0, e1⟩

/-- The table after seeding an empty table is seeded. -/
theorem seed_spec {alloc : Nat → Bool} (halloc : ∀ k, alloc k = true) (arr : Nat → Int)
    {n : Nat} (hn : 2 ≤ n) {T : AnchorTable} (h0 : T.n = 0) :
    ∃ T1, seed alloc arr n T = .ret (some T1) ∧ Seeded arr n T1 ∧ T1.n = 2 ∧
      T1.a 0 = ⟨arr 0, 0⟩ ∧ T1.a 1 = ⟨arr (n - 1), n - 1⟩ := by
  obtain ⟨c, hens, hc⟩ := ensure_cap_spec halloc T 2
  exact seed_spec_of arr hn h0 hens hc

/-- Whatever the allocator, seeding an empty table fails and leaves it empty,
or leaves a seeded table. -/
theorem seed_cases (alloc : Nat → Bool) (arr : Nat → Int)
    {n : Nat} (hn : 2 ≤ n) {T : AnchorTable} (h0 : T.n = 0) :
    seed alloc arr n T = .ret none ∨
      ∃ T1, seed alloc arr n T = .ret (some T1) ∧ Seeded arr n T1 := by
  rcases ensure_cap_cases alloc T 2 with h | ⟨c, hens, hc⟩
  · exact Or.inl (seed_of_fail h0 h)
  · obtain ⟨T1, h1, h2, _⟩ := seed_spec_of arr hn h0 hens hc
    exact Or.inr ⟨T1, h1, h2⟩

end Stisla

namespace Stisla

/-! ## stisla_search on a seeded table -/

theorem load_of_lt {arr : Nat → Int} {n i : Nat} (h : i < n) : load arr n i = .ret (arr i) := by
  unfold load; rw [if_pos h]

/-- The index of a key of the array lies between the indices of the two
anchors that `anchor_lower` selects. -/
theorem bracket_spec {arr : Nat → Int} {n : Nat} (hs : StrictlyIncreasing arr n)
    {T : AnchorTable} (hT : Seeded arr n T) {p t : Nat} (ht : t < n) (hp : p + 1 < T.n)
    (hlo : p = 0 ∨ (T.a p).v ≤ arr t) (hhi : p + 2 = T.n ∨ arr t < (T.a (p + 1)).v) :
    (T.a p).i ≤ t ∧ t ≤ (T.a (p + 1)).i := by
  have hL := hT.exact p (by omega)
  have hR := hT.exact (p + 1) hp
  constructor
  · rcases hlo with h | h
    · rw [h, hT.first]; exact Nat.zero_le t
    · by_contra hcon
      have := hs t (T.a p).i (by omega) hL.1
      omega
  · rcases hhi with h | h
    · have e : p + 1 = T.n - 1 := by omega
      rw [e, hT.last]; omega
    · rw [← hR.2] at h
      exact (hs.lt_of_val_lt ht h).le

/-- The window after widening contains the index of a key of the segment, and
its upper end stays at or below the index of the right anchor. -/
theorem window_spec {arr : Nat → Int} {n : Nat} (hs : StrictlyIncreasing arr n)
    {t Li Ri pred : Nat} (tol : Nat) (ht : t < n) (hLt : Li ≤ t) (htR : t ≤ Ri) (hRn : Ri < n)
    (hpl : Li ≤ pred) (hpr : pred ≤ Ri) :
    (if arr (window_lo pred tol Li) > arr t then Li else window_lo pred tol Li) ≤ t ∧
    t ≤ (if arr (window_hi pred tol Ri) < arr t then Ri else window_hi pred tol Ri) ∧
    (if arr (window_hi pred tol Ri) < arr t then Ri else window_hi pred tol Ri) ≤ Ri := by
  obtain ⟨hw1, hw2⟩ := window_lo_spec tol hpl
  have hw3 := window_hi_le pred tol Ri
  refine ⟨?_, ?_, ?_⟩
  · split_ifs with h
    · exact hLt
    · by_contra hcon
      have := hs t (window_lo pred tol Li) (by omega) (by omega)
      omega
  · split_ifs with h
    · exact htR
    · by_contra hcon
      have := hs (window_hi pred tol Ri) t (by omega) ht
      omega
  · split_ifs
    · exact le_rfl
    · exact hw3

/-- On a seeded table the search for the element at index `t` returns `t`,
whatever the allocator.  The table afterwards is seeded; when the prediction is
off by more than `tol` it has one more anchor, `(arr[t], t)` right after the
position `p` of the left bounding anchor, unless the buffer could not grow; it
is the same table otherwise. -/
theorem search_seeded_present_any (alloc : Nat → Bool)
    {arr : Nat → Int} {n : Nat} (harr : IsArray arr n) (hs : StrictlyIncreasing arr n)
    {T : AnchorTable} (hT : Seeded arr n T) {t : Nat} (ht : t < n) (tol : Nat) :
    ∃ p pred T1, anchor_lower T (arr t) = .ret p ∧ p + 1 < T.n ∧
      predict (arr t) (T.a p) (T.a (p + 1)) = some pred ∧
      (T.a p).i ≤ pred ∧ pred ≤ (T.a (p + 1)).i ∧
      search_seeded alloc arr n (arr t) T tol = .ret (t, T1) ∧ Seeded arr n T1 ∧
      (if (if pred > t then pred - t else t - pred) > tol then
        (ensure_cap alloc T (T.n + 1) = none ∧ T1 = T) ∨
        (T1.n = T.n + 1 ∧ ∀ k, T1.a k = if k = p + 1 then ⟨arr t, t⟩
          else if p + 1 < k ∧ k ≤ T.n then T.a (k - 1) else T.a k)
       else T1 = T) := by
  have hn := harr.1
  have hTn := hT.n_le
  obtain ⟨p, hp, hp1, hlo, hhi⟩ := anchor_lower_spec T (arr t) hT.two_le (by omega)
  obtain ⟨hLt, htR⟩ := bracket_spec hs hT ht hp1 hlo hhi
  have hLR := hT.mono p (p + 1) (by omega) hp1
  have hL := hT.exact p (by omega)
  have hR := hT.exact (p + 1) hp1
  obtain ⟨pred, hpred, hpl, hpr⟩ := predict_spec (arr t) (T.a p) (T.a (p + 1)) hLR.le (by omega)
  obtain ⟨hw1, hw2⟩ := window_lo_spec tol hpl
  have hw3 := window_hi_le pred tol (T.a (p + 1)).i
  obtain ⟨hlo1, hhi1, hhi2⟩ := window_spec hs tol ht hLt htR hR.1 hpl hpr
  have h5 : load arr n (window_lo pred tol (T.a p).i) =
      .ret (arr (window_lo pred tol (T.a p).i)) := load_of_lt (by omega)
  have h6 : load arr n (window_hi pred tol (T.a (p + 1)).i) =
      .ret (arr (window_hi pred tol (T.a (p + 1)).i)) := load_of_lt (by omega)
  have h7 := local_search_present hs ht _ _ _ rfl hlo1 hhi1 (by omega)
  by_cases hc : (if pred > t then pred - t else t - pred) > tol
  · have hLt' : (T.a p).i < t := by
      by_contra hcon
      have e : t = (T.a p).i := by omega
      have hv : arr t = (T.a p).v := by rw [e]; exact hL.2
      rw [hv, predict_left _ _ hLR.le (by omega)] at hpred
      simp only [Option.some.injEq] at hpred
      rw [← hpred, ← e] at hc
      simp at hc
    have htR' : t < (T.a (p + 1)).i := by
      by_contra hcon
      have e : t = (T.a (p + 1)).i := by omega
      have hv : arr t = (T.a (p + 1)).v := by rw [e]; exact hR.2
      have hne : (T.a (p + 1)).v ≠ (T.a p).v := by
        have := hs _ _ hLR hR.1
        rw [hL.2, hR.2] at this
        omega
      rw [hv, predict_right _ _ hLR.le (by omega) (by rw [← hL.2]; exact harr.2 _ hL.1)
        (by rw [← hR.2]; exact harr.2 _ hR.1) hne] at hpred
      simp only [Option.some.injEq] at hpred
      rw [← hpred, ← e] at hc
      simp at hc
    rcases anchor_insert_cases alloc T (arr t) t hT.two_le (by omega) with
      ⟨hfail, hins⟩ | ⟨p', T1, hp', _, _, _, hins, hn1, hcap, ha⟩
    · have h8 : learn alloc T pred tol t (arr t) = .ret T := learn_of_fail hins
      refine ⟨p, pred, T, hp, hp1, hpred, hpl, hpr,
        search_seeded_of_found hp (tread_of_lt (by omega)) (tread_of_lt hp1) hpred h5 h6 h7 h8,
        hT, ?_⟩
      rw [if_pos hc]
      exact Or.inl ⟨hfail, rfl⟩
    · have hpp : p' = p := by
        rw [hp] at hp'
        simp only [Result.ret.injEq] at hp'
        exact hp'.symm
      subst hpp
      have hseed := hT.insert ht hp1 hLt' htR' hn1 hcap ha
      have h8 := learn_of_insert hc hins
      refine ⟨p', pred, T1, hp, hp1, hpred, hpl, hpr,
        search_seeded_of_found hp (tread_of_lt (by omega)) (tread_of_lt hp1) hpred h5 h6 h7 h8,
        hseed, ?_⟩
      rw [if_pos hc]
      exact Or.inr ⟨hn1, ha⟩
  · have h8 := learn_of_le alloc T (arr t) hc
    refine ⟨p, pred, T, hp, hp1, hpred, hpl, hpr,
      search_seeded_of_found hp (tread_of_lt (by omega)) (tread_of_lt hp1) hpred h5 h6 h7 h8,
      hT, ?_⟩
    rw [if_neg hc]

/-- On a seeded table, with an allocator that always succeeds, the search for
the element at index `t` returns `t`.  The table afterwards is seeded; it has
one more anchor, `(arr[t], t)` right after the position `p` of the left
bounding anchor, when the prediction is off by more than `tol`, and is the same
table otherwise. -/
theorem search_seeded_present {alloc : Nat → Bool} (halloc : ∀ k, alloc k = true)
    {arr : Nat → Int} {n : Nat} (harr : IsArray arr n) (hs : StrictlyIncreasing arr n)
    {T : AnchorTable} (hT : Seeded arr n T) {t : Nat} (ht : t < n) (tol : Nat) :
    ∃ p pred T1, anchor_lower T (arr t) = .ret p ∧ p + 1 < T.n ∧
      predict (arr t) (T.a p) (T.a (p + 1)) = some pred ∧
      (T.a p).i ≤ pred ∧ pred ≤ (T.a (p + 1)).i ∧
      search_seeded alloc arr n (arr t) T tol = .ret (t, T1) ∧ Seeded arr n T1 ∧
      (if (if pred > t then pred - t else t - pred) > tol then
        T1.n = T.n + 1 ∧ ∀ k, T1.a k = if k = p + 1 then ⟨arr t, t⟩
          else if p + 1 < k ∧ k ≤ T.n then T.a (k - 1) else T.a k
       else T1 = T) := by
  obtain ⟨p, pred, T1, h1, h2, h3, h4, h5, h6, h7, h8⟩ :=
    search_seeded_present_any alloc harr hs hT ht tol
  refine ⟨p, pred, T1, h1, h2, h3, h4, h5, h6, h7, ?_⟩
  by_cases hc : (if pred > t then pred - t else t - pred) > tol
  · rw [if_pos hc] at h8 ⊢
    rcases h8 with ⟨hfail, _⟩ | h
    · obtain ⟨c, hens, _⟩ := ensure_cap_spec halloc T (T.n + 1)
      rw [hens] at hfail
      exact absurd hfail (by simp)
    · exact h
  · rw [if_neg hc] at h8 ⊢
    exact h8

/-- On a seeded table the search for a key that is not in the array returns
`SIZE_MAX` and leaves the table as it is. -/
theorem search_seeded_absent (alloc : Nat → Bool) {arr : Nat → Int} {n : Nat}
    (harr : IsArray arr n) {T : AnchorTable} (hT : Seeded arr n T) {key : Int}
    (habs : ∀ i, i < n → arr i ≠ key) (tol : Nat) :
    search_seeded alloc arr n key T tol = .ret (SIZE_MAX, T) := by
  have hn := harr.1
  have hTn := hT.n_le
  obtain ⟨p, hp, hp1, _, _⟩ := anchor_lower_spec T key hT.two_le (by omega)
  have hLR := hT.mono p (p + 1) (by omega) hp1
  have hR := hT.exact (p + 1) hp1
  obtain ⟨pred, hpred, hpl, hpr⟩ := predict_spec key (T.a p) (T.a (p + 1)) hLR.le (by omega)
  obtain ⟨hw1, hw2⟩ := window_lo_spec tol hpl
  have hw3 := window_hi_le pred tol (T.a (p + 1)).i
  have h5 : load arr n (window_lo pred tol (T.a p).i) =
      .ret (arr (window_lo pred tol (T.a p).i)) := load_of_lt (by omega)
  have h6 : load arr n (window_hi pred tol (T.a (p + 1)).i) =
      .ret (arr (window_hi pred tol (T.a (p + 1)).i)) := load_of_lt (by omega)
  have hhi : (if arr (window_hi pred tol (T.a (p + 1)).i) < key then (T.a (p + 1)).i
      else window_hi pred tol (T.a (p + 1)).i) < n := by
    split_ifs <;> omega
  have h7 := local_search_absent habs _
    (if arr (window_lo pred tol (T.a p).i) > key then (T.a p).i
      else window_lo pred tol (T.a p).i) _ rfl hhi
  exact search_seeded_of_miss hp (tread_of_lt (by omega)) (tread_of_lt hp1) hpred h5 h6 h7

/-! ## stisla_search on reachable tables -/

/-- A key is in the array or it is not. -/
theorem present_or_absent (arr : Nat → Int) (n : Nat) (key : Int) :
    (∃ t, t < n ∧ arr t = key) ∨ ∀ i, i < n → arr i ≠ key := by
  by_cases h : ∃ t, t < n ∧ arr t = key
  · exact Or.inl h
  · right
    intro i hi heq
    exact h ⟨i, hi, heq⟩

/-- The value that `bin_search` returns: the index of the key, or `SIZE_MAX`. -/
theorem stisla_bin_search_loop_eq (a : Nat → Int) (n : Nat) (x : Int) :
    ∀ d lo hi, hi - lo = d →
      bin_search_loop a n x lo hi = GisBench.bin_search_loop a n x lo hi := by
  intro d
  induction d using Nat.strong_induction_on with
  | _ d ih =>
    intro lo hi hd
    rw [bin_search_loop, GisBench.bin_search_loop]
    by_cases hc : lo < hi
    · rw [if_pos hc, if_pos hc]
      unfold load
      by_cases hm : lo + (hi - lo) / 2 < n
      · rw [if_pos hm]
        simp only
        rw [ih (hi - (lo + (hi - lo) / 2 + 1)) (by omega) _ _ rfl,
          ih (lo + (hi - lo) / 2 - lo) (by omega) _ _ rfl]
      · rw [if_neg hm]
    · rw [if_neg hc, if_neg hc]

theorem stisla_bin_search_eq (a : Nat → Int) (n : Nat) (x : Int) :
    bin_search a n x = GisBench.bin_search a n x := by
  unfold bin_search GisBench.bin_search
  exact stisla_bin_search_loop_eq a n x _ _ _ rfl

theorem stisla_bin_search_present {a : Nat → Int} {n : Nat} (hs : StrictlyIncreasing a n)
    {t : Nat} (ht : t < n) : bin_search a n (a t) = .ret t := by
  rw [stisla_bin_search_eq]; exact GisBench.bin_search_present hs ht

theorem stisla_bin_search_absent {a : Nat → Int} {n : Nat} {x : Int}
    (habs : ∀ i, i < n → a i ≠ x) : bin_search a n x = .ret SIZE_MAX := by
  rw [stisla_bin_search_eq]; exact GisBench.bin_search_absent habs

/-- A call of `stisla_search` on a table that is empty or seeded returns what
`bin_search` returns; on an array of at least 32 elements the table afterwards
is seeded, and a seeded table is left as it is when the key is not in the
array. -/
theorem stisla_search_spec {alloc : Nat → Bool} (halloc : ∀ k, alloc k = true)
    {arr : Nat → Int} {n : Nat} (harr : IsArray arr n) (hs : StrictlyIncreasing arr n)
    {T : AnchorTable} (hT : T.n = 0 ∨ Seeded arr n T) (key : Int) (tol : Nat) :
    ∃ r T1, stisla_search alloc arr n key T tol = .ret (r, T1) ∧
      bin_search arr n key = .ret r ∧
      (n < 32 → T1 = T) ∧ (32 ≤ n → Seeded arr n T1) ∧
      ((∀ i, i < n → arr i ≠ key) → T.n ≠ 0 → T1 = T) := by
  by_cases hsmall : n < 32
  · rw [stisla_search_small key T tol hsmall]
    rcases present_or_absent arr n key with ⟨t, ht, rfl⟩ | habs
    · refine ⟨_, T, rfl, ?_, fun _ => rfl, fun h => by omega, fun _ _ => rfl⟩
      rw [linear_present hs ht t 0 rfl (Nat.zero_le t)]
      exact stisla_bin_search_present hs ht
    · refine ⟨_, T, rfl, ?_, fun _ => rfl, fun h => by omega, fun _ _ => rfl⟩
      rw [linear_absent habs n 0 rfl]
      exact stisla_bin_search_absent habs
  · have hseeded : ∃ T0, seed alloc arr n T = .ret (some T0) ∧ Seeded arr n T0 ∧
        (T.n ≠ 0 → T0 = T) := by
      by_cases h0 : T.n = 0
      · obtain ⟨T0, h1, h2, _⟩ := seed_spec halloc arr (by omega : 2 ≤ n) h0
        exact ⟨T0, h1, h2, fun h => absurd h0 h⟩
      · rcases hT with h | h
        · exact absurd h h0
        · exact ⟨T, seed_of_seeded h0, h, fun _ => rfl⟩
    obtain ⟨T0, hseed, hT0, hsame⟩ := hseeded
    rw [stisla_search_of_seed key tol hsmall hseed]
    rcases present_or_absent arr n key with ⟨t, ht, rfl⟩ | habs
    · obtain ⟨p, pred, T1, _, _, _, _, _, hsearch, hT1, _⟩ :=
        search_seeded_present halloc harr hs hT0 ht tol
      refine ⟨t, T1, hsearch, stisla_bin_search_present hs ht, fun h => absurd h hsmall,
        fun _ => hT1, fun habs => absurd rfl (habs t ht)⟩
    · refine ⟨SIZE_MAX, T0, search_seeded_absent alloc harr hT0 habs tol,
        stisla_bin_search_absent habs, fun h => absurd h hsmall, fun _ => hT0, fun _ h => hsame h⟩

/-- Whatever the allocator, a call of `stisla_search` on a table that is
empty or seeded returns; the table afterwards is the table before or, on an
array of at least 32 elements, a seeded table; a key that is not in the array
gives `SIZE_MAX`, and leaves a table that is not empty as it is. -/
theorem stisla_search_any (alloc : Nat → Bool)
    {arr : Nat → Int} {n : Nat} (harr : IsArray arr n) (hs : StrictlyIncreasing arr n)
    {T : AnchorTable} (hT : T.n = 0 ∨ Seeded arr n T) (key : Int) (tol : Nat) :
    ∃ r T1, stisla_search alloc arr n key T tol = .ret (r, T1) ∧
      (T1 = T ∨ (32 ≤ n ∧ Seeded arr n T1)) ∧
      ((∀ i, i < n → arr i ≠ key) → r = SIZE_MAX ∧ (T.n ≠ 0 → T1 = T)) := by
  by_cases hsmall : n < 32
  · rw [stisla_search_small key T tol hsmall]
    refine ⟨_, T, rfl, Or.inl rfl, fun habs => ⟨linear_absent habs n 0 rfl, fun _ => rfl⟩⟩
  · have hseeded : seed alloc arr n T = .ret none ∨
        ∃ T0, seed alloc arr n T = .ret (some T0) ∧ Seeded arr n T0 ∧ (T.n ≠ 0 → T0 = T) := by
      by_cases h0 : T.n = 0
      · rcases seed_cases alloc arr (by omega : 2 ≤ n) h0 with h | ⟨T0, h1, h2⟩
        · exact Or.inl h
        · exact Or.inr ⟨T0, h1, h2, fun h => absurd h0 h⟩
      · rcases hT with h | h
        · exact absurd h h0
        · exact Or.inr ⟨T, seed_of_seeded h0, h, fun _ => rfl⟩
    rcases hseeded with hfail | ⟨T0, hseed, hT0, hsame⟩
    · rw [stisla_search_of_seed_fail key tol hsmall hfail]
      exact ⟨SIZE_MAX, T, rfl, Or.inl rfl, fun _ => ⟨rfl, fun _ => rfl⟩⟩
    · rw [stisla_search_of_seed key tol hsmall hseed]
      rcases present_or_absent arr n key with ⟨t, ht, rfl⟩ | habs
      · obtain ⟨p, pred, T1, _, _, _, _, _, hsearch, hT1, _⟩ :=
          search_seeded_present_any alloc harr hs hT0 ht tol
        exact ⟨t, T1, hsearch, Or.inr ⟨by omega, hT1⟩, fun habs => absurd rfl (habs t ht)⟩
      · exact ⟨SIZE_MAX, T0, search_seeded_absent alloc harr hT0 habs tol,
          Or.inr ⟨by omega, hT0⟩, fun _ => ⟨rfl, hsame⟩⟩

/-- A reachable table is the empty table, or the array has at least 32
elements and the table is seeded, whatever the allocator. -/
theorem reachable_inv (alloc : Nat → Bool)
    {arr : Nat → Int} {n : Nat} (harr : IsArray arr n) (hs : StrictlyIncreasing arr n)
    {T : AnchorTable} (h : Reachable alloc arr n T) :
    T = emptyTable ∨ (32 ≤ n ∧ Seeded arr n T) := by
  induction h with
  | empty => exact Or.inl rfl
  | call T T1 key tol r _ hcall ih =>
    have hT : T.n = 0 ∨ Seeded arr n T := by
      rcases ih with h | h
      · left; rw [h]; rfl
      · exact Or.inr h.2
    obtain ⟨r', T1', hres, hinv, _⟩ := stisla_search_any alloc harr hs hT key tol
    rw [hres] at hcall
    simp only [Result.ret.injEq, Prod.mk.injEq] at hcall
    obtain ⟨_, rfl⟩ := hcall
    rcases hinv with h | h
    · rw [h]
      exact ih
    · exact Or.inr h

theorem reachable_empty_or_seeded (alloc : Nat → Bool)
    {arr : Nat → Int} {n : Nat} (harr : IsArray arr n) (hs : StrictlyIncreasing arr n)
    {T : AnchorTable} (h : Reachable alloc arr n T) : T.n = 0 ∨ Seeded arr n T := by
  rcases reachable_inv alloc harr hs h with h | h
  · left; rw [h]; rfl
  · exact Or.inr h.2

end Stisla

namespace Stisla

/-! ## Runs on concrete tables -/

theorem twoTable_strictlySorted : StrictlySortedByValue twoTable := by
  intro j k hjk hk
  have hk2 : k < 2 := hk
  have hj0 : j = 0 := by omega
  have hk1 : k = 1 := by omega
  subst hj0 hk1
  decide

theorem twoTable_sorted : SortedByValue twoTable := by
  intro j k hjk hk
  have hk2 : k < 2 := hk
  have h : (j = 0 ∧ k = 0) ∨ (j = 0 ∧ k = 1) ∨ (j = 1 ∧ k = 1) := by omega
  rcases h with ⟨rfl, rfl⟩ | ⟨rfl, rfl⟩ | ⟨rfl, rfl⟩ <;> decide

theorem anchor_lower_twoTable (x : Int) : anchor_lower twoTable x = .ret 0 := by
  unfold anchor_lower
  rw [show usub twoTable.n 1 = 1 from usub_eq (by decide) (by decide), anchor_lower_loop,
    if_neg (by decide)]

theorem anchor_insert_twoTable :
    anchor_insert (fun _ => true) twoTable 20 5 = .ret (some twoTableInserted) := by
  have e1 : uadd twoTable.n 1 = 3 := uadd_eq (by decide)
  have e2 : uadd 0 1 = 1 := uadd_eq (by decide)
  have h1 : ensure_cap (fun _ => true) twoTable (uadd twoTable.n 1) = some twoTable := by
    rw [e1]; unfold ensure_cap; rw [if_pos (by decide)]
  have h3 : shift (uadd 0 1) twoTable.n twoTable =
      .ret ⟨Function.update twoTable.a 2 ⟨10, 9⟩, 2, 8⟩ := by
    rw [e2]; rfl
  have h4 : twrite ⟨Function.update twoTable.a 2 ⟨10, 9⟩, 2, 8⟩ (uadd 0 1) ⟨20, 5⟩ =
      .ret ⟨Function.update (Function.update twoTable.a 2 ⟨10, 9⟩) 1 ⟨20, 5⟩, 2, 8⟩ := by
    rw [e2]; rfl
  rw [anchor_insert_of h1 (anchor_lower_twoTable 20) h3 h4]
  show Result.ret (some (AnchorTable.mk _ (uadd 2 1) 8)) = _
  rw [uadd_eq (by decide)]
  rfl

theorem twoTableInserted_entries : entries twoTableInserted = [⟨0, 0⟩, ⟨20, 5⟩, ⟨10, 9⟩] := by
  decide

theorem twoTableInserted_not_sorted : ¬ SortedByValue twoTableInserted := by
  intro h
  have := h 1 2 (by decide) (by decide)
  revert this
  decide

/-- The first search on the first 100 elements of `benchArray`, for the absent
key `3`, seeds the table and returns `SIZE_MAX`. -/
theorem seededBench_seeded : Seeded benchArray 100 seededBench :=
  Seeded.of_endpoints (by decide) rfl (by decide) (by decide) (by decide)

theorem seed_bench : seed (fun _ => true) benchArray 100 emptyTable = .ret (some seededBench) := by
  have h1 : ensure_cap (fun _ => true) emptyTable 2 = some ⟨emptyTable.a, 0, 8⟩ := by
    unfold ensure_cap
    rw [if_neg (by decide)]
    rfl
  have h2 : twrite ⟨emptyTable.a, 0, 8⟩ 0 ⟨benchArray 0, 0⟩ =
      .ret ⟨Function.update emptyTable.a 0 ⟨benchArray 0, 0⟩, 0, 8⟩ := rfl
  have h3 : twrite ⟨Function.update emptyTable.a 0 ⟨benchArray 0, 0⟩, 0, 8⟩ 1
      ⟨benchArray (100 - 1), 100 - 1⟩ = .ret ⟨Function.update
        (Function.update emptyTable.a 0 ⟨benchArray 0, 0⟩) 1
        ⟨benchArray (100 - 1), 100 - 1⟩, 0, 8⟩ := rfl
  rw [seed_of_empty rfl h1 h2 h3]
  rfl

theorem benchArray_absent_three (n : Nat) : ∀ i, i < n → benchArray i ≠ 3 := by
  intro i _
  unfold benchArray
  omega

theorem stisla_search_bench_miss :
    stisla_search (fun _ => true) benchArray 100 3 emptyTable 8 = .ret (SIZE_MAX, seededBench) := by
  rw [stisla_search_of_seed 3 8 (by decide) seed_bench]
  exact search_seeded_absent _ (GisBench.benchArray_isArray (by norm_num)) seededBench_seeded
    (benchArray_absent_three 100) 8

theorem seededBench_reachable : Reachable (fun _ => true) benchArray 100 seededBench :=
  Reachable.call _ _ _ _ _ Reachable.empty stisla_search_bench_miss

/-- On an array of fewer than 32 elements a search leaves the empty table
empty. -/
theorem stisla_search_bench_small :
    stisla_search (fun _ => true) benchArray 10 0 emptyTable 8 = .ret (0, emptyTable) := by
  rw [stisla_search_small 0 emptyTable 8 (by decide), linear, if_pos (by decide),
    if_pos (by decide)]

end Stisla

namespace Stisla

/-! ## The anchors of a table as a list -/

theorem entries_length (T : AnchorTable) : (entries T).length = T.n := by
  unfold entries; simp

theorem entries_getElem? (T : AnchorTable) (k : Nat) :
    (entries T)[k]? = if k < T.n then some (T.a k) else none := by
  unfold entries
  by_cases h : k < T.n
  · simp [h]
  · simp [h]
    omega

/-- The anchors after an insertion at position `p + 1`: the old anchors in
their order, with the new one between the first `p + 1` and the others. -/
theorem entries_insert {T T1 : AnchorTable} {p : Nat} {x : Anchor} (hp : p + 1 < T.n)
    (hn : T1.n = T.n + 1)
    (ha : ∀ k, T1.a k = if k = p + 1 then x
      else if p + 1 < k ∧ k ≤ T.n then T.a (k - 1) else T.a k) :
    entries T1 = (entries T).take (p + 1) ++ x :: (entries T).drop (p + 1) := by
  apply List.ext_getElem?
  intro k
  rw [entries_getElem?, hn, ha k]
  have hlen : ((entries T).take (p + 1)).length = p + 1 := by
    rw [List.length_take, entries_length]; omega
  by_cases h1 : k < p + 1
  · rw [List.getElem?_append_left (by omega), List.getElem?_take, if_pos h1, entries_getElem?]
    rw [if_pos (by omega), if_neg (by omega), if_neg (by omega), if_pos (by omega)]
  · rw [List.getElem?_append_right (by omega), hlen]
    by_cases h2 : k = p + 1
    · subst h2
      simp
      omega
    · obtain ⟨m, hm⟩ : ∃ m, k - (p + 1) = m + 1 := ⟨k - (p + 1) - 1, by omega⟩
      rw [hm, List.getElem?_cons_succ, List.getElem?_drop, entries_getElem?]
      have e : p + 1 + m = k - 1 := by omega
      rw [e]
      by_cases h3 : k < T.n + 1
      · rw [if_pos h3, if_neg h2, if_pos (by omega), if_pos (by omega)]
      · rw [if_neg h3, if_neg (by omega)]

/-- Inserting a value between two neighbours of a sorted sequence keeps it
sorted. -/
theorem insert_sorted (g : Nat → Int) (m p : Nat) (v : Int)
    (hmono : ∀ j k, j ≤ k → k < m → g j ≤ g k) (hp : p + 1 < m)
    (h1 : g p ≤ v) (h2 : v ≤ g (p + 1)) :
    ∀ j k, j ≤ k → k < m + 1 →
      (if j = p + 1 then v else if p + 1 < j ∧ j ≤ m then g (j - 1) else g j) ≤
      (if k = p + 1 then v else if p + 1 < k ∧ k ≤ m then g (k - 1) else g k) := by
  intro j k hjk hk
  by_cases hj : j = p + 1
  · rw [if_pos hj]
    by_cases hk1 : k = p + 1
    · rw [if_pos hk1]
    · rw [if_neg hk1, if_pos (by omega)]
      have := hmono (p + 1) (k - 1) (by omega) (by omega)
      omega
  · rw [if_neg hj]
    by_cases hk1 : k = p + 1
    · rw [if_pos hk1, if_neg (by omega)]
      have := hmono j p (by omega) (by omega)
      omega
    · rw [if_neg hk1]
      by_cases hj2 : p + 1 < j ∧ j ≤ m
      · rw [if_pos hj2, if_pos (by omega)]
        exact hmono (j - 1) (k - 1) (by omega) (by omega)
      · rw [if_neg hj2]
        by_cases hk2 : p + 1 < k ∧ k ≤ m
        · rw [if_pos hk2]
          exact hmono j (k - 1) (by omega) (by omega)
        · rw [if_neg hk2]
          exact hmono j k hjk (by omega)

/-- An insertion into a sorted table of a value between the first and the last
value leaves a sorted table. -/
theorem sorted_insert {T T1 : AnchorTable} {p i : Nat} {v : Int} (hsorted : SortedByValue T)
    (hp : p + 1 < T.n) (hlo : p = 0 ∨ (T.a p).v ≤ v) (hhi : p + 2 = T.n ∨ v < (T.a (p + 1)).v)
    (h0 : (T.a 0).v ≤ v) (h1 : v ≤ (T.a (T.n - 1)).v) (hn : T1.n = T.n + 1)
    (ha : ∀ k, T1.a k = if k = p + 1 then ⟨v, i⟩
      else if p + 1 < k ∧ k ≤ T.n then T.a (k - 1) else T.a k) :
    SortedByValue T1 := by
  have hval : ∀ k, (T1.a k).v = if k = p + 1 then v
      else if p + 1 < k ∧ k ≤ T.n then (T.a (k - 1)).v else (T.a k).v := by
    intro k
    rw [ha k]
    split_ifs <;> rfl
  have hL : (T.a p).v ≤ v := by
    rcases hlo with h | h
    · rw [h]; exact h0
    · exact h
  have hR : v ≤ (T.a (p + 1)).v := by
    rcases hhi with h | h
    · have e : p + 1 = T.n - 1 := by omega
      rw [e]; exact h1
    · exact h.le
  intro j k hjk hk
  rw [hval j, hval k]
  exact insert_sorted (fun j => (T.a j).v) T.n p v hsorted hp hL hR j k hjk (by omega)

end Stisla

/-! ## The claims -/

open GisBench Stisla

/-- Claim C1, failing input: `spanArray` is a strictly increasing array of 65
`int64_t` (`INT64_MIN + i` up to index 61, then `INT64_MAX - 34`,
`INT64_MAX - 32`, `INT64_MAX`), and the key is its element at index 62.  The
galloping ends with `L = 31`, `R = 63`.  In every round of the interpolation
loop the differences `x - a[L] = 2^64 - 66` and `a[R] - a[L] = 2^64 - 64` wrap
to `-66` and `-64`, the fraction is `1.03125`, the estimate is `P = 64`, above
`R`, with `a[64] > x`, and `R = P - 1 = 63` again: a round leaves the bracket
as it is, and `gis_search` does not return the index 62, whatever the fuel. -/
theorem gis_search_present_key_never_returned :
    IsArray spanArray 65 ∧ StrictlyIncreasing spanArray 65 ∧ 62 < 65 ∧
      wrap64 (spanArray 62 - spanArray 31) = -66 ∧
      wrap64 (spanArray 63 - spanArray 31) = -64 ∧
      estimate (spanArray 62) (spanArray 31) (spanArray 63) 31 63 = some 64 ∧
      (∀ fuel, narrow spanArray 65 (spanArray 62) (fuel + 1) 31 63 =
        narrow spanArray 65 (spanArray 62) fuel 31 63) ∧
      ∀ fuel, gis_search fuel spanArray 65 (spanArray 62) = .timeout :=
  ⟨spanArray_isArray, spanArray_strictlyIncreasing, by norm_num, spanArray_wrap.2.2.1,
    spanArray_wrap.2.2.2, estimate_spanArray, narrow_spanArray_step, gis_search_spanArray⟩

/-- Claim C2, failing input: on the strictly increasing array `gapArray`
(`62 * i` for `i ≤ 95`, then `5953`, `5954`; `n = 98`) and the key `5952`,
absent and inside `[a[0], a[n-1]]`, `bin_search` returns `SIZE_MAX` and
`gis_search` returns nothing, whatever the fuel: the two do not agree. -/
theorem gis_search_differs_from_bin_search :
    IsArray gapArray 98 ∧ StrictlyIncreasing gapArray 98 ∧
      gapArray 0 ≤ 5952 ∧ 5952 ≤ gapArray (98 - 1) ∧ (∀ i, i < 98 → gapArray i ≠ 5952) ∧
      GisBench.bin_search gapArray 98 5952 = .ret SIZE_MAX ∧
      (∀ fuel, gis_search fuel gapArray 98 5952 = .timeout) ∧
      ∀ fuel, gis_search fuel gapArray 98 5952 ≠ GisBench.bin_search gapArray 98 5952 := by
  have hb1 : GisBench.bin_search gapArray 98 5952 = .ret SIZE_MAX :=
    GisBench.bin_search_absent gapArray_absent
  refine ⟨gapArray_isArray, gapArray_strictlyIncreasing, by decide, by decide, gapArray_absent,
    hb1, gis_search_gapArray, ?_⟩
  intro fuel h
  rw [gis_search_gapArray fuel, hb1] at h
  exact Result.noConfusion h

/-- Claim C3: for every strictly increasing array of `n ≤ 2^53` `int64_t`,
every table reachable from the empty table by calls of `stisla_search` on that
array (allocation succeeding), every key and every tolerance, the call returns
what `bin_search` returns, the index of the key if it is in the array and
`SIZE_MAX` otherwise, and the table after the call is reachable again. -/
theorem stisla_search_agrees_with_bin_search (alloc : Nat → Bool)
    (halloc : ∀ k, alloc k = true) (arr : Nat → Int) (n : Nat) (harr : IsArray arr n)
    (hs : StrictlyIncreasing arr n) (T : AnchorTable) (hT : Reachable alloc arr n T)
    (key : Int) (tol : Nat) :
    ∃ r T1, stisla_search alloc arr n key T tol = .ret (r, T1) ∧
      Stisla.bin_search arr n key = .ret r ∧ Reachable alloc arr n T1 ∧
      ((∃ t, t < n ∧ arr t = key ∧ r = t) ∨ ((∀ i, i < n → arr i ≠ key) ∧ r = SIZE_MAX)) := by
  obtain ⟨r, T1, hcall, hbin, _⟩ :=
    stisla_search_spec halloc harr hs (reachable_empty_or_seeded alloc harr hs hT) key tol
  refine ⟨r, T1, hcall, hbin, Reachable.call T T1 key tol r hT hcall, ?_⟩
  rcases present_or_absent arr n key with ⟨t, ht, hkey⟩ | habs
  · left
    refine ⟨t, ht, hkey, ?_⟩
    rw [← hkey, stisla_bin_search_present hs ht] at hbin
    simp only [Result.ret.injEq] at hbin
    exact hbin.symm
  · right
    refine ⟨habs, ?_⟩
    rw [stisla_bin_search_absent habs] at hbin
    simp only [Result.ret.injEq] at hbin
    exact hbin.symm

/-- Claim C3, witness: the first call on `a[i] = 2 * i`, `n = 1000000`, for
the key `999998` with tolerance 8. -/
theorem stisla_search_agrees_with_bin_search_witness :
    (∀ k : Nat, (fun _ : Nat => true) k = true) ∧ IsArray benchArray 1000000 ∧
      StrictlyIncreasing benchArray 1000000 ∧
      Reachable (fun _ => true) benchArray 1000000 emptyTable ∧
      ∃ r T1, stisla_search (fun _ => true) benchArray 1000000 999998 emptyTable 8 = .ret (r, T1) ∧
        Stisla.bin_search benchArray 1000000 999998 = .ret r ∧
        Reachable (fun _ => true) benchArray 1000000 T1 ∧
        ((∃ t, t < 1000000 ∧ benchArray t = 999998 ∧ r = t) ∨
          ((∀ i, i < 1000000 → benchArray i ≠ 999998) ∧ r = SIZE_MAX)) :=
  ⟨fun _ => rfl, benchArray_isArray (by norm_num), benchArray_strictlyIncreasing _,
    Reachable.empty,
    stisla_search_agrees_with_bin_search (fun _ => true) (fun _ => rfl) benchArray 1000000
      (benchArray_isArray (by norm_num)) (benchArray_strictlyIncreasing _) emptyTable
      Reachable.empty 999998 8⟩

/-- Claim C4, failing input: on the strictly increasing array `gapArray`
(`62 * i` for `i ≤ 95`, then `5953`, `5954`; `n = 98`) and the absent key
`5952` the interpolation loop reaches the bracket `L = 63`, `R = 95`, where the
estimate is `P = 96` with `a[96] > 5952`, so `R = P - 1 = 95` again: a round
of the loop leaves the bracket as it is, and `gis_search` does not return,
whatever the fuel. -/
theorem gis_search_never_returns :
    IsArray gapArray 98 ∧ StrictlyIncreasing gapArray 98 ∧
      (∀ fuel, narrow gapArray 98 5952 (fuel + 1) 63 95 = narrow gapArray 98 5952 fuel 63 95) ∧
      ∀ fuel, gis_search fuel gapArray 98 5952 = .timeout :=
  ⟨gapArray_isArray, gapArray_strictlyIncreasing, narrow_gapArray_step, gis_search_gapArray⟩

/-- Claim C5: for every strictly increasing array of `n ≤ 2^53` `int64_t` and
every table reachable from the empty table by calls of `stisla_search` on that
array, with any keys and tolerances, whether the allocations succeed or not,
the anchors are strictly increasing by value and by index and every anchor
`(v, i)` has `i < n` and `arr[i] = v`. -/
theorem reachable_sorted_exact (alloc : Nat → Bool)
    (arr : Nat → Int) (n : Nat) (harr : IsArray arr n) (hs : StrictlyIncreasing arr n)
    (T : AnchorTable) (hT : Reachable alloc arr n T) :
    StrictlySortedByValue T ∧ StrictlySortedByIndex T ∧ ExactSamples arr n T := by
  rcases reachable_inv alloc harr hs hT with h | ⟨_, h⟩
  · subst h
    refine ⟨?_, ?_, ?_⟩
    · intro j k _ hk; exact absurd hk (Nat.not_lt_zero k)
    · intro j k _ hk; exact absurd hk (Nat.not_lt_zero k)
    · intro j hj; exact absurd hj (Nat.not_lt_zero j)
  · exact ⟨h.sorted hs, h.mono, h.exact⟩

/-- Claim C5, witness: the table `seededBench`, reached by one call on the
first 100 elements of `a[i] = 2 * i`. -/
theorem reachable_sorted_exact_witness :
    IsArray benchArray 100 ∧
      StrictlyIncreasing benchArray 100 ∧ Reachable (fun _ => true) benchArray 100 seededBench ∧
      (StrictlySortedByValue seededBench ∧ StrictlySortedByIndex seededBench ∧
        ExactSamples benchArray 100 seededBench) :=
  ⟨benchArray_isArray (by norm_num), benchArray_strictlyIncreasing _,
    seededBench_reachable,
    reachable_sorted_exact (fun _ => true) benchArray 100
      (benchArray_isArray (by norm_num)) (benchArray_strictlyIncreasing _) seededBench
      seededBench_reachable⟩

/-- Claim C6, counterexample: on the first 10 elements of `a[i] = 2 * i`, a
non-empty strictly increasing array, the call of `stisla_search` for the key
`0` on the empty table takes the fast path and leaves the table empty: no
endpoint anchor is there after the call. -/
theorem stisla_search_small_array_no_seed :
    StrictlyIncreasing benchArray 10 ∧
      stisla_search (fun _ => true) benchArray 10 0 emptyTable 8 = .ret (0, emptyTable) ∧
      emptyTable.n = 0 :=
  ⟨benchArray_strictlyIncreasing _, stisla_search_bench_small, rfl⟩

/-- Claim C6, amended: for every strictly increasing array of `32 ≤ n ≤ 2^53`
`int64_t`, the table after a call of `stisla_search` on a reachable table
(allocation succeeding) has at least two anchors, the first one is
`(arr[0], 0)` and the last one is `(arr[n-1], n-1)`. -/
theorem stisla_search_seeds_endpoints (alloc : Nat → Bool) (halloc : ∀ k, alloc k = true)
    (arr : Nat → Int) (n : Nat) (harr : IsArray arr n) (hs : StrictlyIncreasing arr n)
    (hn : 32 ≤ n) (T T1 : AnchorTable) (hT : Reachable alloc arr n T) (key : Int)
    (tol r : Nat) (hcall : stisla_search alloc arr n key T tol = .ret (r, T1)) :
    2 ≤ T1.n ∧ T1.a 0 = ⟨arr 0, 0⟩ ∧ T1.a (T1.n - 1) = ⟨arr (n - 1), n - 1⟩ := by
  rcases reachable_inv alloc harr hs (Reachable.call T T1 key tol r hT hcall) with h | ⟨_, h⟩
  · obtain ⟨_, T1', hres, _, _, hbig, _⟩ :=
      stisla_search_spec halloc harr hs (reachable_empty_or_seeded alloc harr hs hT) key tol
    rw [hres] at hcall
    simp only [Result.ret.injEq, Prod.mk.injEq] at hcall
    have h2 := (hbig hn).two_le
    rw [hcall.2, h] at h2
    exact absurd h2 (by decide)
  · have h0 := h.exact 0 (by have := h.two_le; omega)
    have h1 := h.exact (T1.n - 1) (by have := h.two_le; omega)
    rw [h.first] at h0
    rw [h.last] at h1
    refine ⟨h.two_le, ?_, ?_⟩
    · cases hx : T1.a 0 with
      | mk v i =>
        rw [hx] at h0
        have e := h.first
        rw [hx] at e
        simp only at h0 e
        rw [e, h0.2]
    · cases hx : T1.a (T1.n - 1) with
      | mk v i =>
        rw [hx] at h1
        have e := h.last
        rw [hx] at e
        simp only at h1 e
        rw [e, h1.2]

/-- Claim C6, witness: the first call on the first 100 elements of
`a[i] = 2 * i`, which leaves the table `seededBench`. -/
theorem stisla_search_seeds_endpoints_witness :
    (∀ k : Nat, (fun _ : Nat => true) k = true) ∧ IsArray benchArray 100 ∧
      StrictlyIncreasing benchArray 100 ∧ 32 ≤ 100 ∧
      Reachable (fun _ => true) benchArray 100 emptyTable ∧
      stisla_search (fun _ => true) benchArray 100 3 emptyTable 8 = .ret (SIZE_MAX, seededBench) ∧
      (2 ≤ seededBench.n ∧ seededBench.a 0 = ⟨benchArray 0, 0⟩ ∧
        seededBench.a (seededBench.n - 1) = ⟨benchArray (100 - 1), 100 - 1⟩) :=
  ⟨fun _ => rfl, benchArray_isArray (by norm_num), benchArray_strictlyIncreasing _,
    by norm_num, Reachable.empty, stisla_search_bench_miss,
    stisla_search_seeds_endpoints (fun _ => true) (fun _ => rfl) benchArray 100
      (benchArray_isArray (by norm_num)) (benchArray_strictlyIncreasing _) (by norm_num)
      emptyTable seededBench Reachable.empty 3 8 SIZE_MAX stisla_search_bench_miss⟩

open GisBench Stisla

/-- Claim C7, counterexample: `twoTable` has the two anchors `(0, 0)` and
`(10, 9)`, sorted strictly by value; for `x = 10` the largest position with a
value `≤ x` is the last one, `1`, and `anchor_lower` returns `0`. -/
theorem anchor_lower_not_largest :
    StrictlySortedByValue twoTable ∧ 2 ≤ twoTable.n ∧ anchor_lower twoTable 10 = .ret 0 ∧
      IsLargestLE twoTable 10 1 ∧ ¬ IsLargestLE twoTable 10 0 := by
  refine ⟨twoTable_strictlySorted, by decide, anchor_lower_twoTable 10, ?_, ?_⟩
  · refine ⟨by decide, by decide, ?_⟩
    intro q hq _
    have : q < 2 := hq
    omega
  · intro h
    have := h.2.2 1 (by decide) (by decide)
    omega

/-- Claim C7, amended: for every table with at least 2 anchors sorted strictly
by value and every `x`, `anchor_lower` returns a position `p` below the last
one; when `T[0].v ≤ x` it is the largest position below the last one with
`T[p].v ≤ x`, and when `x < T[0].v` it is `0`. -/
theorem anchor_lower_largest_below_last (T : AnchorTable) (x : Int) (h2 : 2 ≤ T.n)
    (hn : T.n < 2 ^ 64) (hsorted : StrictlySortedByValue T) :
    ∃ p, anchor_lower T x = .ret p ∧ p + 1 < T.n ∧
      ((T.a 0).v ≤ x → (T.a p).v ≤ x ∧ ∀ q, q + 1 < T.n → (T.a q).v ≤ x → q ≤ p) ∧
      (x < (T.a 0).v → p = 0) := by
  obtain ⟨p, hp, hp1, hlo, hhi⟩ := anchor_lower_spec T x h2 hn
  have hle : ∀ j k, j ≤ k → k < T.n → (T.a j).v ≤ (T.a k).v := by
    intro j k hjk hk
    rcases Nat.eq_or_lt_of_le hjk with h | h
    · rw [h]
    · exact (hsorted j k h hk).le
  refine ⟨p, hp, hp1, ?_, ?_⟩
  · intro h0
    constructor
    · rcases hlo with h | h
      · rw [h]; exact h0
      · exact h
    · intro q hq hqx
      by_contra hcon
      rcases hhi with h | h
      · omega
      · have := hle (p + 1) q (by omega) (by omega)
        omega
  · intro h0
    rcases hlo with h | h
    · exact h
    · by_contra hcon
      have := hle 0 p (Nat.zero_le p) (by omega)
      omega

/-- Claim C7, witness: `twoTable` and `x = 5`. -/
theorem anchor_lower_largest_below_last_witness :
    2 ≤ twoTable.n ∧ twoTable.n < 2 ^ 64 ∧ StrictlySortedByValue twoTable ∧
      ∃ p, anchor_lower twoTable 5 = .ret p ∧ p + 1 < twoTable.n ∧
        ((twoTable.a 0).v ≤ 5 → (twoTable.a p).v ≤ 5 ∧
          ∀ q, q + 1 < twoTable.n → (twoTable.a q).v ≤ 5 → q ≤ p) ∧
        (5 < (twoTable.a 0).v → p = 0) :=
  ⟨by decide, by decide, twoTable_strictlySorted,
    anchor_lower_largest_below_last twoTable 5 (by decide) (by decide) twoTable_strictlySorted⟩

/-- Claim C8: for every table with at least 2 anchors, sorted or not, and
every `x`, `anchor_lower` returns a position `p` with `p + 1 < T.n`. -/
theorem anchor_lower_in_bounds (T : AnchorTable) (x : Int) (h2 : 2 ≤ T.n) (hn : T.n < 2 ^ 64) :
    ∃ p, anchor_lower T x = .ret p ∧ p + 1 < T.n := by
  obtain ⟨p, hp, hp1, _, _⟩ := anchor_lower_spec T x h2 hn
  exact ⟨p, hp, hp1⟩

/-- Claim C8, witness: the table `twoTableInserted`, which is not sorted, and
`x = 15`. -/
theorem anchor_lower_in_bounds_witness :
    2 ≤ twoTableInserted.n ∧ twoTableInserted.n < 2 ^ 64 ∧
      ∃ p, anchor_lower twoTableInserted 15 = .ret p ∧ p + 1 < twoTableInserted.n :=
  ⟨by decide, by decide, anchor_lower_in_bounds twoTableInserted 15 (by decide) (by decide)⟩

/-- Claim C9, counterexample: inserting the anchor `(20, 5)` into the sorted
table `twoTable` of the anchors `(0, 0)`, `(10, 9)` gives the anchors
`(0, 0)`, `(20, 5)`, `(10, 9)`, which are not sorted by value. -/
theorem anchor_insert_breaks_sorting :
    SortedByValue twoTable ∧ 2 ≤ twoTable.n ∧
      anchor_insert (fun _ => true) twoTable 20 5 = .ret (some twoTableInserted) ∧
      entries twoTableInserted = [⟨0, 0⟩, ⟨20, 5⟩, ⟨10, 9⟩] ∧
      ¬ SortedByValue twoTableInserted :=
  ⟨twoTable_sorted, by decide, anchor_insert_twoTable, twoTableInserted_entries,
    twoTableInserted_not_sorted⟩

/-- Claim C9, amended: for every table `T` with at least 2 anchors sorted by
value and every anchor `(v, i)`, `anchor_insert(T, v, i)` (allocation
succeeding) yields a table of `T.n + 1` anchors that consists of the old
anchors in their old order and the new anchor, at a position from `1` to
`T.n - 1`; the new table is sorted by value when `T[0].v ≤ v ≤ T[n-1].v`. -/
theorem anchor_insert_sorted (alloc : Nat → Bool) (halloc : ∀ k, alloc k = true)
    (T : AnchorTable) (v : Int) (i : Nat) (h2 : 2 ≤ T.n) (hn : T.n + 1 < 2 ^ 64)
    (hsorted : SortedByValue T) :
    ∃ T1 pos, anchor_insert alloc T v i = .ret (some T1) ∧ T1.n = T.n + 1 ∧
      1 ≤ pos ∧ pos < T.n ∧
      entries T1 = (entries T).take pos ++ ⟨v, i⟩ :: (entries T).drop pos ∧
      ((T.a 0).v ≤ v → v ≤ (T.a (T.n - 1)).v → SortedByValue T1) := by
  obtain ⟨p, T1, _, hp1, hlo, hhi, hins, hn1, _, ha⟩ := anchor_insert_spec halloc T v i h2 hn
  refine ⟨T1, p + 1, hins, hn1, by omega, hp1, entries_insert hp1 hn1 ha, ?_⟩
  intro h0 h1
  exact sorted_insert hsorted hp1 hlo hhi h0 h1 hn1 ha

/-- Claim C9, witness: inserting the anchor `(5, 4)` into `twoTable`. -/
theorem anchor_insert_sorted_witness :
    (∀ k : Nat, (fun _ : Nat => true) k = true) ∧ 2 ≤ twoTable.n ∧ twoTable.n + 1 < 2 ^ 64 ∧
      SortedByValue twoTable ∧
      ∃ T1 pos, anchor_insert (fun _ => true) twoTable 5 4 = .ret (some T1) ∧
        T1.n = twoTable.n + 1 ∧ 1 ≤ pos ∧ pos < twoTable.n ∧
        entries T1 = (entries twoTable).take pos ++ ⟨5, 4⟩ :: (entries twoTable).drop pos ∧
        ((twoTable.a 0).v ≤ 5 → 5 ≤ (twoTable.a (twoTable.n - 1)).v → SortedByValue T1) :=
  ⟨fun _ => rfl, by decide, by decide, twoTable_sorted,
    anchor_insert_sorted (fun _ => true) (fun _ => rfl) twoTable 5 4 (by decide) (by decide)
      twoTable_sorted⟩

/-- Claim C10: for every strictly increasing array of `32 ≤ n ≤ 2^53`
`int64_t`, every reachable table that is already seeded, every tolerance and
every key that does not occur in the array, `stisla_search` returns `SIZE_MAX`
and the table after the call is the table before the call: the same length,
the same anchors and the same buffer.  The allocator is arbitrary. -/
theorem stisla_search_miss_keeps_table (alloc : Nat → Bool)
    (arr : Nat → Int) (n : Nat) (harr : IsArray arr n) (hs : StrictlyIncreasing arr n)
    (hn : 32 ≤ n) (T : AnchorTable) (hT : Reachable alloc arr n T) (hseeded : T.n ≠ 0)
    (key : Int) (habs : ∀ i, i < n → arr i ≠ key) (tol : Nat) :
    stisla_search alloc arr n key T tol = .ret (SIZE_MAX, T) := by
  rcases reachable_empty_or_seeded alloc harr hs hT with h | h
  · exact absurd h hseeded
  · rw [stisla_search_of_seed key tol (by omega) (seed_of_seeded hseeded)]
    exact search_seeded_absent alloc harr h habs tol

/-- Claim C10, witness: the seeded table `seededBench` on the first 100
elements of `a[i] = 2 * i` and the absent key `3`. -/
theorem stisla_search_miss_keeps_table_witness :
    IsArray benchArray 100 ∧
      StrictlyIncreasing benchArray 100 ∧ 32 ≤ 100 ∧
      Reachable (fun _ => true) benchArray 100 seededBench ∧ seededBench.n ≠ 0 ∧
      (∀ i, i < 100 → benchArray i ≠ 3) ∧
      stisla_search (fun _ => true) benchArray 100 3 seededBench 8 = .ret (SIZE_MAX, seededBench) :=
  ⟨benchArray_isArray (by norm_num), benchArray_strictlyIncreasing _,
    by norm_num, seededBench_reachable, by decide, benchArray_absent_three 100,
    stisla_search_miss_keeps_table (fun _ => true) benchArray 100
      (benchArray_isArray (by norm_num)) (benchArray_strictlyIncreasing _) (by norm_num)
      seededBench seededBench_reachable (by decide) 3 (benchArray_absent_three 100) 8⟩

namespace GisBench

/-! ## gis_search on arrays of at most one element -/

theorem gis_search_of_bracket {a : Nat → Int} {n : Nat} {x : Int} {fuel L step R L1 R1 : Nat}
    (h0 : ¬ (n = 0 ∨ x < a 0 ∨ x > a (n - 1)))
    (hg : gallop a n x fuel 0 1 = .ret (L, step))
    (hR : (if uadd L step < n then uadd L step else n - 1) = R)
    (hn : narrow a n x fuel L R = .ret (.bracket L1 R1)) :
    gis_search fuel a n x = scan a n x R1 L1 := by
  unfold gis_search
  rw [if_neg h0, hg]
  simp only [hR, hn]

/-- On an array of one element `gis_search` returns `0` for the key `a[0]` and
`SIZE_MAX` for every other key. -/
theorem gis_search_singleton (a : Nat → Int) (x : Int) (fuel : Nat) :
    gis_search (fuel + 1) a 1 x = .ret (if x = a 0 then 0 else SIZE_MAX) := by
  by_cases hx : x = a 0
  · rw [if_pos hx]
    have h0 : ¬ ((1 : Nat) = 0 ∨ x < a 0 ∨ x > a (1 - 1)) := by
      rw [hx]
      simp
    have e1 : uadd 0 1 = 1 := uadd_eq (by norm_num)
    have hg : gallop a 1 x (fuel + 1) 0 1 = .ret (0, 1) := by
      rw [gallop, e1, if_neg (by simp)]
    have hR : (if uadd 0 1 < 1 then uadd 0 1 else 1 - 1) = 0 := by
      rw [e1]
      rfl
    have hn : narrow a 1 x (fuel + 1) 0 0 = .ret (.bracket 0 0) := by
      rw [narrow, uadd_eq (by norm_num), if_neg (by norm_num)]
    rw [gis_search_of_bracket h0 hg hR hn, scan, if_pos le_rfl, load, if_pos (by norm_num)]
    simp only
    rw [if_pos hx.symm]
  · rw [if_neg hx]
    apply gis_search_out_of_range
    right
    show x < a 0 ∨ a 0 < x
    omega

/-! ## gis_search on `jumpArray`: the estimate leaves the array -/

theorem jumpArray_strictlyIncreasing : StrictlyIncreasing jumpArray 98 := by
  intro i j hij hj
  unfold jumpArray
  split_ifs <;> omega

theorem jumpArray_isArray : IsArray jumpArray 98 := by
  refine ⟨by norm_num, ?_⟩
  intro i hi
  unfold jumpArray IsInt64
  split_ifs <;> omega

theorem jumpArray_absent : ∀ i, i < 98 → jumpArray i ≠ 189 := by
  intro i hi
  unfold jumpArray
  split_ifs <;> omega

theorem gallop_jumpArray (m : Nat) : gallop jumpArray 98 189 (m + 7) 0 1 = .ret (63, 64) := by
  simp [gallop, uadd, umul, jumpArray]

theorem gallop_jumpArray_timeout (fuel : Nat) (h : fuel < 7) :
    gallop jumpArray 98 189 fuel 0 1 = .timeout := by
  interval_cases fuel <;> simp [gallop, uadd, umul, jumpArray]

theorem estimate_jumpArray_first : estimate 189 63 191 63 97 = some 96 := by
  have h1 : f64_of_int (wrap64 (189 - 63)) = 126 := by
    rw [show wrap64 (189 - 63) = 126 by unfold wrap64; decide]
    exact f64_of_int_exact (by norm_num)
  have h2 : f64_of_int (wrap64 (191 - 63)) = 128 := by
    rw [show wrap64 (191 - 63) = 128 by unfold wrap64; decide]
    exact f64_of_int_exact (by norm_num)
  have h3 : f64_of_size (usub 97 63) = 34 := by
    rw [show usub 97 63 = 34 by unfold usub; decide]
    unfold f64_of_size
    exact f64_natCast (by norm_num)
  have h4 : f64_div 126 128 = 63 / 64 := by
    unfold f64_div
    rw [f64_dyadic 63 6 (by norm_num) (by norm_num)]
    norm_num
  have h5 : f64_mul 34 (63 / 64) = 1071 / 32 := by
    unfold f64_mul
    rw [f64_dyadic 1071 5 (by norm_num) (by norm_num)]
    norm_num
  rw [estimate_def, h1, h2, h3, h4, h5,
    f64_to_size_eq (k := 33) (by norm_num) (by norm_num) (by norm_num)]
  show some (uadd 63 33) = some 96
  rw [uadd_eq (by norm_num)]

/-- In the bracket `L = 63`, `R = 95` the fraction is `126 / 32`, above `1`,
and the estimate is the index `189`. -/
theorem estimate_jumpArray_second : estimate 189 63 95 63 95 = some 189 := by
  have h1 : f64_of_int (wrap64 (189 - 63)) = 126 := by
    rw [show wrap64 (189 - 63) = 126 by unfold wrap64; decide]
    exact f64_of_int_exact (by norm_num)
  have h2 : f64_of_int (wrap64 (95 - 63)) = 32 := by
    rw [show wrap64 (95 - 63) = 32 by unfold wrap64; decide]
    exact f64_of_int_exact (by norm_num)
  have h3 : f64_of_size (usub 95 63) = 32 := by
    rw [show usub 95 63 = 32 by unfold usub; decide]
    unfold f64_of_size
    exact f64_natCast (by norm_num)
  have h4 : f64_div 126 32 = 63 / 16 := by
    unfold f64_div
    rw [f64_dyadic 63 4 (by norm_num) (by norm_num)]
    norm_num
  have h5 : f64_mul 32 (63 / 16) = 126 := by
    unfold f64_mul
    rw [f64_dyadic 126 0 (by norm_num) (by norm_num)]
    norm_num
  rw [estimate_def, h1, h2, h3, h4, h5,
    f64_to_size_eq (k := 126) (by norm_num) (by norm_num) (by norm_num)]
  show some (uadd 63 126) = some 189
  rw [uadd_eq (by norm_num)]

/-- The round of the interpolation loop in the bracket `L = 63`, `R = 95`
reads `a[189]`, outside the 98 elements. -/
theorem narrow_jumpArray_second (fuel : Nat) :
    narrow jumpArray 98 189 (fuel + 1) 63 95 = .fault := by
  have hR : load jumpArray 98 95 = .ret 95 := by decide
  have hL : load jumpArray 98 63 = .ret 63 := by decide
  have hP : load jumpArray 98 189 = .fault := by decide
  rw [narrow, if_pos (by unfold uadd; decide), hR, hL]
  simp only
  rw [if_neg (by decide), estimate_jumpArray_second]
  simp only
  rw [hP]

theorem narrow_jumpArray (fuel : Nat) : narrow jumpArray 98 189 (fuel + 2) 63 97 = .fault := by
  have hR : load jumpArray 98 97 = .ret 191 := by decide
  have hL : load jumpArray 98 63 = .ret 63 := by decide
  have hP : load jumpArray 98 96 = .ret 190 := by decide
  rw [narrow, if_pos (by unfold uadd; decide), hR, hL]
  simp only
  rw [if_neg (by decide), estimate_jumpArray_first]
  simp only
  rw [hP]
  simp only
  rw [if_neg (by decide), if_pos (by decide), show usub 96 1 = 95 by unfold usub; decide]
  exact narrow_jumpArray_second fuel

/-- On `jumpArray` the search for the absent key `189` reads outside the
array as soon as the fuel lets it reach the interpolation loop. -/
theorem gis_search_jumpArray (m : Nat) : gis_search (m + 7) jumpArray 98 189 = .fault :=
  gis_search_of_narrow_fault (by decide) (gallop_jumpArray m) (by unfold uadd; decide)
    (narrow_jumpArray (m + 5))

theorem gis_search_jumpArray_timeout (fuel : Nat) (h : fuel < 7) :
    gis_search fuel jumpArray 98 189 = .timeout :=
  gis_search_of_gallop_timeout (by decide) (gallop_jumpArray_timeout fuel h)

end GisBench

namespace Stisla

/-! ## The fast path on arrays of at most one element -/

theorem stisla_search_empty (alloc : Nat → Bool) (arr : Nat → Int) (key : Int)
    (T : AnchorTable) (tol : Nat) :
    stisla_search alloc arr 0 key T tol = .ret (SIZE_MAX, T) := by
  rw [stisla_search_small key T tol (by norm_num), linear, if_neg (by norm_num)]

theorem stisla_search_singleton (alloc : Nat → Bool) (arr : Nat → Int) (key : Int)
    (T : AnchorTable) (tol : Nat) :
    stisla_search alloc arr 1 key T tol = .ret (if key = arr 0 then 0 else SIZE_MAX, T) := by
  rw [stisla_search_small key T tol (by norm_num), linear, if_pos (by norm_num)]
  by_cases h : arr 0 = key
  · rw [if_pos h, if_pos h.symm]
  · rw [if_neg h, if_neg (fun e => h e.symm), linear, if_neg (by norm_num)]

/-! ## The bounding anchors and the window -/

/-- The two anchors that `anchor_lower` selects for a key of the array bound
it by value and by index. -/
theorem bracket_both {arr : Nat → Int} {n : Nat} (hs : StrictlyIncreasing arr n)
    (hn : n ≤ 2 ^ 53) {T : AnchorTable} (hT : Seeded arr n T) {t : Nat} (ht : t < n) :
    ∃ p, anchor_lower T (arr t) = .ret p ∧ p + 1 < T.n ∧
      (T.a p).v ≤ arr t ∧ arr t ≤ (T.a (p + 1)).v ∧
      (T.a p).i ≤ t ∧ t ≤ (T.a (p + 1)).i := by
  have hTn := hT.n_le
  obtain ⟨p, hp, hp1, hlo, hhi⟩ := anchor_lower_spec T (arr t) hT.two_le (by omega)
  obtain ⟨hLt, htR⟩ := bracket_spec hs hT ht hp1 hlo hhi
  have hL := hT.exact p (by omega)
  have hR := hT.exact (p + 1) hp1
  refine ⟨p, hp, hp1, ?_, ?_, hLt, htR⟩
  · rw [← hL.2]
    exact hs.le_of_le hLt ht
  · rw [← hR.2]
    exact hs.le_of_le htR hR.1

/-- The window after widening lies inside the segment of the two bounding
anchors, is not empty, and contains every index that holds the key. -/
theorem window_sound {arr : Nat → Int} {n : Nat} (hs : StrictlyIncreasing arr n)
    {Li Ri pred : Nat} (tol : Nat) {key : Int} (hRn : Ri < n)
    (hpl : Li ≤ pred) (hpr : pred ≤ Ri) (hLk : arr Li ≤ key) (hkR : key ≤ arr Ri) :
    window_lo pred tol Li < n ∧ window_hi pred tol Ri < n ∧
    Li ≤ (if arr (window_lo pred tol Li) > key then Li else window_lo pred tol Li) ∧
    (if arr (window_lo pred tol Li) > key then Li else window_lo pred tol Li) ≤
      (if arr (window_hi pred tol Ri) < key then Ri else window_hi pred tol Ri) ∧
    (if arr (window_hi pred tol Ri) < key then Ri else window_hi pred tol Ri) ≤ Ri ∧
    ∀ t, t < n → arr t = key →
      (if arr (window_lo pred tol Li) > key then Li else window_lo pred tol Li) ≤ t ∧
      t ≤ (if arr (window_hi pred tol Ri) < key then Ri else window_hi pred tol Ri) := by
  obtain ⟨hw1, hw2⟩ := window_lo_spec tol hpl
  have hw3 := window_hi_le pred tol Ri
  have hmono : ∀ i j, i < n → j < n → arr i ≤ arr j → i ≤ j := by
    intro i j hi hj hij
    by_contra hcon
    have := hs j i (by omega) hi
    omega
  have hLi : Li ≤ window_hi pred tol Ri ∨ arr (window_hi pred tol Ri) < key := by
    by_cases h : arr (window_hi pred tol Ri) < key
    · exact Or.inr h
    · exact Or.inl (hmono _ _ (by omega) (by omega) (by omega))
  refine ⟨by omega, by omega, ?_, ?_, ?_, ?_⟩
  · split_ifs <;> omega
  · by_cases h1 : arr (window_hi pred tol Ri) < key
    · rw [if_pos h1]
      split_ifs <;> omega
    · rw [if_neg h1]
      by_cases h2 : arr (window_lo pred tol Li) > key
      · rw [if_pos h2]
        rcases hLi with h | h
        · exact h
        · exact absurd h h1
      · rw [if_neg h2]
        exact hmono _ _ (by omega) (by omega) (by omega)
  · split_ifs <;> omega
  · intro t ht hkey
    constructor
    · by_cases h2 : arr (window_lo pred tol Li) > key
      · rw [if_pos h2]
        exact hmono _ _ (by omega) ht (by omega)
      · rw [if_neg h2]
        exact hmono _ _ (by omega) ht (by omega)
    · by_cases h1 : arr (window_hi pred tol Ri) < key
      · rw [if_pos h1]
        exact hmono _ _ ht hRn (by omega)
      · rw [if_neg h1]
        exact hmono _ _ ht (by omega) (by omega)

/-- The update `hi = mid - 1` of the local binary search runs only behind the
guard `mid == 0`: with `mid = 0` the loop is left, otherwise the search goes on
below `mid`, and `mid - 1` is the machine difference. -/
theorem local_search_step_down (arr : Nat → Int) (n : Nat) (key : Int) (lo hi : Nat) {v : Int}
    (hle : lo ≤ hi) (hv : load arr n (lo + (hi - lo) / 2) = .ret v) (hgt : v > key) :
    (lo + (hi - lo) / 2 = 0 → local_search arr n key lo hi = .ret none) ∧
    (lo + (hi - lo) / 2 ≠ 0 → lo + (hi - lo) / 2 < 2 ^ 64 →
      usub (lo + (hi - lo) / 2) 1 = lo + (hi - lo) / 2 - 1 ∧
      local_search arr n key lo hi =
        local_search arr n key lo (usub (lo + (hi - lo) / 2) 1)) := by
  have hnl : ¬ v < key := by omega
  constructor
  · intro h0
    rw [local_search, if_pos hle, hv]
    simp only
    rw [if_neg hnl, if_pos hgt, if_pos h0]
  · intro h0 hlt
    have e : usub (lo + (hi - lo) / 2) 1 = lo + (hi - lo) / 2 - 1 := usub_eq (by omega) hlt
    refine ⟨e, ?_⟩
    rw [e]
    conv_lhs => rw [local_search, if_pos hle, hv]
    simp only
    rw [if_neg hnl, if_pos hgt, if_neg h0]

end Stisla

namespace Stisla

/-! ## The learning step -/

/-- On a seeded table the search for the element at index `t` returns `t`
with the table that the learning step leaves. -/
theorem search_seeded_present_learn (alloc : Nat → Bool)
    {arr : Nat → Int} {n : Nat} (harr : IsArray arr n) (hs : StrictlyIncreasing arr n)
    {T : AnchorTable} (hT : Seeded arr n T) {t : Nat} (ht : t < n) (tol : Nat) :
    ∃ p pred, anchor_lower T (arr t) = .ret p ∧ p + 1 < T.n ∧
      (p = 0 ∨ (T.a p).v ≤ arr t) ∧ (p + 2 = T.n ∨ arr t < (T.a (p + 1)).v) ∧
      predict (arr t) (T.a p) (T.a (p + 1)) = some pred ∧
      ∀ T1, learn alloc T pred tol t (arr t) = .ret T1 →
        search_seeded alloc arr n (arr t) T tol = .ret (t, T1) := by
  have hn := harr.1
  have hTn := hT.n_le
  obtain ⟨p, hp, hp1, hlo, hhi⟩ := anchor_lower_spec T (arr t) hT.two_le (by omega)
  obtain ⟨hLt, htR⟩ := bracket_spec hs hT ht hp1 hlo hhi
  have hLR := hT.mono p (p + 1) (by omega) hp1
  have hR := hT.exact (p + 1) hp1
  obtain ⟨pred, hpred, hpl, hpr⟩ := predict_spec (arr t) (T.a p) (T.a (p + 1)) hLR.le (by omega)
  obtain ⟨hw1, hw2⟩ := window_lo_spec tol hpl
  have hw3 := window_hi_le pred tol (T.a (p + 1)).i
  obtain ⟨hlo1, hhi1, hhi2⟩ := window_spec hs tol ht hLt htR hR.1 hpl hpr
  have h5 : load arr n (window_lo pred tol (T.a p).i) =
      .ret (arr (window_lo pred tol (T.a p).i)) := load_of_lt (by omega)
  have h6 : load arr n (window_hi pred tol (T.a (p + 1)).i) =
      .ret (arr (window_hi pred tol (T.a (p + 1)).i)) := load_of_lt (by omega)
  have h7 := local_search_present hs ht _ _ _ rfl hlo1 hhi1 (by omega)
  refine ⟨p, pred, hp, hp1, hlo, hhi, hpred, ?_⟩
  intro T1 h8
  exact search_seeded_of_found hp (tread_of_lt (by omega)) (tread_of_lt hp1) hpred h5 h6 h7 h8

/-- With a free cell in the buffer `anchor_insert` does not allocate: the new
table is in the same buffer. -/
theorem anchor_insert_room (alloc : Nat → Bool) (T : AnchorTable) (v : Int) (i : Nat)
    (h2 : 2 ≤ T.n) (hn : T.n + 1 < 2 ^ 64) (hroom : T.n + 1 ≤ T.cap) :
    ∃ p, anchor_lower T v = .ret p ∧ p + 1 < T.n ∧
      anchor_insert alloc T v i = .ret (some ⟨fun k => if k = p + 1 then ⟨v, i⟩
        else if p + 1 < k ∧ k ≤ T.n then T.a (k - 1) else T.a k, T.n + 1, T.cap⟩) := by
  obtain ⟨p, hp, hp1, _, _⟩ := anchor_lower_spec T v h2 (by omega)
  obtain ⟨T2, hT2, hn2, hcap2, ha2⟩ := shift_spec (p + 1) T.n T le_rfl (by omega)
  refine ⟨p, hp, hp1, ?_⟩
  have e1 : uadd T.n 1 = T.n + 1 := uadd_eq (by omega)
  have e2 : uadd p 1 = p + 1 := uadd_eq (by omega)
  have h1 : ensure_cap alloc T (uadd T.n 1) = some T := by
    rw [e1]
    unfold ensure_cap
    rw [if_pos hroom]
  have h3 : shift (uadd p 1) T.n T = .ret T2 := by
    rw [e2]; exact hT2
  have h4 : twrite T2 (uadd p 1) ⟨v, i⟩ =
      .ret ⟨Function.update T2.a (p + 1) ⟨v, i⟩, T2.n, T2.cap⟩ := by
    rw [e2]; exact twrite_of_lt _ (by omega)
  have hf : Function.update T2.a (p + 1) ⟨v, i⟩ = fun k => if k = p + 1 then ⟨v, i⟩
      else if p + 1 < k ∧ k ≤ T.n then T.a (k - 1) else T.a k := by
    funext k
    simp only [Function.update_apply]
    by_cases hk : k = p + 1
    · rw [if_pos hk, if_pos hk]
    · rw [if_neg hk, if_neg hk, ha2 k]
  have h := anchor_insert_of h1 hp h3 h4
  rw [h, hn2, hcap2, e1, hf]

/-- On a seeded table the search for the element at index `t` returns `t`.
The anchor `(arr[t], t)` is inserted right after the left bounding anchor when
the prediction is off by more than `tol` and the buffer can take one more
anchor; in every other case the table is left as it is. -/
theorem search_seeded_learns (alloc : Nat → Bool)
    {arr : Nat → Int} {n : Nat} (harr : IsArray arr n) (hs : StrictlyIncreasing arr n)
    {T : AnchorTable} (hT : Seeded arr n T) {t : Nat} (ht : t < n) (tol : Nat) :
    ∃ p pred T1, anchor_lower T (arr t) = .ret p ∧ p + 1 < T.n ∧
      predict (arr t) (T.a p) (T.a (p + 1)) = some pred ∧
      search_seeded alloc arr n (arr t) T tol = .ret (t, T1) ∧
      (((if pred > t then pred - t else t - pred) > tol ∧
          ensure_cap alloc T (T.n + 1) ≠ none) →
        T1.n = T.n + 1 ∧
        entries T1 = (entries T).take (p + 1) ++ ⟨arr t, t⟩ :: (entries T).drop (p + 1)) ∧
      (¬ ((if pred > t then pred - t else t - pred) > tol ∧
          ensure_cap alloc T (T.n + 1) ≠ none) → T1 = T) := by
  obtain ⟨p, pred, T1, hp, hp1, hpred, _, _, hsearch, _, hdesc⟩ :=
    search_seeded_present_any alloc harr hs hT ht tol
  obtain ⟨p2, pred2, hp2, _, _, _, hpred2, hlearn⟩ :=
    search_seeded_present_learn alloc harr hs hT ht tol
  have hTn := hT.n_le
  have hn := harr.1
  refine ⟨p, pred, T1, hp, hp1, hpred, hsearch, ?_, ?_⟩
  · rintro ⟨hc, hcap⟩
    rw [if_pos hc] at hdesc
    rcases hdesc with ⟨hfail, _⟩ | ⟨hn1, ha⟩
    · exact absurd hfail hcap
    · exact ⟨hn1, entries_insert hp1 hn1 ha⟩
  · intro hnot
    by_cases hc : (if pred > t then pred - t else t - pred) > tol
    · have hfail : ensure_cap alloc T (T.n + 1) = none := by
        by_contra hcap
        exact hnot ⟨hc, hcap⟩
      have hins : anchor_insert alloc T (arr t) t = .ret none :=
        anchor_insert_of_fail _ _ (by rw [uadd_eq (by omega)]; exact hfail)
      have h := hlearn T (learn_of_fail hins)
      rw [hsearch] at h
      simp only [Result.ret.injEq, Prod.mk.injEq, true_and] at h
      exact h
    · rw [if_neg hc] at hdesc
      exact hdesc

/-! ## Tables reachable with failing allocations -/

theorem Reachable.any {alloc : Nat → Bool} {arr : Nat → Int} {n : Nat} {T : AnchorTable}
    (h : Reachable alloc arr n T) : ReachableAny arr n T := by
  induction h with
  | empty => exact ReachableAny.empty
  | call T T1 key tol r _ hcall ih => exact ReachableAny.call alloc T T1 key tol r ih hcall

/-- A table reachable with any allocators is the empty table, or the array has
at least 32 elements and the table is seeded. -/
theorem reachableAny_inv {arr : Nat → Int} {n : Nat} (harr : IsArray arr n)
    (hs : StrictlyIncreasing arr n) {T : AnchorTable} (h : ReachableAny arr n T) :
    T = emptyTable ∨ (32 ≤ n ∧ Seeded arr n T) := by
  induction h with
  | empty => exact Or.inl rfl
  | call alloc T T1 key tol r _ hcall ih =>
    have hT : T.n = 0 ∨ Seeded arr n T := by
      rcases ih with h | h
      · left; rw [h]; rfl
      · exact Or.inr h.2
    obtain ⟨r2, T2, hres, hinv, _⟩ := stisla_search_any alloc harr hs hT key tol
    rw [hres] at hcall
    simp only [Result.ret.injEq, Prod.mk.injEq] at hcall
    obtain ⟨_, rfl⟩ := hcall
    rcases hinv with h | h
    · rw [h]
      exact ih
    · exact Or.inr h

theorem reachableAny_empty_or_seeded {arr : Nat → Int} {n : Nat} (harr : IsArray arr n)
    (hs : StrictlyIncreasing arr n) {T : AnchorTable} (h : ReachableAny arr n T) :
    T.n = 0 ∨ Seeded arr n T := by
  rcases reachableAny_inv harr hs h with h | h
  · left; rw [h]; rfl
  · exact Or.inr h.2

/-- A seeded table reachable with any allocators belongs to an array of at
least 32 elements. -/
theorem reachableAny_seeded {arr : Nat → Int} {n : Nat} (harr : IsArray arr n)
    (hs : StrictlyIncreasing arr n) {T : AnchorTable} (h : ReachableAny arr n T)
    (hne : T.n ≠ 0) : 32 ≤ n ∧ Seeded arr n T := by
  rcases reachableAny_inv harr hs h with h | h
  · exact absurd (by rw [h]; rfl) hne
  · exact h

/-! ## The same query twice -/

/-- A request that an allocator refuses is refused by every allocator that
grants no more. -/
theorem ensure_cap_none_mono {alloc alloc2 : Nat → Bool}
    (hmono : ∀ k, alloc2 k = true → alloc k = true) {T : AnchorTable} {need : Nat}
    (h : ensure_cap alloc T need = none) : ensure_cap alloc2 T need = none := by
  unfold ensure_cap at h ⊢
  by_cases hc : need ≤ T.cap
  · rw [if_pos hc] at h
    exact absurd h (by simp)
  · rw [if_neg hc] at h ⊢
    by_cases ha : alloc (if (if T.cap ≠ 0 then umul T.cap 2 else 8) < need then need
        else (if T.cap ≠ 0 then umul T.cap 2 else 8)) = true
    · rw [if_pos ha] at h
      exact absurd h (by simp)
    · rw [if_neg (fun h2 => ha (hmono _ h2))]

/-- After a search that found its key the same search again finds the key and
leaves the table as it is, when the second call has no allocation granted that
the first call had refused. -/
theorem search_seeded_twice {alloc alloc2 : Nat → Bool}
    (hmono : ∀ k, alloc2 k = true → alloc k = true)
    {arr : Nat → Int} {n : Nat} (harr : IsArray arr n) (hs : StrictlyIncreasing arr n)
    {T : AnchorTable} (hT : Seeded arr n T) {t : Nat} (ht : t < n) (tol : Nat) :
    ∃ T1, search_seeded alloc arr n (arr t) T tol = .ret (t, T1) ∧ Seeded arr n T1 ∧
      search_seeded alloc2 arr n (arr t) T1 tol = .ret (t, T1) := by
  obtain ⟨p, pred, T1, hp, hp1, hpred, _, _, hsearch, hT1, hdesc⟩ :=
    search_seeded_present_any alloc harr hs hT ht tol
  obtain ⟨p2, pred2, T2, hp2, hp21, hpred2, _, _, hsearch2, _, hdesc2⟩ :=
    search_seeded_present_any alloc2 harr hs hT1 ht tol
  refine ⟨T1, hsearch, hT1, ?_⟩
  have hn := harr.1
  have hTn := hT1.n_le
  have hfin : ¬ (if pred2 > t then pred2 - t else t - pred2) > tol →
      search_seeded alloc2 arr n (arr t) T1 tol = .ret (t, T1) := by
    intro hno
    rw [if_neg hno] at hdesc2
    rw [hsearch2, hdesc2]
  by_cases hc : (if pred > t then pred - t else t - pred) > tol
  · rw [if_pos hc] at hdesc
    rcases hdesc with ⟨hfail, hsame⟩ | ⟨hn1, ha⟩
    · subst hsame
      obtain ⟨_, pred3, _, _, _, _, _, hlearn⟩ :=
        search_seeded_present_learn alloc2 harr hs hT ht tol
      apply hlearn
      apply learn_of_fail
      apply anchor_insert_of_fail
      rw [uadd_eq (by omega)]
      exact ensure_cap_none_mono hmono hfail
    · apply hfin
      obtain ⟨q, hq, hq1, hqlo, hqhi⟩ := anchor_lower_spec T1 (arr t) hT1.two_le (by omega)
      have hqp : q = p2 := by
        rw [hp2] at hq
        simp only [Result.ret.injEq] at hq
        exact hq.symm
      subst hqp
      have hsorted := hT1.sorted hs
      have hnew : T1.a (p + 1) = ⟨arr t, t⟩ := by
        rw [ha (p + 1), if_pos rfl]
      have hq_eq : q = p + 1 := by
        rcases Nat.lt_trichotomy q (p + 1) with h | h | h
        · exfalso
          rcases hqhi with h' | h'
          · omega
          · have hle : (T1.a (q + 1)).v ≤ (T1.a (p + 1)).v := by
              rcases Nat.eq_or_lt_of_le (show q + 1 ≤ p + 1 by omega) with e | e
              · rw [e]
              · exact (hsorted (q + 1) (p + 1) e (by omega)).le
            rw [hnew] at hle
            simp only at hle
            omega
        · exact h
        · exfalso
          rcases hqlo with h' | h'
          · omega
          · have hlt := hsorted (p + 1) q h (by omega)
            rw [hnew] at hlt
            simp only at hlt
            omega
      subst hq_eq
      have hLR := hT1.mono (p + 1) (p + 1 + 1) (by omega) hq1
      have hR := hT1.exact (p + 1 + 1) hq1
      have hleft := predict_left (T1.a (p + 1)) (T1.a (p + 1 + 1)) hLR.le (by omega)
      rw [hnew] at hleft hpred2
      simp only at hleft
      rw [hleft] at hpred2
      simp only [Option.some.injEq] at hpred2
      rw [← hpred2]
      simp
  · apply hfin
    rw [if_neg hc] at hdesc
    subst hdesc
    have hpp : p2 = p := by
      rw [hp] at hp2
      simp only [Result.ret.injEq] at hp2
      exact hp2.symm
    subst hpp
    rw [hpred] at hpred2
    simp only [Option.some.injEq] at hpred2
    rw [← hpred2]
    exact hc

/-- A call of `stisla_search` on a table that is empty or seeded, followed by
the same call with no allocation granted that the first call had refused: the
second call returns what the first one returned and leaves the table as the
first one left it. -/
theorem stisla_search_twice {alloc alloc2 : Nat → Bool}
    (hmono : ∀ k, alloc2 k = true → alloc k = true)
    {arr : Nat → Int} {n : Nat} (harr : IsArray arr n) (hs : StrictlyIncreasing arr n)
    {T : AnchorTable} (hT : T.n = 0 ∨ Seeded arr n T) (key : Int) (tol : Nat) :
    ∃ r T1, stisla_search alloc arr n key T tol = .ret (r, T1) ∧
      stisla_search alloc2 arr n key T1 tol = .ret (r, T1) := by
  by_cases hsmall : n < 32
  · exact ⟨_, T, stisla_search_small key T tol hsmall, stisla_search_small key T tol hsmall⟩
  · have hseeded : (T.n = 0 ∧ ensure_cap alloc T 2 = none) ∨
        ∃ T0, seed alloc arr n T = .ret (some T0) ∧ Seeded arr n T0 := by
      by_cases h0 : T.n = 0
      · rcases ensure_cap_cases alloc T 2 with h | ⟨c, hens, hc⟩
        · exact Or.inl ⟨h0, h⟩
        · obtain ⟨T0, h1, h2, _⟩ := seed_spec_of arr (by omega : 2 ≤ n) h0 hens hc
          exact Or.inr ⟨T0, h1, h2⟩
      · rcases hT with h | h
        · exact absurd h h0
        · exact Or.inr ⟨T, seed_of_seeded h0, h⟩
    rcases hseeded with ⟨h0, hfail⟩ | ⟨T0, hseed, hT0⟩
    · exact ⟨SIZE_MAX, T, stisla_search_of_seed_fail key tol hsmall (seed_of_fail h0 hfail),
        stisla_search_of_seed_fail key tol hsmall
          (seed_of_fail h0 (ensure_cap_none_mono hmono hfail))⟩
    · rw [stisla_search_of_seed key tol hsmall hseed]
      rcases present_or_absent arr n key with ⟨t, ht, rfl⟩ | habs
      · obtain ⟨T1, h1, hT1, h2⟩ := search_seeded_twice hmono harr hs hT0 ht tol
        refine ⟨t, T1, h1, ?_⟩
        have hne : T1.n ≠ 0 := by
          have := hT1.two_le
          omega
        rw [stisla_search_of_seed (arr t) tol hsmall (seed_of_seeded hne)]
        exact h2
      · refine ⟨SIZE_MAX, T0, search_seeded_absent alloc harr hT0 habs tol, ?_⟩
        have hne : T0.n ≠ 0 := by
          have := hT0.two_le
          omega
        rw [stisla_search_of_seed key tol hsmall (seed_of_seeded hne)]
        exact search_seeded_absent alloc2 harr hT0 habs tol

end Stisla

/-! ## The array of the squares -/

theorem sqArray_strictlyIncreasing (n : Nat) : StrictlyIncreasing sqArray n := by
  intro i j hij _
  unfold sqArray
  have h1 : (i : Int) < j := by exact_mod_cast hij
  have h2 : (0 : Int) ≤ i := Int.natCast_nonneg i
  nlinarith

theorem sqArray_isArray {n : Nat} (h : n ≤ 2 ^ 20) : IsArray sqArray n := by
  refine ⟨le_trans h (by norm_num), ?_⟩
  intro i hi
  unfold sqArray IsInt64
  have h1 : (i : Int) < 2 ^ 20 := by
    have : i < 2 ^ 20 := by omega
    exact_mod_cast this
  have h2 : (0 : Int) ≤ i := Int.natCast_nonneg i
  constructor
  · nlinarith
  · nlinarith

theorem sqArray_zero : sqArray 0 = 0 := by
  unfold sqArray
  simp

namespace Stisla

/-- Between the anchors `(0, 0)` and `((2m)^2, 2m)` the key `m^2` has the
fraction `1/4`: the prediction is `m / 2`, while the key is at index `m`. -/
theorem predict_sq (m : Nat) (hm : 1 ≤ m) (hm2 : m ≤ 2 ^ 20) :
    predict (sqArray m) ⟨sqArray 0, 0⟩ ⟨sqArray (2 * m), 2 * m⟩ = some (m / 2) := by
  have hmq : (0 : ℚ) < m := by exact_mod_cast hm
  have hmz : (m : Int) ≤ 2 ^ 20 := by exact_mod_cast hm2
  have hmz0 : (1 : Int) ≤ m := by exact_mod_cast hm
  have hne : sqArray (2 * m) ≠ sqArray 0 := by
    rw [sqArray_zero]
    unfold sqArray
    push_cast
    nlinarith
  have hw1 : wrap64 (sqArray m - sqArray 0) = (m : Int) * m := by
    rw [sqArray_zero, sub_zero]
    unfold sqArray
    apply wrap64_eq
    unfold IsInt64
    constructor <;> nlinarith
  have hw2 : wrap64 (sqArray (2 * m) - sqArray 0) = 4 * ((m : Int) * m) := by
    rw [sqArray_zero, sub_zero]
    have e : sqArray (2 * m) = 4 * ((m : Int) * m) := by
      unfold sqArray
      push_cast
      ring
    rw [e]
    apply wrap64_eq
    unfold IsInt64
    constructor <;> nlinarith
  have h1 : f64_of_int ((m : Int) * m) = ((m : Int) * m : Int) :=
    f64_of_int_exact (by rw [abs_lt]; constructor <;> nlinarith)
  have h2 : f64_of_int (4 * ((m : Int) * m)) = ((4 * ((m : Int) * m) : Int) : ℚ) :=
    f64_of_int_exact (by rw [abs_lt]; constructor <;> nlinarith)
  have h3 : f64_of_size (usub (2 * m) 0) = ((2 * m : Nat) : ℚ) := by
    rw [usub_eq (Nat.zero_le _) (by omega), Nat.sub_zero]
    unfold f64_of_size
    exact f64_natCast (by omega)
  have h4 : f64_div (((m : Int) * m : Int) : ℚ) ((4 * ((m : Int) * m) : Int) : ℚ) = 1 / 4 := by
    unfold f64_div
    have e : (((m : Int) * m : Int) : ℚ) / ((4 * ((m : Int) * m) : Int) : ℚ) = 1 / 4 := by
      push_cast
      field_simp
      ring
    rw [e]
    exact f64_dyadic 1 2 (by norm_num) (by norm_num)
  have h5 : f64_mul ((2 * m : Nat) : ℚ) (1 / 4) = (m : ℚ) / 2 := by
    unfold f64_mul
    have e : ((2 * m : Nat) : ℚ) * (1 / 4) = (m : ℚ) / 2 := by
      push_cast
      ring
    rw [e]
    refine f64_dyadic (m : Int) 1 (by push_cast; ring) ?_
    rw [abs_lt]
    constructor <;> nlinarith
  have h6 : f64_to_size ((m : ℚ) / 2) = some (m / 2) := by
    have hdm := Nat.div_add_mod m 2
    have hlt := Nat.mod_lt m (show 2 > 0 by norm_num)
    have hq : (m : ℚ) = 2 * ((m / 2 : Nat) : ℚ) + ((m % 2 : Nat) : ℚ) := by
      exact_mod_cast hdm.symm
    have hr0 : (0 : ℚ) ≤ ((m % 2 : Nat) : ℚ) := Nat.cast_nonneg _
    have hr1 : ((m % 2 : Nat) : ℚ) ≤ 1 := by
      have : m % 2 ≤ 1 := by omega
      exact_mod_cast this
    apply f64_to_size_eq
    · linarith
    · linarith
    · omega
  rw [predict_def, if_neg hne]
  simp only
  rw [hw1, hw2, h1, h2, h3, h4, if_neg (by norm_num), if_neg (by norm_num), h5, h6]
  simp only
  rw [uadd_eq (by omega), Nat.zero_add]

/-! ## Tables of samples of the squares -/

theorem sqTable_a_zero (x : Nat) (l : List Nat) : (sqTable (x :: l)).a 0 = ⟨sqArray x, x⟩ := rfl

theorem sqTable_a_succ (x : Nat) (l : List Nat) (k : Nat) :
    (sqTable (x :: l)).a (k + 1) = (sqTable l).a k := rfl

theorem sqTable_a_of_le (l : List Nat) (k : Nat) (h : l.length ≤ k) :
    (sqTable l).a k = ⟨0, 0⟩ := by
  show (match l.get? k with
    | some m => (⟨sqArray m, m⟩ : Anchor)
    | none => ⟨0, 0⟩) = ⟨0, 0⟩
  rw [List.get?_eq_none.mpr h]

/-- Inserting a sample at position 1 of a table of samples. -/
theorem sqTable_insert (x m : Nat) (l : List Nat) :
    (⟨fun k => if k = 0 + 1 then ⟨sqArray m, m⟩
        else if 0 + 1 < k ∧ k ≤ (sqTable (x :: l)).n then (sqTable (x :: l)).a (k - 1)
        else (sqTable (x :: l)).a k, (sqTable (x :: l)).n + 1, (sqTable (x :: l)).cap⟩ :
      AnchorTable) = sqTable (x :: m :: l) := by
  have hn : (sqTable (x :: l)).n = l.length + 1 := rfl
  show AnchorTable.mk _ _ _ = AnchorTable.mk _ _ _
  congr 1
  funext k
  rw [hn]
  rcases k with _ | _ | j
  · rfl
  · rfl
  · rw [if_neg (by omega)]
    by_cases hj : j + 1 + 1 ≤ l.length + 1
    · rw [if_pos ⟨by omega, hj⟩]
      rfl
    · rw [if_neg (fun h => hj h.2)]
      show (sqTable l).a (j + 1) = (sqTable (m :: l)).a (j + 1)
      rw [sqTable_a_of_le l _ (by omega), sqTable_a_of_le (m :: l) _ (by simp; omega)]

/-- On a table of samples of the squares whose first two anchors are at the
indices `0` and `2m`, the search for the key `m^2` selects these two anchors,
predicts `m / 2` and finds the key at `m`. -/
theorem search_seeded_sq (alloc : Nat → Bool) {n : Nat} (hn : n ≤ 2 ^ 20) (m : Nat) (hm : 1 ≤ m)
    (rest : List Nat) (hT : Seeded sqArray n (sqTable (0 :: 2 * m :: rest))) :
    anchor_lower (sqTable (0 :: 2 * m :: rest)) (sqArray m) = .ret 0 ∧
    predict (sqArray m) ((sqTable (0 :: 2 * m :: rest)).a 0)
      ((sqTable (0 :: 2 * m :: rest)).a 1) = some (m / 2) ∧
    ∀ T1, learn alloc (sqTable (0 :: 2 * m :: rest)) (m / 2) 0 m (sqArray m) = .ret T1 →
      search_seeded alloc sqArray n (sqArray m) (sqTable (0 :: 2 * m :: rest)) 0 =
        .ret (m, T1) := by
  have hs := sqArray_strictlyIncreasing n
  have h1 := hT.exact 1 (by have := hT.two_le; omega)
  have hmn : 2 * m < n := h1.1
  obtain ⟨p, pred, hp, hp1, hlo, _, hpred, hlearn⟩ :=
    search_seeded_present_learn alloc (sqArray_isArray hn) hs hT (show m < n by omega) 0
  have hp0 : p = 0 := by
    by_contra hne
    rcases hlo with h | h
    · exact hne h
    · have hsorted := hT.sorted hs
      have hle : ((sqTable (0 :: 2 * m :: rest)).a 1).v ≤ ((sqTable (0 :: 2 * m :: rest)).a p).v := by
        rcases Nat.eq_or_lt_of_le (show 1 ≤ p by omega) with e | e
        · rw [← e]
        · exact (hsorted 1 p e (by omega)).le
      have hlt : sqArray m < sqArray (2 * m) := hs m (2 * m) (by omega) hmn
      have e1 : ((sqTable (0 :: 2 * m :: rest)).a 1).v = sqArray (2 * m) := rfl
      rw [e1] at hle
      omega
  subst hp0
  have hq : predict (sqArray m) ((sqTable (0 :: 2 * m :: rest)).a 0)
      ((sqTable (0 :: 2 * m :: rest)).a 1) = some (m / 2) := predict_sq m hm (by omega)
  have hpe : pred = m / 2 := by
    have h := hpred
    rw [show (0 : Nat) + 1 = 1 from rfl, hq] at h
    simp only [Option.some.injEq] at h
    exact h.symm
  subst hpe
  exact ⟨hp, hq, hlearn⟩

/-- With a free cell in the buffer the search for `m^2` inserts the anchor
`(m^2, m)` at position 1. -/
theorem search_seeded_sq_insert (alloc : Nat → Bool) {n : Nat} (hn : n ≤ 2 ^ 20) (m : Nat)
    (hm : 1 ≤ m) (rest : List Nat) (hroom : rest.length + 3 ≤ 8)
    (hT : Seeded sqArray n (sqTable (0 :: 2 * m :: rest))) :
    search_seeded alloc sqArray n (sqArray m) (sqTable (0 :: 2 * m :: rest)) 0 =
      .ret (m, sqTable (0 :: m :: 2 * m :: rest)) := by
  obtain ⟨hp, _, hlearn⟩ := search_seeded_sq alloc hn m hm rest hT
  apply hlearn
  have hlen : (sqTable (0 :: 2 * m :: rest)).n = rest.length + 2 := rfl
  have hcap : (sqTable (0 :: 2 * m :: rest)).cap = 8 := rfl
  obtain ⟨p, hp', _, hins⟩ := anchor_insert_room alloc (sqTable (0 :: 2 * m :: rest))
    (sqArray m) m (by omega) (by omega) (by omega)
  have hp0 : p = 0 := by
    rw [hp] at hp'
    simp only [Result.ret.injEq] at hp'
    exact hp'.symm
  subst hp0
  rw [sqTable_insert] at hins
  exact learn_of_insert (by split_ifs <;> omega) hins

/-- With a full buffer that cannot grow the search for `m^2` leaves the table
as it is, although the prediction is off. -/
theorem search_seeded_sq_full (alloc : Nat → Bool) {n : Nat} (hn : n ≤ 2 ^ 20) (m : Nat)
    (hm : 1 ≤ m) (rest : List Nat)
    (hfail : ensure_cap alloc (sqTable (0 :: 2 * m :: rest)) (rest.length + 3) = none)
    (hT : Seeded sqArray n (sqTable (0 :: 2 * m :: rest))) :
    search_seeded alloc sqArray n (sqArray m) (sqTable (0 :: 2 * m :: rest)) 0 =
      .ret (m, sqTable (0 :: 2 * m :: rest)) := by
  obtain ⟨_, _, hlearn⟩ := search_seeded_sq alloc hn m hm rest hT
  apply hlearn
  have hlen : (sqTable (0 :: 2 * m :: rest)).n = rest.length + 2 := rfl
  have hTn := hT.n_le
  apply learn_of_fail
  apply anchor_insert_of_fail
  rw [uadd_eq (by omega), hlen]
  exact hfail

end Stisla

namespace Stisla

/-! ## Filling a buffer of 8 cells on the array of the squares -/

theorem sqTable_two_seeded : Seeded sqArray 129 (sqTable [0, 128]) :=
  Seeded.of_endpoints (by decide) rfl (by decide) rfl rfl

theorem seed_sq : seed eightCells sqArray 129 emptyTable = .ret (some (sqTable [0, 128])) := by
  have h1 : ensure_cap eightCells emptyTable 2 = some ⟨emptyTable.a, 0, 8⟩ := by
    unfold ensure_cap
    rw [if_neg (by decide)]
    rfl
  have h2 : twrite ⟨emptyTable.a, 0, 8⟩ 0 ⟨sqArray 0, 0⟩ =
      .ret ⟨Function.update emptyTable.a 0 ⟨sqArray 0, 0⟩, 0, 8⟩ := rfl
  have h3 : twrite ⟨Function.update emptyTable.a 0 ⟨sqArray 0, 0⟩, 0, 8⟩ 1
      ⟨sqArray (129 - 1), 129 - 1⟩ = .ret ⟨Function.update
        (Function.update emptyTable.a 0 ⟨sqArray 0, 0⟩) 1
        ⟨sqArray (129 - 1), 129 - 1⟩, 0, 8⟩ := rfl
  rw [seed_of_empty rfl h1 h2 h3]
  show Result.ret (some (AnchorTable.mk _ _ _)) = Result.ret (some (AnchorTable.mk _ _ _))
  congr 3
  funext k
  rcases k with _ | _ | j
  · rfl
  · rfl
  · simp only [Function.update_apply]
    rw [if_neg (by omega), if_neg (by omega)]
    rfl

/-- The first search, for the key `64^2`, seeds the table and inserts the
anchor `(64^2, 64)`. -/
theorem stisla_search_sq_first :
    stisla_search eightCells sqArray 129 (sqArray 64) emptyTable 0 =
      .ret (64, sqTable [0, 64, 128]) := by
  rw [stisla_search_of_seed (sqArray 64) 0 (by decide) seed_sq]
  exact search_seeded_sq_insert eightCells (by norm_num) 64 (by norm_num) [] (by decide)
    sqTable_two_seeded

/-- On a reachable table with a free cell the search for `m^2` inserts the
anchor `(m^2, m)` at position 1. -/
theorem stisla_search_sq_step (m : Nat) (hm : 1 ≤ m) (rest : List Nat)
    (hroom : rest.length + 3 ≤ 8)
    (h : Reachable eightCells sqArray 129 (sqTable (0 :: 2 * m :: rest))) :
    stisla_search eightCells sqArray 129 (sqArray m) (sqTable (0 :: 2 * m :: rest)) 0 =
      .ret (m, sqTable (0 :: m :: 2 * m :: rest)) := by
  have hlen : (sqTable (0 :: 2 * m :: rest)).n = rest.length + 2 := rfl
  have hne : (sqTable (0 :: 2 * m :: rest)).n ≠ 0 := by omega
  have hT : Seeded sqArray 129 (sqTable (0 :: 2 * m :: rest)) := by
    rcases reachable_empty_or_seeded eightCells (sqArray_isArray (by norm_num))
      (sqArray_strictlyIncreasing 129) h with h0 | h0
    · exact absurd h0 hne
    · exact h0
  rw [stisla_search_of_seed (sqArray m) 0 (by decide) (seed_of_seeded hne)]
  exact search_seeded_sq_insert eightCells (by norm_num) m hm rest hroom hT

/-- Six searches fill the buffer of 8 cells. -/
theorem sqTable_full_reachable :
    Reachable eightCells sqArray 129 (sqTable [0, 2, 4, 8, 16, 32, 64, 128]) := by
  have r1 : Reachable eightCells sqArray 129 (sqTable [0, 64, 128]) :=
    Reachable.call _ _ _ _ _ Reachable.empty stisla_search_sq_first
  have r2 : Reachable eightCells sqArray 129 (sqTable [0, 32, 64, 128]) :=
    Reachable.call _ _ _ _ _ r1 (stisla_search_sq_step 32 (by norm_num) [128] (by decide) r1)
  have r3 : Reachable eightCells sqArray 129 (sqTable [0, 16, 32, 64, 128]) :=
    Reachable.call _ _ _ _ _ r2 (stisla_search_sq_step 16 (by norm_num) [64, 128] (by decide) r2)
  have r4 : Reachable eightCells sqArray 129 (sqTable [0, 8, 16, 32, 64, 128]) :=
    Reachable.call _ _ _ _ _ r3
      (stisla_search_sq_step 8 (by norm_num) [32, 64, 128] (by decide) r3)
  have r5 : Reachable eightCells sqArray 129 (sqTable [0, 4, 8, 16, 32, 64, 128]) :=
    Reachable.call _ _ _ _ _ r4
      (stisla_search_sq_step 4 (by norm_num) [16, 32, 64, 128] (by decide) r4)
  exact Reachable.call _ _ _ _ _ r5
    (stisla_search_sq_step 2 (by norm_num) [8, 16, 32, 64, 128] (by decide) r5)

theorem ensure_cap_sqTable_full :
    ensure_cap eightCells (sqTable [0, 2, 4, 8, 16, 32, 64, 128]) 9 = none := by
  have e : umul 8 2 = 16 := umul_eq (by norm_num)
  unfold ensure_cap
  rw [if_neg (by decide)]
  show (if eightCells (if (if (8 : Nat) ≠ 0 then umul 8 2 else 8) < 9 then 9
        else (if (8 : Nat) ≠ 0 then umul 8 2 else 8)) = true then _ else none) = none
  rw [e, if_neg (by decide)]

/-- On the full table the search for the key `1` at index `1` selects the
anchors `(0, 0)` and `(4, 2)`, predicts the index `0`, and returns `1` with the
table as it was: the buffer cannot grow. -/
theorem stisla_search_sq_full :
    anchor_lower (sqTable [0, 2, 4, 8, 16, 32, 64, 128]) (sqArray 1) = .ret 0 ∧
    predict (sqArray 1) ((sqTable [0, 2, 4, 8, 16, 32, 64, 128]).a 0)
      ((sqTable [0, 2, 4, 8, 16, 32, 64, 128]).a 1) = some 0 ∧
    stisla_search eightCells sqArray 129 (sqArray 1) (sqTable [0, 2, 4, 8, 16, 32, 64, 128]) 0 =
      .ret (1, sqTable [0, 2, 4, 8, 16, 32, 64, 128]) := by
  have hne : (sqTable [0, 2, 4, 8, 16, 32, 64, 128]).n ≠ 0 := by decide
  have hT : Seeded sqArray 129 (sqTable [0, 2, 4, 8, 16, 32, 64, 128]) := by
    rcases reachable_empty_or_seeded eightCells (sqArray_isArray (by norm_num))
      (sqArray_strictlyIncreasing 129) sqTable_full_reachable with h0 | h0
    · exact absurd h0 hne
    · exact h0
  obtain ⟨h1, h2, _⟩ := search_seeded_sq eightCells (show 129 ≤ 2 ^ 20 by norm_num) 1
    (by norm_num) [4, 8, 16, 32, 64, 128] hT
  refine ⟨h1, h2, ?_⟩
  rw [stisla_search_of_seed (sqArray 1) 0 (by decide) (seed_of_seeded hne)]
  exact search_seeded_sq_full eightCells (by norm_num) 1 (by norm_num) [4, 8, 16, 32, 64, 128]
    ensure_cap_sqTable_full hT

/-! ## A retry after a failed allocation -/

theorem stisla_search_bench_no_memory :
    stisla_search (fun _ => false) benchArray 100 0 emptyTable 8 =
      .ret (SIZE_MAX, emptyTable) := by
  have h1 : ensure_cap (fun _ => false) emptyTable 2 = none := by
    unfold ensure_cap
    rw [if_neg (by decide)]
    rfl
  exact stisla_search_of_seed_fail 0 8 (by decide) (seed_of_fail rfl h1)

theorem stisla_search_bench_zero :
    stisla_search (fun _ => true) benchArray 100 0 emptyTable 8 = .ret (0, seededBench) := by
  rw [stisla_search_of_seed 0 8 (by decide) seed_bench]
  obtain ⟨p, pred, T1, _, hp1, hpred, _, _, hsearch, _, hdesc⟩ :=
    search_seeded_present_any (fun _ => true) (GisBench.benchArray_isArray (by norm_num))
      (GisBench.benchArray_strictlyIncreasing 100) seededBench_seeded
      (show 0 < 100 by norm_num) 8
  have hp0 : p = 0 := by
    have : seededBench.n = 2 := rfl
    omega
  subst hp0
  have hleft := predict_left (seededBench.a 0) (seededBench.a (0 + 1)) (by decide) (by decide)
  have e : (seededBench.a 0).v = benchArray 0 := by decide
  rw [e, hpred] at hleft
  simp only [Option.some.injEq] at hleft
  have hi : (seededBench.a 0).i = 0 := by decide
  rw [hi] at hleft
  subst hleft
  rw [if_neg (by simp)] at hdesc
  subst hdesc
  exact hsearch

end Stisla

/-! ## Rounding of a quotient and of its product with the divisor -/

/-- The binary64 quotient `t / N` times `N` is within `1/2` of `t`, for
`N ≤ 2^30`. -/
theorem f64_ratio_near {t N : Nat} (hN1 : 1 ≤ N) (hN : N ≤ 2 ^ 30) (ht : t ≤ N) :
    0 ≤ f64 ((t : ℚ) / N) ∧ f64 ((t : ℚ) / N) ≤ 1 ∧
      (t : ℚ) - 1 / 2 ≤ N * f64 ((t : ℚ) / N) ∧ N * f64 ((t : ℚ) / N) ≤ t + 1 / 2 := by
  have hNq : (0 : ℚ) < N := by exact_mod_cast hN1
  have hNq2 : (N : ℚ) ≤ 2 ^ 30 := by exact_mod_cast hN
  have htq : (0 : ℚ) ≤ t := Nat.cast_nonneg t
  have htN : (t : ℚ) ≤ N := by exact_mod_cast ht
  have hq0 : (0 : ℚ) ≤ (t : ℚ) / N := div_nonneg htq hNq.le
  have hq1 : (t : ℚ) / N ≤ 1 := by
    rw [div_le_one hNq]
    exact htN
  have hp : (0 : ℚ) < 2 ^ 52 := by norm_num
  have hz0 : 0 ≤ ⌊(t : ℚ) / N * 2 ^ 52⌋ := Int.floor_nonneg.mpr (by positivity)
  have hz1 : ⌊(t : ℚ) / N * 2 ^ 52⌋ ≤ 2 ^ 52 := by
    have h : (t : ℚ) / N * 2 ^ 52 ≤ ((2 ^ 52 : ℤ) : ℚ) := by
      push_cast
      nlinarith
    have := Int.floor_le_floor h
    rwa [Int.floor_intCast] at this
  have hfl := Int.floor_le ((t : ℚ) / N * 2 ^ 52)
  have hfl2 := Int.lt_floor_add_one ((t : ℚ) / N * 2 ^ 52)
  have hlo : ((⌊(t : ℚ) / N * 2 ^ 52⌋ : ℤ) : ℚ) / 2 ^ 52 ≤ (t : ℚ) / N := by
    rw [div_le_iff₀ hp]
    exact hfl
  have hhi : (t : ℚ) / N ≤ ((⌊(t : ℚ) / N * 2 ^ 52⌋ + 1 : ℤ) : ℚ) / 2 ^ 52 := by
    rw [le_div_iff₀ hp]
    push_cast
    exact hfl2.le
  have hzq0 : (0 : ℚ) ≤ ((⌊(t : ℚ) / N * 2 ^ 52⌋ : ℤ) : ℚ) := by exact_mod_cast hz0
  have elo : f64 (((⌊(t : ℚ) / N * 2 ^ 52⌋ : ℤ) : ℚ) / 2 ^ 52) =
      ((⌊(t : ℚ) / N * 2 ^ 52⌋ : ℤ) : ℚ) / 2 ^ 52 :=
    f64_dyadic _ 52 rfl (by rw [abs_lt]; constructor <;> omega)
  have ehi : f64 (((⌊(t : ℚ) / N * 2 ^ 52⌋ + 1 : ℤ) : ℚ) / 2 ^ 52) =
      ((⌊(t : ℚ) / N * 2 ^ 52⌋ + 1 : ℤ) : ℚ) / 2 ^ 52 :=
    f64_dyadic _ 52 rfl (by rw [abs_lt]; constructor <;> omega)
  have h1 := f64_mono_nonneg (div_nonneg hzq0 hp.le) hlo
  have h2 := f64_mono_nonneg hq0 hhi
  rw [elo] at h1
  rw [ehi] at h2
  have h3 := f64_mono_nonneg hq0 hq1
  rw [f64_one] at h3
  have hmul : (N : ℚ) * ((t : ℚ) / N) = t := by
    field_simp
  have hlo2 : (t : ℚ) / N - 1 / 2 ^ 52 ≤ f64 ((t : ℚ) / N) := by
    have : (t : ℚ) / N - 1 / 2 ^ 52 ≤ ((⌊(t : ℚ) / N * 2 ^ 52⌋ : ℤ) : ℚ) / 2 ^ 52 := by
      rw [le_div_iff₀ hp, sub_mul, one_div, inv_mul_cancel₀ hp.ne']
      push_cast at hfl2
      linarith
    linarith
  have hhi2 : f64 ((t : ℚ) / N) ≤ (t : ℚ) / N + 1 / 2 ^ 52 := by
    have : ((⌊(t : ℚ) / N * 2 ^ 52⌋ + 1 : ℤ) : ℚ) / 2 ^ 52 ≤ (t : ℚ) / N + 1 / 2 ^ 52 := by
      rw [div_le_iff₀ hp, add_mul, one_div, inv_mul_cancel₀ hp.ne']
      push_cast
      linarith
    linarith
  have hsmall : (N : ℚ) * (1 / 2 ^ 52) ≤ 1 / 2 := by
    have : (N : ℚ) * (1 / 2 ^ 52) ≤ 2 ^ 30 * (1 / 2 ^ 52) :=
      mul_le_mul_of_nonneg_right hNq2 (by positivity)
    have e : (2 : ℚ) ^ 30 * (1 / 2 ^ 52) ≤ 1 / 2 := by norm_num
    linarith
  refine ⟨f64_nonneg hq0, h3, ?_, ?_⟩
  · have := mul_le_mul_of_nonneg_left hlo2 hNq.le
    rw [mul_sub, hmul] at this
    linarith
  · have := mul_le_mul_of_nonneg_left hhi2 hNq.le
    rw [mul_add, hmul] at this
    linarith

/-- A non-negative product within `1/2` of the integer `t` rounds and
truncates to `t - 1` or to `t`. -/
theorem f64_to_size_near {d : ℚ} {t : Nat} (ht : t < 2 ^ 52) (h0 : 0 ≤ d)
    (hlo : (t : ℚ) - 1 / 2 ≤ d) (hhi : d ≤ t + 1 / 2) :
    ∃ k, f64_to_size (f64 d) = some k ∧ k ≤ t ∧ t ≤ k + 1 := by
  have htz : (t : ℤ) < 2 ^ 52 := by exact_mod_cast ht
  have hu : f64 ((t : ℚ) + 1 / 2) = (t : ℚ) + 1 / 2 :=
    f64_dyadic (2 * (t : ℤ) + 1) 1 (by push_cast; ring) (by rw [abs_lt]; constructor <;> omega)
  have h1 := f64_mono_nonneg h0 hhi
  rw [hu] at h1
  have h2 := f64_nonneg h0
  by_cases hc : (t : ℚ) ≤ f64 d
  · exact ⟨t, f64_to_size_eq hc (by linarith) (by omega), le_rfl, by omega⟩
  · have ht1 : 1 ≤ t := by
      by_contra hcon
      have : t = 0 := by omega
      subst this
      apply hc
      simpa using h2
    have htq : (1 : ℚ) ≤ t := by exact_mod_cast ht1
    have hl : f64 ((t : ℚ) - 1 / 2) = (t : ℚ) - 1 / 2 :=
      f64_dyadic (2 * (t : ℤ) - 1) 1 (by push_cast; ring)
        (by rw [abs_lt]; constructor <;> omega)
    have h3 := f64_mono_nonneg (show (0 : ℚ) ≤ (t : ℚ) - 1 / 2 by linarith) hlo
    rw [hl] at h3
    have hcast : ((t - 1 : Nat) : ℚ) = (t : ℚ) - 1 := by
      rw [Nat.cast_sub ht1]
      simp
    refine ⟨t - 1, f64_to_size_eq ?_ ?_ (by omega), by omega, by omega⟩
    · rw [hcast]
      linarith
    · rw [hcast]
      push_neg at hc
      linarith

namespace Stisla

/-! ## stisla_search on the benchmark array -/

theorem benchArray_zero : benchArray 0 = 0 := by
  unfold benchArray
  simp

/-- Between the endpoints of the benchmark array the prediction of the key at
index `t` is `t - 1` or `t`. -/
theorem predict_bench {N : Nat} (hN1 : 1 ≤ N) (hN : N ≤ 2 ^ 30) {t : Nat} (ht : t ≤ N) :
    ∃ pred, predict (benchArray t) ⟨benchArray 0, 0⟩ ⟨benchArray N, N⟩ = some pred ∧
      pred ≤ t ∧ t ≤ pred + 1 := by
  have hNz : (N : Int) ≤ 2 ^ 30 := by exact_mod_cast hN
  have hN1z : (1 : Int) ≤ N := by exact_mod_cast hN1
  have htz : (t : Int) ≤ N := by exact_mod_cast ht
  have ht0 : (0 : Int) ≤ t := Int.natCast_nonneg t
  have hne : benchArray N ≠ benchArray 0 := by
    rw [benchArray_zero]
    unfold benchArray
    omega
  have hw1 : wrap64 (benchArray t - benchArray 0) = 2 * (t : Int) := by
    rw [benchArray_zero, sub_zero]
    unfold benchArray
    apply wrap64_eq
    unfold IsInt64
    constructor <;> omega
  have hw2 : wrap64 (benchArray N - benchArray 0) = 2 * (N : Int) := by
    rw [benchArray_zero, sub_zero]
    unfold benchArray
    apply wrap64_eq
    unfold IsInt64
    constructor <;> omega
  have h1 : f64_of_int (2 * (t : Int)) = ((2 * (t : Int) : Int) : ℚ) :=
    f64_of_int_exact (by rw [abs_lt]; constructor <;> omega)
  have h2 : f64_of_int (2 * (N : Int)) = ((2 * (N : Int) : Int) : ℚ) :=
    f64_of_int_exact (by rw [abs_lt]; constructor <;> omega)
  have h3 : f64_of_size (usub N 0) = (N : ℚ) := by
    rw [usub_eq (Nat.zero_le _) (by omega), Nat.sub_zero]
    unfold f64_of_size
    exact f64_natCast (by omega)
  have hNq : (0 : ℚ) < N := by exact_mod_cast hN1
  have h4 : f64_div (((2 * (t : Int) : Int)) : ℚ) (((2 * (N : Int) : Int)) : ℚ) =
      f64 ((t : ℚ) / N) := by
    unfold f64_div
    congr 1
    push_cast
    field_simp
    ring
  obtain ⟨hf0, hf1, hlo, hhi⟩ := f64_ratio_near hN1 hN ht
  have hprod0 : (0 : ℚ) ≤ N * f64 ((t : ℚ) / N) := mul_nonneg hNq.le hf0
  obtain ⟨k, hk, hk1, hk2⟩ := f64_to_size_near (show t < 2 ^ 52 by omega) hprod0 hlo hhi
  have h5 : f64_to_size (f64_mul (N : ℚ) (f64 ((t : ℚ) / N))) = some k := by
    unfold f64_mul
    exact hk
  refine ⟨k, ?_, hk1, hk2⟩
  rw [predict_def, if_neg hne]
  simp only
  rw [hw1, hw2, h1, h2, h3, h4, if_neg (not_lt.mpr hf0), if_neg (not_lt.mpr hf1), h5]
  simp only
  rw [uadd_eq (by omega), Nat.zero_add]

theorem benchSeeded_a_zero (n : Nat) : (benchSeeded n).a 0 = ⟨benchArray 0, 0⟩ := by
  unfold benchSeeded
  simp [Function.update_apply]

theorem benchSeeded_a_one (n : Nat) : (benchSeeded n).a 1 = ⟨benchArray (n - 1), n - 1⟩ := by
  unfold benchSeeded
  simp [Function.update_apply]

theorem benchSeeded_seeded {n : Nat} (hn : 2 ≤ n) : Seeded benchArray n (benchSeeded n) :=
  Seeded.of_endpoints hn rfl (show 2 ≤ 8 by norm_num) (benchSeeded_a_zero n)
    (benchSeeded_a_one n)

/-- On the table of the two endpoints of the benchmark array, with a tolerance
of at least 1, the search for the element at index `t` predicts `t - 1` or `t`,
returns `t` and leaves the table as it is. -/
theorem search_seeded_bench (alloc : Nat → Bool) {n : Nat} (hn2 : 2 ≤ n) (hn : n ≤ 2 ^ 30)
    {tol : Nat} (htol : 1 ≤ tol) {t : Nat} (ht : t < n) :
    ∃ pred, predict (benchArray t) ((benchSeeded n).a 0) ((benchSeeded n).a 1) = some pred ∧
      pred ≤ t ∧ t ≤ pred + 1 ∧
      search_seeded alloc benchArray n (benchArray t) (benchSeeded n) tol =
        .ret (t, benchSeeded n) := by
  obtain ⟨pred, hpred, h1, h2⟩ :=
    predict_bench (show 1 ≤ n - 1 by omega) (show n - 1 ≤ 2 ^ 30 by omega)
      (show t ≤ n - 1 by omega)
  rw [← benchSeeded_a_zero n, ← benchSeeded_a_one n] at hpred
  obtain ⟨p, pred2, hp, hp1, _, _, hpred2, hlearn⟩ :=
    search_seeded_present_learn alloc (GisBench.benchArray_isArray (by omega))
      (GisBench.benchArray_strictlyIncreasing n) (benchSeeded_seeded hn2) ht tol
  have hp0 : p = 0 := by
    have : (benchSeeded n).n = 2 := rfl
    omega
  subst hp0
  rw [show (0 : Nat) + 1 = 1 from rfl, hpred] at hpred2
  simp only [Option.some.injEq] at hpred2
  subst hpred2
  refine ⟨pred, hpred, h1, h2, hlearn _ (learn_of_le alloc _ _ ?_)⟩
  split_ifs <;> omega

theorem seed_bench_of_alloc {alloc : Nat → Bool} (h : alloc 8 = true) (n : Nat) :
    seed alloc benchArray n emptyTable = .ret (some (benchSeeded n)) := by
  have h1 : ensure_cap alloc emptyTable 2 = some ⟨emptyTable.a, 0, 8⟩ := by
    unfold ensure_cap
    rw [if_neg (by decide)]
    show (if alloc 8 = true then _ else none) = _
    rw [if_pos h]
    rfl
  have h2 : twrite ⟨emptyTable.a, 0, 8⟩ 0 ⟨benchArray 0, 0⟩ =
      .ret ⟨Function.update emptyTable.a 0 ⟨benchArray 0, 0⟩, 0, 8⟩ := rfl
  have h3 : twrite ⟨Function.update emptyTable.a 0 ⟨benchArray 0, 0⟩, 0, 8⟩ 1
      ⟨benchArray (n - 1), n - 1⟩ = .ret ⟨Function.update
        (Function.update emptyTable.a 0 ⟨benchArray 0, 0⟩) 1
        ⟨benchArray (n - 1), n - 1⟩, 0, 8⟩ := rfl
  rw [seed_of_empty rfl h1 h2 h3]
  rfl

theorem seed_bench_of_no_alloc {alloc : Nat → Bool} (h : alloc 8 = false) (n : Nat) :
    seed alloc benchArray n emptyTable = .ret none := by
  have h1 : ensure_cap alloc emptyTable 2 = none := by
    unfold ensure_cap
    rw [if_neg (by decide)]
    show (if alloc 8 = true then _ else none) = _
    rw [if_neg (by rw [h]; decide)]
  exact seed_of_fail rfl h1

/-- On the benchmark array, with a tolerance of at least 1, a call of
`stisla_search` on the empty table or on the table of the two endpoints leaves
one of these two tables: no anchor is learned. -/
theorem stisla_search_bench (alloc : Nat → Bool) {n : Nat} (hn32 : 32 ≤ n) (hn : n ≤ 2 ^ 30)
    {tol : Nat} (htol : 1 ≤ tol) (key : Int) {T : AnchorTable}
    (hT : T = emptyTable ∨ T = benchSeeded n) :
    ∃ r T1, stisla_search alloc benchArray n key T tol = .ret (r, T1) ∧
      (T1 = emptyTable ∨ T1 = benchSeeded n) := by
  have hsmall : ¬ n < 32 := by omega
  have harr : IsArray benchArray n := GisBench.benchArray_isArray (by omega)
  have hseeded : ∀ alloc2 : Nat → Bool, ∃ r,
      search_seeded alloc2 benchArray n key (benchSeeded n) tol = .ret (r, benchSeeded n) := by
    intro alloc2
    rcases present_or_absent benchArray n key with ⟨t, ht, rfl⟩ | habs
    · obtain ⟨_, _, _, _, h⟩ := search_seeded_bench alloc2 (by omega) hn htol ht
      exact ⟨t, h⟩
    · exact ⟨SIZE_MAX, search_seeded_absent alloc2 harr (benchSeeded_seeded (by omega)) habs tol⟩
  obtain ⟨r, hr⟩ := hseeded alloc
  rcases hT with rfl | rfl
  · cases h8 : alloc 8 with
    | false =>
      exact ⟨SIZE_MAX, emptyTable,
        stisla_search_of_seed_fail key tol hsmall (seed_bench_of_no_alloc h8 n), Or.inl rfl⟩
    | true =>
      refine ⟨r, benchSeeded n, ?_, Or.inr rfl⟩
      rw [stisla_search_of_seed key tol hsmall (seed_bench_of_alloc h8 n)]
      exact hr
  · refine ⟨r, benchSeeded n, ?_, Or.inr rfl⟩
    have hne : (benchSeeded n).n ≠ 0 := show 2 ≠ 0 by norm_num
    rw [stisla_search_of_seed key tol hsmall (seed_of_seeded hne)]
    exact hr

/-- The warm-up loop on the benchmark array, with a tolerance of at least 1,
ends with the empty table or with the table of the two endpoints, whatever the
queries. -/
theorem warm_up_bench (alloc : Nat → Bool) {n : Nat} (hn32 : 32 ≤ n) (hn : n ≤ 2 ^ 30)
    {tol : Nat} (htol : 1 ≤ tol) :
    ∀ (ks : List Nat) (T : AnchorTable), (T = emptyTable ∨ T = benchSeeded n) →
      ∃ T1, warm_up alloc benchArray n tol ks T = .ret T1 ∧
        (T1 = emptyTable ∨ T1 = benchSeeded n) := by
  intro ks
  induction ks with
  | nil =>
    intro T hT
    exact ⟨T, rfl, hT⟩
  | cons k ks ih =>
    intro T hT
    obtain ⟨r, T1, hcall, hT1⟩ := stisla_search_bench alloc hn32 hn htol (benchArray k) hT
    obtain ⟨T2, hrun, hT2⟩ := ih T1 hT1
    refine ⟨T2, ?_, hT2⟩
    rw [warm_up, hcall]
    exact hrun

end Stisla

open GisBench Stisla

/-! ## Claims C11 to C20 -/

/-- Claim C11, counterexample: on the array of the squares (`n = 129`), with
tolerance 0 and an allocator that grants 8 cells and refuses 16, the table of
the 8 anchors at the indices `0, 2, 4, ..., 128` is reachable (and seeded).
The query for the key `1`, present at index `1`, selects the anchors `(0, 0)`
and `(4, 2)` and predicts the index `0`, off by `1 > tol`; the buffer is full
and cannot grow, so no anchor is inserted: the call returns `1` and the table
is the table before the call. -/
theorem stisla_search_full_buffer_skips_learning :
    IsArray sqArray 129 ∧ StrictlyIncreasing sqArray 129 ∧
      Reachable eightCells sqArray 129 (sqTable [0, 2, 4, 8, 16, 32, 64, 128]) ∧
      ReachableAny sqArray 129 (sqTable [0, 2, 4, 8, 16, 32, 64, 128]) ∧
      (sqTable [0, 2, 4, 8, 16, 32, 64, 128]).n = 8 ∧ sqArray 1 = 1 ∧
      anchor_lower (sqTable [0, 2, 4, 8, 16, 32, 64, 128]) (sqArray 1) = .ret 0 ∧
      predict (sqArray 1) ((sqTable [0, 2, 4, 8, 16, 32, 64, 128]).a 0)
        ((sqTable [0, 2, 4, 8, 16, 32, 64, 128]).a 1) = some 0 ∧
      stisla_search eightCells sqArray 129 (sqArray 1)
        (sqTable [0, 2, 4, 8, 16, 32, 64, 128]) 0 =
          .ret (1, sqTable [0, 2, 4, 8, 16, 32, 64, 128]) :=
  ⟨sqArray_isArray (by norm_num), sqArray_strictlyIncreasing 129, sqTable_full_reachable,
    sqTable_full_reachable.any, rfl, by decide, stisla_search_sq_full.1, stisla_search_sq_full.2.1, stisla_search_sq_full.2.2⟩

/-- Claim C11, amended: for every strictly increasing array of `n ≤ 2^53`
`int64_t`, every seeded table `T` reachable from the empty table (whatever the
allocations did on the way; such a table exists only with `32 ≤ n`), every
tolerance, every allocator and every key present at index `t`, with
`p = anchor_lower(T, key)` and `pred` the prediction from the anchors `T[p]`,
`T[p+1]`: `stisla_search` returns `t`; when `|pred - t| > tol` and the buffer
can take one more anchor (a free cell, or a successful reallocation) the table
after the call has `T.n + 1` anchors, the old ones in their order with
`(arr[t], t)` between `T[p]` and `T[p+1]`; in every other case the table after
the call is `T`. -/
theorem stisla_search_learns_iff (alloc : Nat → Bool) (arr : Nat → Int) (n : Nat)
    (harr : IsArray arr n) (hs : StrictlyIncreasing arr n) (T : AnchorTable)
    (hT : ReachableAny arr n T) (hseeded : T.n ≠ 0) (tol t : Nat) (ht : t < n) :
    ∃ p pred T1, anchor_lower T (arr t) = .ret p ∧ p + 1 < T.n ∧
      predict (arr t) (T.a p) (T.a (p + 1)) = some pred ∧
      stisla_search alloc arr n (arr t) T tol = .ret (t, T1) ∧
      (((if pred > t then pred - t else t - pred) > tol ∧
          ensure_cap alloc T (T.n + 1) ≠ none) →
        T1.n = T.n + 1 ∧
        entries T1 = (entries T).take (p + 1) ++ ⟨arr t, t⟩ :: (entries T).drop (p + 1)) ∧
      (¬ ((if pred > t then pred - t else t - pred) > tol ∧
          ensure_cap alloc T (T.n + 1) ≠ none) → T1 = T) := by
  obtain ⟨hn, h⟩ := reachableAny_seeded harr hs hT hseeded
  rw [stisla_search_of_seed (arr t) tol (by omega) (seed_of_seeded hseeded)]
  exact search_seeded_learns alloc harr hs h ht tol

/-- Claim C11, witness: the seeded table `seededBench` on the first 100
elements of `a[i] = 2 * i`, the key at index 5, tolerance 8. -/
theorem stisla_search_learns_iff_witness :
    IsArray benchArray 100 ∧ StrictlyIncreasing benchArray 100 ∧
      ReachableAny benchArray 100 seededBench ∧ seededBench.n ≠ 0 ∧ 5 < 100 ∧
      ∃ p pred T1, anchor_lower seededBench (benchArray 5) = .ret p ∧ p + 1 < seededBench.n ∧
        predict (benchArray 5) (seededBench.a p) (seededBench.a (p + 1)) = some pred ∧
        stisla_search (fun _ => true) benchArray 100 (benchArray 5) seededBench 8 =
          .ret (5, T1) ∧
        (((if pred > 5 then pred - 5 else 5 - pred) > 8 ∧
            ensure_cap (fun _ => true) seededBench (seededBench.n + 1) ≠ none) →
          T1.n = seededBench.n + 1 ∧
          entries T1 = (entries seededBench).take (p + 1) ++
            ⟨benchArray 5, 5⟩ :: (entries seededBench).drop (p + 1)) ∧
        (¬ ((if pred > 5 then pred - 5 else 5 - pred) > 8 ∧
            ensure_cap (fun _ => true) seededBench (seededBench.n + 1) ≠ none) →
          T1 = seededBench) :=
  ⟨benchArray_isArray (by norm_num), benchArray_strictlyIncreasing _,
    seededBench_reachable.any, by decide, by norm_num,
    stisla_search_learns_iff (fun _ => true) benchArray 100 (benchArray_isArray (by norm_num))
      (benchArray_strictlyIncreasing _) seededBench seededBench_reachable.any
      (by decide) 8 5 (by norm_num)⟩

/-- Claim C12, counterexample: on the first 100 elements of `a[i] = 2 * i` and
the empty table, the query for the key `0`, present at index `0`, is made
twice in succession.  In the first call the allocation fails: the call returns
`SIZE_MAX` and leaves the table empty.  In the second call the allocation
succeeds: the call returns `0` and leaves the table of the two endpoints.  The
second call neither returns what the first one returned nor leaves the table
as the first one left it. -/
theorem stisla_search_retry_differs :
    IsArray benchArray 100 ∧ StrictlyIncreasing benchArray 100 ∧ benchArray 0 = 0 ∧
      ReachableAny benchArray 100 emptyTable ∧
      stisla_search (fun _ => false) benchArray 100 0 emptyTable 8 =
        .ret (SIZE_MAX, emptyTable) ∧
      stisla_search (fun _ => true) benchArray 100 0 emptyTable 8 = .ret (0, seededBench) ∧
      SIZE_MAX ≠ 0 ∧ emptyTable.n = 0 ∧ seededBench.n = 2 :=
  ⟨benchArray_isArray (by norm_num), benchArray_strictlyIncreasing _, benchArray_zero,
    ReachableAny.empty, stisla_search_bench_no_memory, stisla_search_bench_zero, by decide, rfl,
    rfl⟩

/-- Claim C12, amended: for every strictly increasing array of `n ≤ 2^53`
`int64_t`, every table reachable from the empty table (whatever the
allocations did on the way), every tolerance and every key, when
`stisla_search` is called twice in succession and the second call has no
allocation granted that the first call had refused (so when the allocation
succeeds in the first call, and when the allocator answers both calls alike),
the second call returns what the first one returned and leaves the table as
the first one left it. -/
theorem stisla_search_repeat_same (alloc alloc2 : Nat → Bool)
    (hmono : ∀ k, alloc2 k = true → alloc k = true) (arr : Nat → Int) (n : Nat)
    (harr : IsArray arr n) (hs : StrictlyIncreasing arr n) (T : AnchorTable)
    (hT : ReachableAny arr n T) (key : Int) (tol : Nat) :
    ∃ r T1, stisla_search alloc arr n key T tol = .ret (r, T1) ∧
      stisla_search alloc2 arr n key T1 tol = .ret (r, T1) :=
  stisla_search_twice hmono harr hs (reachableAny_empty_or_seeded harr hs hT) key tol

/-- Claim C12, witness: the key `0` on the first 100 elements of
`a[i] = 2 * i`, from the empty table, the first call with an allocator that
always succeeds and the second call with an allocator that always fails. -/
theorem stisla_search_repeat_same_witness :
    (∀ k : Nat, (fun _ : Nat => false) k = true → (fun _ : Nat => true) k = true) ∧
      IsArray benchArray 100 ∧ StrictlyIncreasing benchArray 100 ∧
      ReachableAny benchArray 100 emptyTable ∧
      ∃ r T1, stisla_search (fun _ => true) benchArray 100 0 emptyTable 8 = .ret (r, T1) ∧
        stisla_search (fun _ => false) benchArray 100 0 T1 8 = .ret (r, T1) :=
  ⟨fun _ _ => rfl, benchArray_isArray (by norm_num), benchArray_strictlyIncreasing _,
    ReachableAny.empty,
    stisla_search_repeat_same (fun _ => true) (fun _ => false) (fun _ _ => rfl) benchArray 100
      (benchArray_isArray (by norm_num)) (benchArray_strictlyIncreasing _) emptyTable
      ReachableAny.empty 0 8⟩

/-- Claim C13: for every array `a` of length `n` and every key `x` with
`n = 0`, `x < a[0]` or `x > a[n-1]`, `gis_search` returns `SIZE_MAX` with any
fuel, also with no fuel at all, so before a first round of the galloping loop;
and it returns `SIZE_MAX` on every array `b` that has the same two elements
`b[0] = a[0]` and `b[n-1] = a[n-1]` (for `n = 0`: on every array `b`): no
other element has a part in the result. -/
theorem gis_search_rejects_out_of_range (a b : Nat → Int) (n : Nat) (x : Int) (fuel : Nat)
    (h : n = 0 ∨ x < a 0 ∨ a (n - 1) < x) (hb0 : n ≠ 0 → b 0 = a 0)
    (hb1 : n ≠ 0 → b (n - 1) = a (n - 1)) :
    gis_search fuel a n x = .ret SIZE_MAX ∧ gis_search 0 a n x = .ret SIZE_MAX ∧
      gis_search fuel b n x = .ret SIZE_MAX ∧ gis_search 0 b n x = .ret SIZE_MAX := by
  have hb : n = 0 ∨ x < b 0 ∨ b (n - 1) < x := by
    by_cases hn : n = 0
    · exact Or.inl hn
    · rw [hb0 hn, hb1 hn]
      exact h
  exact ⟨gis_search_out_of_range fuel h, gis_search_out_of_range 0 h,
    gis_search_out_of_range fuel hb, gis_search_out_of_range 0 hb⟩

/-- Claim C13, witness: the key `500` above the first 100 elements of
`a[i] = 2 * i`, and an array that agrees with it at the indices `0` and `99`
only. -/
theorem gis_search_rejects_out_of_range_witness :
    ((100 : Nat) = 0 ∨ (500 : Int) < benchArray 0 ∨ benchArray (100 - 1) < 500) ∧
      ((100 : Nat) ≠ 0 → (fun i : Nat => if i = 0 then (0 : Int) else 198) 0 = benchArray 0) ∧
      ((100 : Nat) ≠ 0 →
        (fun i : Nat => if i = 0 then (0 : Int) else 198) (100 - 1) = benchArray (100 - 1)) ∧
      (gis_search 7 benchArray 100 500 = .ret SIZE_MAX ∧
        gis_search 0 benchArray 100 500 = .ret SIZE_MAX ∧
        gis_search 7 (fun i : Nat => if i = 0 then (0 : Int) else 198) 100 500 =
          .ret SIZE_MAX ∧
        gis_search 0 (fun i : Nat => if i = 0 then (0 : Int) else 198) 100 500 =
          .ret SIZE_MAX) :=
  ⟨Or.inr (Or.inr (by decide)), fun _ => by decide, fun _ => by decide,
    gis_search_rejects_out_of_range benchArray (fun i => if i = 0 then 0 else 198) 100 500 7
      (Or.inr (Or.inr (by decide))) (fun _ => by decide) (fun _ => by decide)⟩

/-- Claim C14: on an array of no element `gis_search` and `stisla_search`
return `SIZE_MAX` for every key; on an array of one element they return `0`
for the key `a[0]` and `SIZE_MAX` for every other key (`gis_search` with any
fuel of at least 1); `stisla_search` leaves the table as it is, whatever the
table, the tolerance and the allocator. -/
theorem search_tiny_arrays (alloc : Nat → Bool) (a : Nat → Int) (x : Int) (fuel : Nat)
    (T : AnchorTable) (tol : Nat) :
    gis_search fuel a 0 x = .ret SIZE_MAX ∧
      gis_search (fuel + 1) a 1 x = .ret (if x = a 0 then 0 else SIZE_MAX) ∧
      stisla_search alloc a 0 x T tol = .ret (SIZE_MAX, T) ∧
      stisla_search alloc a 1 x T tol = .ret (if x = a 0 then 0 else SIZE_MAX, T) :=
  ⟨gis_search_out_of_range fuel (Or.inl rfl), gis_search_singleton a x fuel,
    stisla_search_empty alloc a x T tol, stisla_search_singleton alloc a x T tol⟩

/-- Claim C15, counterexample: on the benchmark array `a[i] = 2 * i` with
`n = 1000000` and `tol = 8`, the warm-up loop started on the empty table ends,
whatever the allocator and whatever the list of queried indices, and the table
after it is the empty table or the table of the two endpoints: it never has
more than two anchors, no query inserts one. -/
theorem warm_up_bench_learns_nothing :
    IsArray benchArray 1000000 ∧ StrictlyIncreasing benchArray 1000000 ∧
      (benchSeeded 1000000).n = 2 ∧
      ∀ (alloc : Nat → Bool) (ks : List Nat),
        ∃ T, warm_up alloc benchArray 1000000 8 ks emptyTable = .ret T ∧
          (T = emptyTable ∨ T = benchSeeded 1000000) ∧ T.n ≤ 2 := by
  refine ⟨benchArray_isArray (by norm_num), benchArray_strictlyIncreasing _, rfl, ?_⟩
  intro alloc ks
  obtain ⟨T, h1, h2⟩ := warm_up_bench alloc (show 32 ≤ 1000000 by norm_num)
    (show 1000000 ≤ 2 ^ 30 by norm_num) (show 1 ≤ 8 by norm_num) ks emptyTable (Or.inl rfl)
  refine ⟨T, h1, h2, ?_⟩
  rcases h2 with rfl | rfl
  · exact Nat.zero_le 2
  · exact le_rfl

/-- Claim C15, amended: on the benchmark array `a[i] = 2 * i` with
`n = 1000000` and `tol = 8`, for every present key, at index `t`, the
prediction from the two endpoint anchors is `t - 1` or `t`, within the
tolerance: the query on the table of the two endpoints returns `t` and leaves
the table as it is, with its two anchors. -/
theorem stisla_search_bench_within_tolerance (alloc : Nat → Bool) (t : Nat)
    (ht : t < 1000000) :
    ∃ pred, predict (benchArray t) ((benchSeeded 1000000).a 0) ((benchSeeded 1000000).a 1) =
        some pred ∧ pred ≤ t ∧ t ≤ pred + 1 ∧
      stisla_search alloc benchArray 1000000 (benchArray t) (benchSeeded 1000000) 8 =
        .ret (t, benchSeeded 1000000) ∧ (benchSeeded 1000000).n = 2 := by
  obtain ⟨pred, h1, h2, h3, h4⟩ := search_seeded_bench alloc (show 2 ≤ 1000000 by norm_num)
    (show 1000000 ≤ 2 ^ 30 by norm_num) (show 1 ≤ 8 by norm_num) ht
  refine ⟨pred, h1, h2, h3, ?_, rfl⟩
  rw [stisla_search_of_seed (benchArray t) 8 (by norm_num)
    (seed_of_seeded (show (benchSeeded 1000000).n ≠ 0 by decide))]
  exact h4

/-- Claim C15, witness: the key `1400000` at index `700000`. -/
theorem stisla_search_bench_within_tolerance_witness :
    700000 < 1000000 ∧ benchArray 700000 = 1400000 ∧
      ∃ pred, predict (benchArray 700000) ((benchSeeded 1000000).a 0)
          ((benchSeeded 1000000).a 1) = some pred ∧ pred ≤ 700000 ∧ 700000 ≤ pred + 1 ∧
        stisla_search (fun _ => true) benchArray 1000000 (benchArray 700000)
          (benchSeeded 1000000) 8 = .ret (700000, benchSeeded 1000000) ∧
        (benchSeeded 1000000).n = 2 :=
  ⟨by norm_num, by decide,
    stisla_search_bench_within_tolerance (fun _ => true) 700000 (by norm_num)⟩

/-- Claim C16: for every strictly increasing array of `n ≤ 2^53` `int64_t`,
every seeded table `T` reachable from the empty table (whatever the
allocations did on the way; such a table exists only with `32 ≤ n`) and every
key present at index `t`, `anchor_lower(T, key)` returns a position `p` with
`p + 1 < T.n`, and the anchors `T[p]`, `T[p+1]` satisfy
`T[p].v ≤ key ≤ T[p+1].v` and `T[p].i ≤ t ≤ T[p+1].i`. -/
theorem bounding_anchors_contain_key (arr : Nat → Int) (n : Nat)
    (harr : IsArray arr n) (hs : StrictlyIncreasing arr n) (T : AnchorTable)
    (hT : ReachableAny arr n T) (hseeded : T.n ≠ 0) (t : Nat) (ht : t < n) :
    (32 ≤ n) ∧ ∃ p, anchor_lower T (arr t) = .ret p ∧ p + 1 < T.n ∧
      (T.a p).v ≤ arr t ∧ arr t ≤ (T.a (p + 1)).v ∧
      (T.a p).i ≤ t ∧ t ≤ (T.a (p + 1)).i := by
  obtain ⟨hn, h⟩ := reachableAny_seeded harr hs hT hseeded
  exact ⟨hn, bracket_both hs harr.1 h ht⟩

/-- Claim C16, witness: the seeded table `seededBench` on the first 100
elements of `a[i] = 2 * i` and the key at index 5. -/
theorem bounding_anchors_contain_key_witness :
    IsArray benchArray 100 ∧ StrictlyIncreasing benchArray 100 ∧
      ReachableAny benchArray 100 seededBench ∧ seededBench.n ≠ 0 ∧ 5 < 100 ∧
      (32 ≤ 100 ∧ ∃ p, anchor_lower seededBench (benchArray 5) = .ret p ∧
        p + 1 < seededBench.n ∧
        (seededBench.a p).v ≤ benchArray 5 ∧ benchArray 5 ≤ (seededBench.a (p + 1)).v ∧
        (seededBench.a p).i ≤ 5 ∧ 5 ≤ (seededBench.a (p + 1)).i) :=
  ⟨benchArray_isArray (by norm_num), benchArray_strictlyIncreasing _,
    seededBench_reachable.any, by decide, by norm_num,
    bounding_anchors_contain_key benchArray 100
      (benchArray_isArray (by norm_num)) (benchArray_strictlyIncreasing _)
      seededBench seededBench_reachable.any (by decide) 5 (by norm_num)⟩

/-- Claim C17: for every strictly increasing array, every pair of indices
`Li ≤ Ri < n` with `arr[Li] ≤ key ≤ arr[Ri]`, every prediction `pred` in
`[Li, Ri]` and every tolerance, the two reads `arr[lo]`, `arr[hi]` of the
widening step are inside the array, and the window `[lo, hi]` after the
widening satisfies `Li ≤ lo ≤ hi ≤ Ri` and contains every index `t` with
`arr[t] = key`. -/
theorem window_contains_key (arr : Nat → Int) (n : Nat) (hs : StrictlyIncreasing arr n)
    (Li Ri pred tol : Nat) (key : Int) (hRn : Ri < n) (hpl : Li ≤ pred) (hpr : pred ≤ Ri)
    (hLk : arr Li ≤ key) (hkR : key ≤ arr Ri) :
    window_lo pred tol Li < n ∧ window_hi pred tol Ri < n ∧
    Li ≤ (if arr (window_lo pred tol Li) > key then Li else window_lo pred tol Li) ∧
    (if arr (window_lo pred tol Li) > key then Li else window_lo pred tol Li) ≤
      (if arr (window_hi pred tol Ri) < key then Ri else window_hi pred tol Ri) ∧
    (if arr (window_hi pred tol Ri) < key then Ri else window_hi pred tol Ri) ≤ Ri ∧
    ∀ t, t < n → arr t = key →
      (if arr (window_lo pred tol Li) > key then Li else window_lo pred tol Li) ≤ t ∧
      t ≤ (if arr (window_hi pred tol Ri) < key then Ri else window_hi pred tol Ri) :=
  window_sound hs tol hRn hpl hpr hLk hkR

/-- Claim C17, witness: the first 100 elements of `a[i] = 2 * i`, the segment
`[0, 99]`, the key `10` at index 5, the prediction `50` and the tolerance 8. -/
theorem window_contains_key_witness :
    StrictlyIncreasing benchArray 100 ∧ 99 < 100 ∧ 0 ≤ 50 ∧ 50 ≤ 99 ∧
      benchArray 0 ≤ 10 ∧ (10 : Int) ≤ benchArray 99 ∧
      (if benchArray (window_lo 50 8 0) > 10 then 0 else window_lo 50 8 0) ≤ 5 ∧
      5 ≤ (if benchArray (window_hi 50 8 99) < 10 then 99 else window_hi 50 8 99) :=
  ⟨benchArray_strictlyIncreasing _, by norm_num, by norm_num, by norm_num, by decide,
    by decide,
    (window_contains_key benchArray 100 (benchArray_strictlyIncreasing _) 0 99 50 8 10
      (by norm_num) (by norm_num) (by norm_num) (by decide) (by decide)).2.2.2.2.2 5
      (by norm_num) (by decide)⟩

/-- Claim C18, failing input: on the strictly increasing array `jumpArray`
(`a[i] = i` for `i ≤ 95`, then `190`, `191`; `n = 98`) and the absent key
`189`, inside `[a[0], a[n-1]]`, the galloping ends with `L = 63`, `R = 97`; the
first round of the interpolation loop probes `P = 96` and sets `R = 95`; in the
second round the estimate is `P = 189`, above `R` and above `n - 1`, and the
read `a[189]` is outside the array.  With fuel for the galloping (at least 7)
the run is a fault, and with no amount of fuel does `gis_search` return a
value. -/
theorem gis_search_reads_outside_array :
    IsArray jumpArray 98 ∧ StrictlyIncreasing jumpArray 98 ∧
      jumpArray 0 ≤ 189 ∧ 189 ≤ jumpArray (98 - 1) ∧ (∀ i, i < 98 → jumpArray i ≠ 189) ∧
      jumpArray 63 = 63 ∧ jumpArray 95 = 95 ∧
      estimate 189 63 95 63 95 = some 189 ∧ load jumpArray 98 189 = .fault ∧
      (∀ fuel, narrow jumpArray 98 189 (fuel + 2) 63 97 = .fault) ∧
      (∀ fuel, gis_search (fuel + 7) jumpArray 98 189 = .fault) ∧
      ∀ fuel r, gis_search fuel jumpArray 98 189 ≠ .ret r := by
  refine ⟨jumpArray_isArray, jumpArray_strictlyIncreasing, by decide, by decide,
    jumpArray_absent, by decide, by decide, estimate_jumpArray_second, by decide,
    narrow_jumpArray, gis_search_jumpArray, ?_⟩
  intro fuel r
  by_cases h : fuel < 7
  · rw [gis_search_jumpArray_timeout fuel h]
    exact fun e => Result.noConfusion e
  · obtain ⟨m, rfl⟩ : ∃ m, fuel = m + 7 := ⟨fuel - 7, by omega⟩
    rw [gis_search_jumpArray m]
    exact fun e => Result.noConfusion e

/-- Claim C19: for every strictly increasing array of `n ≤ 2^53` `int64_t`
(with `32 ≤ n`, and also on the fast path), every table reachable from the
empty table (whatever the allocations did on the way), every tolerance, every
key (present, absent, below `arr[0]` or above `arr[n-1]`) and every allocator,
`stisla_search` returns: no read of the array is at an index `≥ n`, no read of
the table at a position `≥ T.n` and no write outside the allocated cells, each
of which is a fault of the embedding.  The update `hi = mid - 1` of the local
binary search runs only with `mid ≠ 0`, where the machine difference is
`mid - 1`: with `mid = 0` the loop is left. -/
theorem stisla_search_stays_in_bounds (alloc : Nat → Bool) (arr : Nat → Int) (n : Nat)
    (harr : IsArray arr n) (hs : StrictlyIncreasing arr n) (T : AnchorTable)
    (hT : ReachableAny arr n T) (key : Int) (tol : Nat) :
    (∃ r T1, stisla_search alloc arr n key T tol = .ret (r, T1)) ∧
    ∀ lo hi v, lo ≤ hi → load arr n (lo + (hi - lo) / 2) = .ret v → v > key →
      (lo + (hi - lo) / 2 = 0 → local_search arr n key lo hi = .ret none) ∧
      (lo + (hi - lo) / 2 ≠ 0 → lo + (hi - lo) / 2 < 2 ^ 64 →
        usub (lo + (hi - lo) / 2) 1 = lo + (hi - lo) / 2 - 1 ∧
        local_search arr n key lo hi =
          local_search arr n key lo (usub (lo + (hi - lo) / 2) 1)) := by
  constructor
  · obtain ⟨r, T1, h, _⟩ :=
      stisla_search_any alloc harr hs (reachableAny_empty_or_seeded harr hs hT) key tol
    exact ⟨r, T1, h⟩
  · intro lo hi v hle hv hgt
    exact local_search_step_down arr n key lo hi hle hv hgt

/-- Claim C19, witness: the seeded table `seededBench` on the first 100
elements of `a[i] = 2 * i` and the key `500`, above the last element. -/
theorem stisla_search_stays_in_bounds_witness :
    IsArray benchArray 100 ∧ StrictlyIncreasing benchArray 100 ∧
      ReachableAny benchArray 100 seededBench ∧
      ∃ r T1, stisla_search (fun _ => true) benchArray 100 500 seededBench 8 = .ret (r, T1) :=
  ⟨benchArray_isArray (by norm_num), benchArray_strictlyIncreasing _,
    seededBench_reachable.any,
    (stisla_search_stays_in_bounds (fun _ => true) benchArray 100
      (benchArray_isArray (by norm_num)) (benchArray_strictlyIncreasing _)
      seededBench seededBench_reachable.any 500 8).1⟩

/-- Claim C20: for every strictly increasing array `a` of length `n` and every
key `x`, the `bin_search` of `gis_bench.c` returns `t` when `a[t] = x` with
`t < n`, and `SIZE_MAX` when `x` does not occur in `a`; the `bin_search` of
`stisla_search.c` returns the same result, on every array and every key. -/
theorem bin_search_correct (a : Nat → Int) (n : Nat) (hs : StrictlyIncreasing a n) (x : Int) :
    (∀ t, t < n → a t = x → GisBench.bin_search a n x = .ret t) ∧
    ((∀ i, i < n → a i ≠ x) → GisBench.bin_search a n x = .ret SIZE_MAX) ∧
    (∀ (b : Nat → Int) (m : Nat) (y : Int),
      Stisla.bin_search b m y = GisBench.bin_search b m y) := by
  refine ⟨?_, ?_, ?_⟩
  · intro t ht hx
    rw [← hx]
    exact GisBench.bin_search_present hs ht
  · intro habs
    exact GisBench.bin_search_absent habs
  · intro b m y
    exact stisla_bin_search_eq b m y

/-- Claim C20, witness: the first 100 elements of `a[i] = 2 * i` and the key
`10`, at index 5. -/
theorem bin_search_correct_witness :
    StrictlyIncreasing benchArray 100 ∧ 5 < 100 ∧ benchArray 5 = 10 ∧
      GisBench.bin_search benchArray 100 10 = .ret 5 ∧
      Stisla.bin_search benchArray 100 10 = .ret 5 :=
  ⟨benchArray_strictlyIncreasing _, by norm_num, by decide,
    (bin_search_correct benchArray 100 (benchArray_strictlyIncreasing _) 10).1 5 (by norm_num)
      (by decide),
    by
      rw [(bin_search_correct benchArray 100 (benchArray_strictlyIncreasing _) 10).2.2]
      exact GisBench.bin_search_present (benchArray_strictlyIncreasing 100)
        (show 5 < 100 by norm_num)⟩
